import Mathlib

/-!
# A verification development for `single-linked-list.h`

The container is a pointer structure: every list object embeds a sentinel node
`head_` and a cached counter `size_`; the real nodes live in the free store and
are created by `new` and released by `delete`.  The embedding keeps that shape.

* `Mem` is the memory: the free store (`cells`) and the list objects (`objs`).
* `Ptr` is a `Node*`: `nullptr`, the address of the sentinel of a list object,
  or the address of a node in the free store.
* Every method of the class is a function on `Mem` that takes the object it is
  called on (`self`, the index of the object) and returns either a fault or
  the new memory.  `assert` failing, following a null pointer and touching a
  released node are three different faults.
* `size_t` is a natural number below `2 ^ 64`; `++` and `--` wrap around.
* `new` always succeeds and hands out an address that was never used before.
* Loops take a fuel argument; running out of it is the fault `outOfFuel`.
-/

namespace SLL

/-- A value of type `Node*`. -/
inductive Ptr where
  | null : Ptr
  | sentinel (obj : Nat) : Ptr
  | cell (addr : Nat) : Ptr
  deriving DecidableEq, Repr

/-- The struct `Node`: a value and the link to the next node. -/
structure Node (α : Type) where
  value : α
  next_node : Ptr
  deriving DecidableEq, Repr

/-- The data members of a `SingleLinkedList<Type>` object. -/
structure SingleLinkedList (α : Type) where
  head_ : Node α
  size_ : Nat
  deriving DecidableEq, Repr

/-- The ways an execution can stop without a result. -/
inductive Fault where
  | assertFailed : Fault
  | nullDeref : Fault
  | dangling : Fault
  | outOfFuel : Fault
  deriving DecidableEq, Repr

/-- The memory: the free store (a released node is `none`) and the list objects. -/
structure Mem (α : Type) where
  cells : List (Option (Node α))
  objs : List (SingleLinkedList α)
  deriving DecidableEq, Repr

/-- The range of `size_t`. -/
def SIZE_MOD : Nat := 2 ^ 64

variable {α : Type}

/-- Reads the node a pointer refers to (`*p` for a `Node* p`). -/
def Mem.load (m : Mem α) : Ptr → Except Fault (Node α)
  | Ptr.null => Except.error Fault.nullDeref
  | Ptr.sentinel i =>
    match m.objs[i]? with
    | some l => Except.ok l.head_
    | none => Except.error Fault.dangling
  | Ptr.cell a =>
    match m.cells[a]? with
    | some (some n) => Except.ok n
    | _ => Except.error Fault.dangling

/-- The assignment `p->next_node = q`. -/
def Mem.storeNext (m : Mem α) (p q : Ptr) : Except Fault (Mem α) :=
  match p with
  | Ptr.null => Except.error Fault.nullDeref
  | Ptr.sentinel i =>
    match m.objs[i]? with
    | some l =>
      Except.ok { m with objs := m.objs.set i { l with head_ := { l.head_ with next_node := q } } }
    | none => Except.error Fault.dangling
  | Ptr.cell a =>
    match m.cells[a]? with
    | some (some n) =>
      Except.ok { m with cells := m.cells.set a (some { n with next_node := q }) }
    | _ => Except.error Fault.dangling

/-- The expression `new Node(val, next)`: the node gets an address never used before. -/
def Mem.new (m : Mem α) (val : α) (next : Ptr) : Ptr × Mem α :=
  (Ptr.cell m.cells.length, { m with cells := m.cells ++ [some ⟨val, next⟩] })

/-- The statement `delete p`. Deleting `nullptr` does nothing. -/
def Mem.delete (m : Mem α) : Ptr → Except Fault (Mem α)
  | Ptr.null => Except.ok m
  | Ptr.sentinel _ => Except.error Fault.dangling
  | Ptr.cell a =>
    match m.cells[a]? with
    | some (some _) => Except.ok { m with cells := m.cells.set a none }
    | _ => Except.error Fault.dangling

/-- Reads the member `size_` of the object `self`. -/
def Mem.loadSize (m : Mem α) (self : Nat) : Except Fault Nat :=
  match m.objs[self]? with
  | some l => Except.ok l.size_
  | none => Except.error Fault.dangling

/-- Writes the member `size_` of the object `self`. -/
def Mem.storeSize (m : Mem α) (self : Nat) (n : Nat) : Except Fault (Mem α) :=
  match m.objs[self]? with
  | some l => Except.ok { m with objs := m.objs.set self { l with size_ := n } }
  | none => Except.error Fault.dangling

/-- The statement `++size_` on a `size_t`. -/
def Mem.incSize (m : Mem α) (self : Nat) : Except Fault (Mem α) := do
  let n ← m.loadSize self
  m.storeSize self ((n + 1) % SIZE_MOD)

/-- The statement `--size_` on a `size_t`. -/
def Mem.decSize (m : Mem α) (self : Nat) : Except Fault (Mem α) := do
  let n ← m.loadSize self
  m.storeSize self ((n + SIZE_MOD - 1) % SIZE_MOD)

/-- A new list object with its default member initialisers: `head_` is `Node()`
(value `Type{}`, link `nullptr`) and `size_` is `0u`.  Returns the object. -/
def Mem.newObj [Inhabited α] (m : Mem α) : Nat × Mem α :=
  (m.objs.length, { m with objs := m.objs ++ [⟨⟨default, Ptr.null⟩, 0⟩] })

/-! ## The iterator -/

/-- The class `BasicIterator`: one data member, `node_`. -/
structure BasicIterator where
  node_ : Ptr
  deriving DecidableEq, Repr

/-- The iterator `operator==`: `node_ == rhs.node_ ? true : false`. -/
def BasicIterator.eq (lhs rhs : BasicIterator) : Bool :=
  if lhs.node_ = rhs.node_ then true else false

/-- The iterator `operator!=`: `node_ != rhs.node_ ? true : false`. -/
def BasicIterator.ne (lhs rhs : BasicIterator) : Bool :=
  if lhs.node_ ≠ rhs.node_ then true else false

/-- The pre-increment `operator++()`: the iterator after the step. -/
def BasicIterator.inc (m : Mem α) (it : BasicIterator) : Except Fault BasicIterator := do
  if it.node_ = Ptr.null then throw Fault.assertFailed
  let n ← m.load it.node_
  pure ⟨n.next_node⟩

/-- The post-increment `operator++(int)`: the old value and the iterator after the step. -/
def BasicIterator.postInc (m : Mem α) (it : BasicIterator) :
    Except Fault (BasicIterator × BasicIterator) := do
  if it.node_ = Ptr.null then throw Fault.assertFailed
  let old := it
  let n ← m.load it.node_
  pure (old, ⟨n.next_node⟩)

/-- The dereference `operator*()`. -/
def BasicIterator.deref (m : Mem α) (it : BasicIterator) : Except Fault α := do
  if it.node_ = Ptr.null then throw Fault.assertFailed
  let n ← m.load it.node_
  pure n.value

/-! ## The methods of `SingleLinkedList` -/

/-- The method `before_begin()`: `Iterator{&head_}`. -/
def before_begin (self : Nat) : BasicIterator := ⟨Ptr.sentinel self⟩

/-- The method `begin()`: `Iterator{head_.next_node}`. -/
def begin (m : Mem α) (self : Nat) : Except Fault BasicIterator := do
  let h ← m.load (Ptr.sentinel self)
  pure ⟨h.next_node⟩

/-- The method `end()`: `Iterator{nullptr}`. -/
def end_ : BasicIterator := ⟨Ptr.null⟩

/-- The method `GetSize()`. -/
def GetSize (m : Mem α) (self : Nat) : Except Fault Nat :=
  m.loadSize self

/-- The method `IsEmpty()`: `size_ == 0u ? true : false`. -/
def IsEmpty (m : Mem α) (self : Nat) : Except Fault Bool := do
  let n ← m.loadSize self
  pure (if n = 0 then true else false)

/-- The method `PushFront(value)`. -/
def PushFront (m : Mem α) (self : Nat) (value : α) : Except Fault (Mem α) := do
  let h ← m.load (Ptr.sentinel self)
  let (p, m1) := m.new value h.next_node
  let m2 ← m1.storeNext (Ptr.sentinel self) p
  m2.incSize self

/-- The method `PopFront()`. -/
def PopFront (m : Mem α) (self : Nat) : Except Fault (Mem α) := do
  let h ← m.load (Ptr.sentinel self)
  let temp_node := h.next_node
  let first ← m.load h.next_node
  let m1 ← m.storeNext (Ptr.sentinel self) first.next_node
  let m2 ← m1.delete temp_node
  m2.decSize self

/-- The method `InsertAfter(pos, value)`: the returned iterator and the new memory. -/
def InsertAfter (m : Mem α) (self : Nat) (pos : BasicIterator) (value : α) :
    Except Fault (BasicIterator × Mem α) := do
  if pos.node_ = Ptr.null then throw Fault.assertFailed
  let pn ← m.load pos.node_
  let (new_node, m1) := m.new value pn.next_node
  let m2 ← m1.storeNext pos.node_ new_node
  let m3 ← m2.incSize self
  let pn3 ← m3.load pos.node_
  pure (⟨pn3.next_node⟩, m3)

/-- The method `EraseAfter(pos)`: the returned iterator and the new memory. -/
def EraseAfter (m : Mem α) (self : Nat) (pos : BasicIterator) :
    Except Fault (BasicIterator × Mem α) := do
  if pos.node_ = Ptr.null then throw Fault.assertFailed
  let pn ← m.load pos.node_
  let temp_node := pn.next_node
  let nn ← m.load pn.next_node
  let m1 ← m.storeNext pos.node_ nn.next_node
  let m2 ← m1.delete temp_node
  let m3 ← m2.decSize self
  let pn3 ← m3.load pos.node_
  pure (⟨pn3.next_node⟩, m3)

/-- The method `Clear()`: one unit of fuel per test of the loop condition. -/
def Clear : Nat → Mem α → Nat → Except Fault (Mem α)
  | 0, _, _ => Except.error Fault.outOfFuel
  | fuel + 1, m, self => do
    let h ← m.load (Ptr.sentinel self)
    if h.next_node = Ptr.null then pure m
    else
      let first_node := h.next_node
      let fn ← m.load h.next_node
      let m1 ← m.storeNext (Ptr.sentinel self) fn.next_node
      let m2 ← m1.delete first_node
      let m3 ← m2.decSize self
      Clear fuel m3 self

/-- The call `std::swap(head_.next_node, other.head_.next_node)`:
`tmp = a; a = b; b = tmp`. -/
def swapNext (m : Mem α) (self other : Nat) : Except Fault (Mem α) := do
  let a ← m.load (Ptr.sentinel self)
  let tmp := a.next_node
  let b ← m.load (Ptr.sentinel other)
  let m1 ← m.storeNext (Ptr.sentinel self) b.next_node
  m1.storeNext (Ptr.sentinel other) tmp

/-- The call `std::swap(size_, other.size_)`: `tmp = a; a = b; b = tmp`. -/
def swapSize (m : Mem α) (self other : Nat) : Except Fault (Mem α) := do
  let tmp ← m.loadSize self
  let b ← m.loadSize other
  let m1 ← m.storeSize self b
  m1.storeSize other tmp

/-- The method `swap(other)`. -/
def swap (m : Mem α) (self other : Nat) : Except Fault (Mem α) := do
  let m1 ← swapNext m self other
  swapSize m1 self other

/-- The destructor: `Clear()`. -/
def destroy (fuel : Nat) (m : Mem α) (self : Nat) : Except Fault (Mem α) :=
  Clear fuel m self

/-- The default constructor: a new object, returned with the new memory. -/
def SingleLinkedList.ctor [Inhabited α] (m : Mem α) : Nat × Mem α :=
  m.newObj

/-- The loop of the initializer-list constructor.  The iterator `it` of the
source is `values.begin() + k - 1`: the loop pushes `values[k - 1]`, steps
back, and stops when `it` has passed `values.begin()`. -/
def initLoop (values : List α) : Nat → Mem α → Nat → Except Fault (Mem α)
  | 0, m, _ => pure m
  | k + 1, m, self =>
    match values[k]? with
    | some v => do
      let m1 ← PushFront m self v
      initLoop values k m1 self
    | none => Except.error Fault.dangling

/-- The constructor from `std::initializer_list<Type>`: the new object and the new memory. -/
def SingleLinkedList.ofInitializerList [Inhabited α] (m : Mem α) (values : List α) :
    Except Fault (Nat × Mem α) := do
  let (self, m0) := m.newObj
  if values.length ≠ 0 then
    let m1 ← initLoop values values.length m0 self
    pure (self, m1)
  else
    pure (self, m0)

/-- The range-for loop of the copy constructor; `it` runs over `other`,
`temp_node` is the last node built so far, `tmp` is the temporary list. -/
def copyLoop : Nat → Mem α → Nat → BasicIterator → Ptr → Except Fault (Mem α)
  | 0, _, _, _, _ => Except.error Fault.outOfFuel
  | fuel + 1, m, tmp, it, temp_node =>
    if BasicIterator.ne it end_ then do
      let a ← BasicIterator.deref m it
      let (temp, m1) := m.new a Ptr.null
      let m2 ← (if temp_node ≠ Ptr.null then m1.storeNext temp_node temp
                else m1.storeNext (Ptr.sentinel tmp) temp)
      let m3 ← m2.incSize tmp
      let it1 ← BasicIterator.inc m3 it
      copyLoop fuel m3 tmp it1 temp
    else pure m

/-- The copy constructor: the new object and the new memory. -/
def SingleLinkedList.ofCopy [Inhabited α] (fuel : Nat) (m : Mem α) (other : Nat) :
    Except Fault (Nat × Mem α) := do
  let (self, m0) := m.newObj
  let sz ← m0.loadSize self
  let h ← m0.load (Ptr.sentinel self)
  if ¬ (sz = 0 ∧ h.next_node = Ptr.null) then throw Fault.assertFailed
  let (tmp, m1) := SingleLinkedList.ctor m0
  let first ← begin m1 other
  let m2 ← copyLoop fuel m1 tmp first Ptr.null
  let m3 ← swap m2 self tmp
  let m4 ← destroy fuel m3 tmp
  pure (self, m4)

/-- The copy assignment `operator=(rhs)` called on `self`. -/
def operator_assign [Inhabited α] (fuel : Nat) (m : Mem α) (self rhs : Nat) :
    Except Fault (Mem α) := do
  let (tmp, m1) ← SingleLinkedList.ofCopy fuel m rhs
  let m2 ← swap m1 self tmp
  destroy fuel m2 tmp

/-! ## The library algorithms the free operators call -/

/-- The algorithm `std::equal(first1, last1, first2)` on forward iterators:
`for (; first1 != last1; ++first1, ++first2) if (!(*first1 == *first2)) return false;
return true;`. -/
def std_equal [DecidableEq α] : Nat → Mem α → BasicIterator → BasicIterator → BasicIterator →
    Except Fault Bool
  | 0, _, _, _, _ => Except.error Fault.outOfFuel
  | fuel + 1, m, first1, last1, first2 =>
    if BasicIterator.ne first1 last1 then do
      let x ← BasicIterator.deref m first1
      let y ← BasicIterator.deref m first2
      if ¬ (x = y) then pure false
      else
        let f1 ← BasicIterator.inc m first1
        let f2 ← BasicIterator.inc m first2
        std_equal fuel m f1 last1 f2
    else pure true

/-- The algorithm `std::lexicographical_compare(first1, last1, first2, last2)`,
with `lt` the `operator<` of the element type:
`for (; first1 != last1 && first2 != last2; ++first1, ++first2) {
   if (*first1 < *first2) return true; if (*first2 < *first1) return false; }
 return first1 == last1 && first2 != last2;`. -/
def std_lexicographical_compare (lt : α → α → Bool) :
    Nat → Mem α → BasicIterator → BasicIterator → BasicIterator → BasicIterator →
    Except Fault Bool
  | 0, _, _, _, _, _ => Except.error Fault.outOfFuel
  | fuel + 1, m, first1, last1, first2, last2 =>
    if BasicIterator.ne first1 last1 && BasicIterator.ne first2 last2 then do
      let x ← BasicIterator.deref m first1
      let y ← BasicIterator.deref m first2
      if lt x y then pure true
      else if lt y x then pure false
      else
        let f1 ← BasicIterator.inc m first1
        let f2 ← BasicIterator.inc m first2
        std_lexicographical_compare lt fuel m f1 last1 f2 last2
    else pure (BasicIterator.eq first1 last1 && BasicIterator.ne first2 last2)

/-! ## The free operators -/

/-- The free `operator==`: `std::equal(lhs.begin(), lhs.end(), rhs.begin())`. -/
def operator_eq [DecidableEq α] (fuel : Nat) (m : Mem α) (lhs rhs : Nat) : Except Fault Bool := do
  let b1 ← begin m lhs
  let b2 ← begin m rhs
  std_equal fuel m b1 end_ b2

/-- The free `operator!=`: `!std::equal(lhs.begin(), lhs.end(), rhs.begin())`. -/
def operator_ne [DecidableEq α] (fuel : Nat) (m : Mem α) (lhs rhs : Nat) : Except Fault Bool := do
  let b1 ← begin m lhs
  let b2 ← begin m rhs
  let r ← std_equal fuel m b1 end_ b2
  pure (!r)

/-- The free `operator<`. -/
def operator_lt (lt : α → α → Bool) (fuel : Nat) (m : Mem α) (lhs rhs : Nat) :
    Except Fault Bool := do
  let b1 ← begin m lhs
  let b2 ← begin m rhs
  std_lexicographical_compare lt fuel m b1 end_ b2 end_

/-- The free `operator<=`: the negation of the comparison with the arguments exchanged. -/
def operator_le (lt : α → α → Bool) (fuel : Nat) (m : Mem α) (lhs rhs : Nat) :
    Except Fault Bool := do
  let b2 ← begin m rhs
  let b1 ← begin m lhs
  let r ← std_lexicographical_compare lt fuel m b2 end_ b1 end_
  pure (!r)

/-- The free `operator>`: the comparison with the arguments exchanged. -/
def operator_gt (lt : α → α → Bool) (fuel : Nat) (m : Mem α) (lhs rhs : Nat) :
    Except Fault Bool := do
  let b2 ← begin m rhs
  let b1 ← begin m lhs
  std_lexicographical_compare lt fuel m b2 end_ b1 end_

/-- The free `operator>=`: the negation of the comparison. -/
def operator_ge (lt : α → α → Bool) (fuel : Nat) (m : Mem α) (lhs rhs : Nat) :
    Except Fault Bool := do
  let b1 ← begin m lhs
  let b2 ← begin m rhs
  let r ← std_lexicographical_compare lt fuel m b1 end_ b2 end_
  pure (!r)

/-! ## Traversal -/

/-- The loop `for (it = first; it != end(); ++it) out.push_back(*it)`:
the values met on the way from `it` to `end()`. -/
def walk : Nat → Mem α → BasicIterator → Except Fault (List α)
  | 0, _, _ => Except.error Fault.outOfFuel
  | fuel + 1, m, it =>
    if BasicIterator.ne it end_ then do
      let x ← BasicIterator.deref m it
      let it1 ← BasicIterator.inc m it
      let rest ← walk fuel m it1
      pure (x :: rest)
    else pure []

/-- Forward traversal of the list `self` from `begin()` to `end()`. -/
def traverse (fuel : Nat) (m : Mem α) (self : Nat) : Except Fault (List α) := do
  let b ← begin m self
  walk fuel m b

/-! ## Abstraction: the nodes and the values a list holds -/

/-- The nodes met from `p` up to `nullptr`, each with its address and its
value, in the order of the links. -/
def Mem.Chain (m : Mem α) : Ptr → List (Nat × α) → Prop
  | p, [] => p = Ptr.null
  | p, n :: rest =>
    p = Ptr.cell n.1 ∧ ∃ q, m.cells[n.1]? = some (some ⟨n.2, q⟩) ∧ m.Chain q rest

/-- The list object `self` exists and the link of its sentinel starts the chain `ns`. -/
def Mem.Holds (m : Mem α) (self : Nat) (ns : List (Nat × α)) : Prop :=
  ∃ l, m.objs[self]? = some l ∧ m.Chain l.head_.next_node ns

/-- The element sequence of a chain of nodes. -/
def values (ns : List (Nat × α)) : List α := ns.map Prod.snd

/-- The addresses of a chain of nodes. -/
def addrs (ns : List (Nat × α)) : List Nat := ns.map Prod.fst

/-- What `std::lexicographical_compare` computes, on the two value sequences. -/
def lexList (lt : α → α → Bool) : List α → List α → Bool
  | [], [] => false
  | [], _ :: _ => true
  | _ :: _, [] => false
  | x :: xs, y :: ys =>
    if lt x y then true else if lt y x then false else lexList lt xs ys

/-- What the three-iterator `std::equal` does, on the two value sequences: it
stops at the end of the first one and dereferences the second one on the way. -/
def equalList [DecidableEq α] : List α → List α → Except Fault Bool
  | [], _ => Except.ok true
  | _ :: _, [] => Except.error Fault.assertFailed
  | x :: xs, y :: ys => if x = y then equalList xs ys else Except.ok false

/-- The lexicographic comparison in the words of the specification: walking both
sequences from the front, the first position where the elements differ decides;
if no position differs, the strictly shorter sequence is the smaller one. -/
def lexBySpec [DecidableEq α] (lt : α → α → Bool) : List α → List α → Bool
  | x :: xs, y :: ys => if x = y then lexBySpec lt xs ys else lt x y
  | [], _ :: _ => true
  | _, [] => false

/-! ## Concrete inputs -/

/-- Two lists built one after the other from initializer lists, in an empty memory. -/
def twoLists [Inhabited α] (xs ys : List α) : Except Fault (Nat × Nat × Mem α) := do
  let (a, m1) ← SingleLinkedList.ofInitializerList ⟨[], []⟩ xs
  let (b, m2) ← SingleLinkedList.ofInitializerList m1 ys
  pure (a, b, m2)

/-- The `operator<` of the natural numbers. -/
def natLt (x y : Nat) : Bool := decide (x < y)

/-- An `operator<` on pairs that looks at the first component only: irreflexive
and transitive, but two different pairs with the same first component are not
ordered either way. -/
def ltFst (x y : Nat × Nat) : Bool := decide (x.1 < y.1)

/-- The memory after building `{1, 2, 3}` (object 0) and `{1, 2, 4}` (object 1). -/
def mem123_124 : Mem Nat :=
  ⟨[some ⟨3, Ptr.null⟩, some ⟨2, Ptr.cell 0⟩, some ⟨1, Ptr.cell 1⟩,
    some ⟨4, Ptr.null⟩, some ⟨2, Ptr.cell 3⟩, some ⟨1, Ptr.cell 4⟩],
   [⟨⟨0, Ptr.cell 2⟩, 3⟩, ⟨⟨0, Ptr.cell 5⟩, 3⟩]⟩

/-- The memory after building `{}` (object 0) and `{1}` (object 1). -/
def mem_empty_1 : Mem Nat :=
  ⟨[some ⟨1, Ptr.null⟩], [⟨⟨0, Ptr.null⟩, 0⟩, ⟨⟨0, Ptr.cell 0⟩, 1⟩]⟩

/-- The memory after building `{1, 2, 3}` (object 0) and `{1, 2}` (object 1). -/
def mem123_12 : Mem Nat :=
  ⟨[some ⟨3, Ptr.null⟩, some ⟨2, Ptr.cell 0⟩, some ⟨1, Ptr.cell 1⟩,
    some ⟨2, Ptr.null⟩, some ⟨1, Ptr.cell 3⟩],
   [⟨⟨0, Ptr.cell 2⟩, 3⟩, ⟨⟨0, Ptr.cell 4⟩, 2⟩]⟩

/-- The memory after building `{1}` (object 0) and `{1, 2}` (object 1). -/
def mem1_12 : Mem Nat :=
  ⟨[some ⟨1, Ptr.null⟩, some ⟨2, Ptr.null⟩, some ⟨1, Ptr.cell 1⟩],
   [⟨⟨0, Ptr.cell 0⟩, 1⟩, ⟨⟨0, Ptr.cell 2⟩, 2⟩]⟩

/-- The memory after building `{(0,0), (1,0)}` (object 0) and `{(0,1), (2,0)}` (object 1). -/
def memPairs : Mem (Nat × Nat) :=
  ⟨[some ⟨(1, 0), Ptr.null⟩, some ⟨(0, 0), Ptr.cell 0⟩,
    some ⟨(2, 0), Ptr.null⟩, some ⟨(0, 1), Ptr.cell 2⟩],
   [⟨⟨(0, 0), Ptr.cell 1⟩, 2⟩, ⟨⟨(0, 0), Ptr.cell 3⟩, 2⟩]⟩

/-- The calls `PushFront(v1); ...; PushFront(vn)` on the list `self`, in this order. -/
def pushAll (m : Mem α) (self : Nat) : List α → Except Fault (Mem α)
  | [] => Except.ok m
  | v :: vs => do
    let m1 ← PushFront m self v
    pushAll m1 self vs

/-- The iterator `std::next(it, i)`: `it` after `i` increments. -/
def advance (m : Mem α) : Nat → BasicIterator → Except Fault BasicIterator
  | 0, it => Except.ok it
  | i + 1, it => do
    let it1 ← BasicIterator.inc m it
    advance m i it1

/-- The iterator to the element at index `i` of the list `self`: `std::next(begin(), i)`. -/
def nth_iterator (m : Mem α) (self i : Nat) : Except Fault BasicIterator := do
  let b ← begin m self
  advance m i b

/-- The memory `m2` differs from `m` at most in the list object `self`, in the
nodes `ns`, and in nodes and objects created after `m`. -/
def Mem.FrameOf (m m2 : Mem α) (self : Nat) (ns : List (Nat × α)) : Prop :=
  m.cells.length ≤ m2.cells.length ∧ m.objs.length ≤ m2.objs.length
  ∧ (∀ a, a < m.cells.length → a ∉ addrs ns → m2.cells[a]? = m.cells[a]?)
  ∧ (∀ j, j < m.objs.length → j ≠ self → m2.objs[j]? = m.objs[j]?)

/-- The pointer to the last node of a chain, `nullptr` for the empty chain. -/
def lastPtr (ns : List (Nat × α)) : Ptr :=
  match ns.getLast? with
  | some n => Ptr.cell n.1
  | none => Ptr.null

/-- One call of a mutating method on a list.  A position is `none` for
`before_begin()` and `some i` for the iterator to the element at index `i` of
that list, `std::next(begin(), i)`. -/
inductive Op (α : Type) where
  | pushFront (v : α) : Op α
  | popFront : Op α
  | insertAfter (pos : Option Nat) (v : α) : Op α
  | eraseAfter (pos : Option Nat) : Op α
  | clear : Op α

/-- The iterator a position of the list `self` stands for. -/
def position (m : Mem α) (self : Nat) : Option Nat → Except Fault BasicIterator
  | none => Except.ok (before_begin self)
  | some i => nth_iterator m self i

/-- Runs one call on the list `self`. -/
def Op.run (fuel : Nat) (m : Mem α) (self : Nat) : Op α → Except Fault (Mem α)
  | Op.pushFront v => PushFront m self v
  | Op.popFront => PopFront m self
  | Op.insertAfter pos v => do
    let it ← position m self pos
    let r ← InsertAfter m self it v
    pure r.2
  | Op.eraseAfter pos => do
    let it ← position m self pos
    let r ← EraseAfter m self it
    pure r.2
  | Op.clear => Clear fuel m self

/-- Runs the calls one after the other on the list `self`. -/
def runOps (fuel : Nat) (m : Mem α) (self : Nat) : List (Op α) → Except Fault (Mem α)
  | [] => Except.ok m
  | op :: rest => do
    let m1 ← op.run fuel m self
    runOps fuel m1 self rest

/-- The precondition of a call on a list of `len` elements: `PopFront` needs an
element, `InsertAfter` a position of the list, `EraseAfter` a position that has
a successor. -/
def Op.pre (len : Nat) : Op α → Bool
  | Op.pushFront _ => true
  | Op.popFront => decide (0 < len)
  | Op.insertAfter none _ => true
  | Op.insertAfter (some i) _ => decide (i < len)
  | Op.eraseAfter none => decide (0 < len)
  | Op.eraseAfter (some i) => decide (i + 1 < len)
  | Op.clear => true

/-- The number of elements after a call on a list of `len` elements. -/
def Op.lenAfter (len : Nat) : Op α → Nat
  | Op.pushFront _ => len + 1
  | Op.popFront => len - 1
  | Op.insertAfter _ _ => len + 1
  | Op.eraseAfter _ => len - 1
  | Op.clear => 0

/-- Every call of the sequence is made within its precondition. -/
def opsPre : Nat → List (Op α) → Bool
  | _, [] => true
  | len, op :: rest => op.pre len && opsPre (op.lenAfter len) rest

/-- The example scenario of the specification: start empty; `PushFront(3)`,
`PushFront(2)`, `PushFront(1)`; `PopFront()`; `InsertAfter(begin(), 9)`;
`EraseAfter(begin())`.  After each of the four stages the traversal and
`GetSize()` are recorded. -/
def scenario : Except Fault (List (List Nat × Nat)) := do
  let (l, m0) := SingleLinkedList.ctor (Mem.mk ([] : List (Option (Node Nat))) [])
  let m1 ← PushFront m0 l 3
  let m2 ← PushFront m1 l 2
  let m3 ← PushFront m2 l 1
  let t3 ← traverse 8 m3 l
  let s3 ← GetSize m3 l
  let m4 ← PopFront m3 l
  let t4 ← traverse 8 m4 l
  let s4 ← GetSize m4 l
  let b4 ← begin m4 l
  let r5 ← InsertAfter m4 l b4 9
  let t5 ← traverse 8 r5.2 l
  let s5 ← GetSize r5.2 l
  let b5 ← begin r5.2 l
  let r6 ← EraseAfter r5.2 l b5
  let t6 ← traverse 8 r6.2 l
  let s6 ← GetSize r6.2 l
  pure [(t3, s3), (t4, s4), (t5, s5), (t6, s6)]

/-- The free function `swap(lhs, rhs)`: `lhs.swap(rhs)`. -/
def free_swap (m : Mem α) (lhs rhs : Nat) : Except Fault (Mem α) :=
  swap m lhs rhs

/-- The memory with the lists `{1, 2}` (object 0) and `{3, 4}` (object 1). -/
def mem12_34 : Mem Nat :=
  ⟨[some ⟨2, Ptr.null⟩, some ⟨1, Ptr.cell 0⟩, some ⟨4, Ptr.null⟩, some ⟨3, Ptr.cell 2⟩],
   [⟨⟨0, Ptr.cell 1⟩, 2⟩, ⟨⟨0, Ptr.cell 3⟩, 2⟩]⟩

/-- The count invariant of the list `self`: the link of its sentinel starts a
chain of nodes that ends in `nullptr`, and the cached `size_` is the number of
these nodes (a value of `size_t`). -/
def Mem.CountInv (m : Mem α) (self : Nat) : Prop :=
  ∃ ns, m.Holds self ns ∧ GetSize m self = Except.ok ns.length ∧ ns.length < SIZE_MOD

/-- The iterator `it` after `i` post-increments `it++`. -/
def advance_post (m : Mem α) : Nat → BasicIterator → Except Fault BasicIterator
  | 0, it => Except.ok it
  | i + 1, it => do
    let r ← BasicIterator.postInc m it
    advance_post m i r.2

/-- The iterator obtained from `begin()` of the list `self` by `i` post-increments. -/
def nth_iterator_post (m : Mem α) (self i : Nat) : Except Fault BasicIterator := do
  let b ← begin m self
  advance_post m i b

/-! ## Theorems -/

@[simp] theorem ok_bind {β γ : Type} (a : β) (f : β → Except Fault γ) :
    (Except.ok a >>= f) = f a := rfl

@[simp] theorem error_bind {β γ : Type} (e : Fault) (f : β → Except Fault γ) :
    ((Except.error e : Except Fault β) >>= f) = Except.error e := rfl

@[simp] theorem map_ok {β γ : Type} (f : β → γ) (a : β) :
    (f <$> (Except.ok a : Except Fault β)) = Except.ok (f a) := rfl

@[simp] theorem map_error {β γ : Type} (f : β → γ) (e : Fault) :
    (f <$> (Except.error e : Except Fault β)) = Except.error e := rfl

@[simp] theorem pure_eq_ok {β : Type} (a : β) : (pure a : Except Fault β) = Except.ok a := rfl

@[simp] theorem throw_eq_error {β : Type} (e : Fault) :
    (throw e : Except Fault β) = Except.error e := rfl

theorem load_sentinel {m : Mem α} {i : Nat} {l : SingleLinkedList α} (h : m.objs[i]? = some l) :
    m.load (Ptr.sentinel i) = Except.ok l.head_ := by
  simp [Mem.load, h]

theorem load_cell {m : Mem α} {a : Nat} {c : Node α} (h : m.cells[a]? = some (some c)) :
    m.load (Ptr.cell a) = Except.ok c := by
  simp [Mem.load, h]

theorem deref_cell {m : Mem α} {a : Nat} {c : Node α} (h : m.cells[a]? = some (some c)) :
    BasicIterator.deref m ⟨Ptr.cell a⟩ = Except.ok c.value := by
  simp [BasicIterator.deref, load_cell h]

theorem inc_cell {m : Mem α} {a : Nat} {c : Node α} (h : m.cells[a]? = some (some c)) :
    BasicIterator.inc m ⟨Ptr.cell a⟩ = Except.ok ⟨c.next_node⟩ := by
  simp [BasicIterator.inc, load_cell h]

theorem begin_holds {m : Mem α} {self : Nat} {l : SingleLinkedList α}
    (h : m.objs[self]? = some l) : begin m self = Except.ok ⟨l.head_.next_node⟩ := by
  simp [begin, load_sentinel h]

theorem walk_chain {m : Mem α} : ∀ (ns : List (Nat × α)) (p : Ptr) (fuel : Nat),
    m.Chain p ns → ns.length < fuel → walk fuel m ⟨p⟩ = Except.ok (values ns)
  | [], p, fuel, h, hf => by
    obtain ⟨f, rfl⟩ : ∃ f, fuel = f + 1 := ⟨fuel - 1, by simp at hf; omega⟩
    simp [Mem.Chain] at h
    subst h
    simp [walk, BasicIterator.ne, end_, values]
  | n :: rest, p, fuel, h, hf => by
    obtain ⟨f, rfl⟩ : ∃ f, fuel = f + 1 := ⟨fuel - 1, by simp at hf; omega⟩
    obtain ⟨rfl, q, hc, hrest⟩ := h
    have ih := walk_chain rest q f hrest (by simp at hf; omega)
    simp [walk, BasicIterator.ne, end_, deref_cell hc, inc_cell hc, ih, values]

theorem traverse_holds {m : Mem α} {self : Nat} {ns : List (Nat × α)} {fuel : Nat}
    (h : m.Holds self ns) (hf : ns.length < fuel) :
    traverse fuel m self = Except.ok (values ns) := by
  obtain ⟨l, hl, hc⟩ := h
  simp [traverse, begin_holds hl, walk_chain ns _ fuel hc hf]

theorem lex_chain {m : Mem α} (lt : α → α → Bool) :
    ∀ (ns1 ns2 : List (Nat × α)) (p q : Ptr) (fuel : Nat),
    m.Chain p ns1 → m.Chain q ns2 → min ns1.length ns2.length < fuel →
    std_lexicographical_compare lt fuel m ⟨p⟩ end_ ⟨q⟩ end_
      = Except.ok (lexList lt (values ns1) (values ns2))
  | [], [], p, q, fuel, h1, h2, hf => by
    obtain ⟨f, rfl⟩ : ∃ f, fuel = f + 1 := ⟨fuel - 1, by simp at hf; omega⟩
    simp [Mem.Chain] at h1 h2
    subst h1 h2
    simp [std_lexicographical_compare, BasicIterator.ne, BasicIterator.eq, end_, lexList, values]
  | [], n2 :: r2, p, q, fuel, h1, h2, hf => by
    obtain ⟨f, rfl⟩ : ∃ f, fuel = f + 1 := ⟨fuel - 1, by simp at hf; omega⟩
    obtain ⟨rfl, q2, hc2, hr2⟩ := h2
    simp [Mem.Chain] at h1
    subst h1
    simp [std_lexicographical_compare, BasicIterator.ne, BasicIterator.eq, end_, lexList, values]
  | n1 :: r1, [], p, q, fuel, h1, h2, hf => by
    obtain ⟨f, rfl⟩ : ∃ f, fuel = f + 1 := ⟨fuel - 1, by simp at hf; omega⟩
    obtain ⟨rfl, q1, hc1, hr1⟩ := h1
    simp [Mem.Chain] at h2
    subst h2
    simp [std_lexicographical_compare, BasicIterator.ne, BasicIterator.eq, end_, lexList, values]
  | n1 :: r1, n2 :: r2, p, q, fuel, h1, h2, hf => by
    obtain ⟨f, rfl⟩ : ∃ f, fuel = f + 1 := ⟨fuel - 1, by simp at hf; omega⟩
    obtain ⟨rfl, q1, hc1, hr1⟩ := h1
    obtain ⟨rfl, q2, hc2, hr2⟩ := h2
    have ih := lex_chain lt r1 r2 q1 q2 f hr1 hr2 (by simp at hf; omega)
    simp only [std_lexicographical_compare, BasicIterator.ne, BasicIterator.eq, end_,
      deref_cell hc1, deref_cell hc2, inc_cell hc1, inc_cell hc2, lexList, List.map, values]
    simp
    by_cases hxy : lt n1.2 n2.2 = true
    · simp [hxy]
    · by_cases hyx : lt n2.2 n1.2 = true
      · simp [hxy, hyx]
      · simp [hxy, hyx]
        exact ih

theorem equal_chain [DecidableEq α] {m : Mem α} :
    ∀ (ns1 ns2 : List (Nat × α)) (p q : Ptr) (fuel : Nat),
    m.Chain p ns1 → m.Chain q ns2 → ns1.length < fuel →
    std_equal fuel m ⟨p⟩ end_ ⟨q⟩ = equalList (values ns1) (values ns2)
  | [], ns2, p, q, fuel, h1, h2, hf => by
    obtain ⟨f, rfl⟩ : ∃ f, fuel = f + 1 := ⟨fuel - 1, by simp at hf; omega⟩
    simp [Mem.Chain] at h1
    subst h1
    simp [std_equal, BasicIterator.ne, end_, equalList, values]
  | n1 :: r1, [], p, q, fuel, h1, h2, hf => by
    obtain ⟨f, rfl⟩ : ∃ f, fuel = f + 1 := ⟨fuel - 1, by simp at hf; omega⟩
    obtain ⟨rfl, q1, hc1, hr1⟩ := h1
    simp [Mem.Chain] at h2
    subst h2
    simp [std_equal, BasicIterator.ne, end_, equalList, deref_cell hc1, BasicIterator.deref,
      load_cell hc1, values]
  | n1 :: r1, n2 :: r2, p, q, fuel, h1, h2, hf => by
    obtain ⟨f, rfl⟩ : ∃ f, fuel = f + 1 := ⟨fuel - 1, by simp at hf; omega⟩
    obtain ⟨rfl, q1, hc1, hr1⟩ := h1
    obtain ⟨rfl, q2, hc2, hr2⟩ := h2
    have ih := equal_chain r1 r2 q1 q2 f hr1 hr2 (by simp at hf; omega)
    simp only [std_equal, BasicIterator.ne, end_,
      deref_cell hc1, deref_cell hc2, inc_cell hc1, inc_cell hc2, equalList, List.map, values]
    simp
    by_cases hxy : n1.2 = n2.2
    · simp [hxy]
      exact ih
    · simp [hxy]


theorem operator_lt_holds {m : Mem α} (lt : α → α → Bool) {a b : Nat} {na nb : List (Nat × α)}
    {fuel : Nat} (ha : m.Holds a na) (hb : m.Holds b nb) (hf : min na.length nb.length < fuel) :
    operator_lt lt fuel m a b = Except.ok (lexList lt (values na) (values nb)) := by
  obtain ⟨la, hla, hca⟩ := ha
  obtain ⟨lb, hlb, hcb⟩ := hb
  simp [operator_lt, begin_holds hla, begin_holds hlb, lex_chain lt na nb _ _ fuel hca hcb hf]

theorem lexList_eq_lexBySpec [DecidableEq α] (lt : α → α → Bool)
    (hirr : ∀ x, lt x x = false) (htot : ∀ x y, x ≠ y → lt x y = true ∨ lt y x = true) :
    ∀ xs ys : List α, lexList lt xs ys = lexBySpec lt xs ys
  | [], [] => by simp [lexList, lexBySpec]
  | [], _ :: _ => by simp [lexList, lexBySpec]
  | _ :: _, [] => by simp [lexList, lexBySpec]
  | x :: xs, y :: ys => by
    have ih := lexList_eq_lexBySpec lt hirr htot xs ys
    by_cases hxy : x = y
    · subst hxy
      simp [lexList, lexBySpec, hirr, ih]
    · simp only [lexList, lexBySpec, hxy, if_false]
      rcases htot x y hxy with h | h
      · simp [h]
      · cases hl : lt x y <;> simp [h]

theorem lexBySpec_iff_Lex [DecidableEq α] (lt : α → α → Bool) (hirr : ∀ x, lt x x = false) :
    ∀ xs ys : List α, lexBySpec lt xs ys = true ↔ List.Lex (fun x y => lt x y = true) xs ys
  | [], [] => by
    simp [lexBySpec]
  | [], _ :: _ => by
    simp [lexBySpec]
    exact List.Lex.nil
  | _ :: _, [] => by
    simp [lexBySpec]
  | x :: xs, y :: ys => by
    have ih := lexBySpec_iff_Lex lt hirr xs ys
    by_cases hxy : x = y
    · subst hxy
      simp only [lexBySpec, if_true]
      rw [ih]
      constructor
      · intro h
        exact List.Lex.cons h
      · intro h
        cases h with
        | cons h => exact h
        | rel h => simp [hirr] at h
    · simp only [lexBySpec, hxy, if_false]
      constructor
      · intro h
        exact List.Lex.rel h
      · intro h
        cases h with
        | cons h => exact absurd rfl hxy
        | rel h => exact h

theorem lexList_trichotomy (lt : α → α → Bool)
    (hirr : ∀ x, lt x x = false)
    (htrans : ∀ x y z, lt x y = true → lt y z = true → lt x z = true)
    (htot : ∀ x y, x ≠ y → lt x y = true ∨ lt y x = true) :
    ∀ xs ys : List α,
      (lexList lt xs ys = true ∧ lexList lt ys xs = false ∧ xs ≠ ys) ∨
      (lexList lt xs ys = false ∧ lexList lt ys xs = true ∧ xs ≠ ys) ∨
      (lexList lt xs ys = false ∧ lexList lt ys xs = false ∧ xs = ys)
  | [], [] => by simp [lexList]
  | [], _ :: _ => by simp [lexList]
  | _ :: _, [] => by simp [lexList]
  | x :: xs, y :: ys => by
    have ih := lexList_trichotomy lt hirr htrans htot xs ys
    have hasym : ∀ u v, lt u v = true → lt v u = false := by
      intro u v huv
      cases hvu : lt v u
      · rfl
      · have := htrans u v u huv hvu
        simp [hirr] at this
    by_cases hxy : lt x y = true
    · have hne : x ≠ y := by
        intro h
        subst h
        simp [hirr] at hxy
      simp [lexList, hxy, hasym x y hxy, hne]
    · by_cases hyx : lt y x = true
      · have hne : x ≠ y := by
          intro h
          subst h
          simp [hirr] at hyx
        simp [lexList, hxy, hyx, hne]
      · have heq : x = y := by
          by_contra hne
          rcases htot x y hne with h | h
          · exact hxy h
          · exact hyx h
        subst heq
        simp only [lexList, hxy, hyx]
        simpa using ih

theorem operator_gt_holds {m : Mem α} (lt : α → α → Bool) {a b : Nat} {na nb : List (Nat × α)}
    {fuel : Nat} (ha : m.Holds a na) (hb : m.Holds b nb) (hf : min na.length nb.length < fuel) :
    operator_gt lt fuel m a b = Except.ok (lexList lt (values nb) (values na)) := by
  obtain ⟨la, hla, hca⟩ := ha
  obtain ⟨lb, hlb, hcb⟩ := hb
  simp [operator_gt, begin_holds hla, begin_holds hlb,
    lex_chain lt nb na _ _ fuel hcb hca (by rw [Nat.min_comm]; exact hf)]

theorem operator_le_holds {m : Mem α} (lt : α → α → Bool) {a b : Nat} {na nb : List (Nat × α)}
    {fuel : Nat} (ha : m.Holds a na) (hb : m.Holds b nb) (hf : min na.length nb.length < fuel) :
    operator_le lt fuel m a b = Except.ok (!lexList lt (values nb) (values na)) := by
  obtain ⟨la, hla, hca⟩ := ha
  obtain ⟨lb, hlb, hcb⟩ := hb
  simp [operator_le, begin_holds hla, begin_holds hlb,
    lex_chain lt nb na _ _ fuel hcb hca (by rw [Nat.min_comm]; exact hf)]

theorem operator_ge_holds {m : Mem α} (lt : α → α → Bool) {a b : Nat} {na nb : List (Nat × α)}
    {fuel : Nat} (ha : m.Holds a na) (hb : m.Holds b nb) (hf : min na.length nb.length < fuel) :
    operator_ge lt fuel m a b = Except.ok (!lexList lt (values na) (values nb)) := by
  obtain ⟨la, hla, hca⟩ := ha
  obtain ⟨lb, hlb, hcb⟩ := hb
  simp [operator_ge, begin_holds hla, begin_holds hlb, lex_chain lt na nb _ _ fuel hca hcb hf]

theorem operator_gt_eq_lt_swapped (lt : α → α → Bool) (fuel : Nat) (m : Mem α) (a b : Nat) :
    operator_gt lt fuel m a b = operator_lt lt fuel m b a := rfl

theorem lexList_self (lt : α → α → Bool) (hirr : ∀ x, lt x x = false) :
    ∀ xs : List α, lexList lt xs xs = false
  | [] => by simp [lexList]
  | x :: xs => by simp [lexList, hirr, lexList_self lt hirr xs]

theorem holds_mem123_124_0 : mem123_124.Holds 0 [(2, 1), (1, 2), (0, 3)] :=
  ⟨_, rfl, by simp [Mem.Chain, mem123_124]⟩

theorem holds_mem123_124_1 : mem123_124.Holds 1 [(5, 1), (4, 2), (3, 4)] :=
  ⟨_, rfl, by simp [Mem.Chain, mem123_124]⟩

/-! ## Equality of lists -/

/-- C1: `operator==` does not compare the sizes.  On `{}` and `{1}` (sizes 0 and
1) it returns `true` and `operator!=` returns `false`; on `{1, 2, 3}` and
`{1, 2}`, where the specification says `false`, it dereferences the `end()` of
the right-hand list and the assertion of `operator*` fails. -/
theorem C1_operator_eq_ignores_sizes :
    twoLists ([] : List Nat) [1] = Except.ok (0, 1, mem_empty_1)
    ∧ GetSize mem_empty_1 0 = Except.ok 0 ∧ GetSize mem_empty_1 1 = Except.ok 1
    ∧ traverse 2 mem_empty_1 0 = Except.ok [] ∧ traverse 2 mem_empty_1 1 = Except.ok [1]
    ∧ (∀ fuel, operator_eq (fuel + 1) mem_empty_1 0 1 = Except.ok true)
    ∧ (∀ fuel, operator_ne (fuel + 1) mem_empty_1 0 1 = Except.ok false)
    ∧ twoLists [1, 2, 3] [1, 2] = Except.ok (0, 1, mem123_12)
    ∧ (∀ fuel, operator_eq (fuel + 3) mem123_12 0 1 = Except.error Fault.assertFailed) :=
  ⟨rfl, rfl, rfl, rfl, rfl, fun _ => rfl, fun _ => rfl, rfl, fun _ => rfl⟩

/-- C2: `operator==` is not symmetric.  With `a = {1}` and `b = {1, 2}`,
`a == b` returns `true`, while `b == a` produces no result: it dereferences
`a.end()` and the assertion of `operator*` fails. -/
theorem C2_operator_eq_not_symmetric :
    twoLists [1] [1, 2] = Except.ok (0, 1, mem1_12)
    ∧ (∀ fuel, operator_eq (fuel + 2) mem1_12 0 1 = Except.ok true)
    ∧ (∀ fuel, operator_eq (fuel + 2) mem1_12 1 0 = Except.error Fault.assertFailed) :=
  ⟨rfl, fun _ => rfl, fun _ => rfl⟩

/-! ## Ordering of lists -/

/-- C3 (as stated, refuted): `ltFst` is a strict order (irreflexive and
transitive) on pairs.  For `a = {(0,0), (1,0)}` and `b = {(0,1), (2,0)}` the
first position where the elements differ is position 0, and the element of `a`
is not smaller there, so the claim gives `a < b` false; `operator<` steps over
position 0 and returns `true`. -/
theorem C3_counterexample_strict_order_not_total :
    (∀ x, ltFst x x = false)
    ∧ (∀ x y z, ltFst x y = true → ltFst y z = true → ltFst x z = true)
    ∧ twoLists [(0, 0), (1, 0)] [(0, 1), (2, 0)] = Except.ok (0, 1, memPairs)
    ∧ traverse 3 memPairs 0 = Except.ok [(0, 0), (1, 0)]
    ∧ traverse 3 memPairs 1 = Except.ok [(0, 1), (2, 0)]
    ∧ ((0, 0) : Nat × Nat) ≠ (0, 1) ∧ ltFst (0, 0) (0, 1) = false
    ∧ lexBySpec ltFst [(0, 0), (1, 0)] [(0, 1), (2, 0)] = false
    ∧ (∀ fuel, operator_lt ltFst (fuel + 2) memPairs 0 1 = Except.ok true) := by
  refine ⟨?_, ?_, rfl, rfl, rfl, by decide, rfl, rfl, fun _ => rfl⟩
  · intro x
    simp [ltFst]
  · intro x y z h1 h2
    simp only [ltFst, decide_eq_true_eq] at *
    omega

/-- C3 (amended): for an element type whose `operator<` is a strict total order
(irreflexive, and any two different elements are ordered one way or the other),
`operator<` on two lists returns the lexicographic comparison of the two element
sequences: the first position where the elements differ decides, and if no
position differs the strictly shorter list is the smaller one.  This is the
standard lexicographic order `List.Lex`.  The empty list is less than every
non-empty list, and no list is less than itself. -/
theorem C3_operator_lt_lexicographic [DecidableEq α] (lt : α → α → Bool)
    (hirr : ∀ x, lt x x = false) (htot : ∀ x y, x ≠ y → lt x y = true ∨ lt y x = true)
    (m : Mem α) (a b : Nat) (na nb : List (Nat × α)) (fuel : Nat)
    (ha : m.Holds a na) (hb : m.Holds b nb) (hf : min na.length nb.length < fuel) :
    operator_lt lt fuel m a b = Except.ok (lexBySpec lt (values na) (values nb))
    ∧ (lexBySpec lt (values na) (values nb) = true
        ↔ List.Lex (fun x y => lt x y = true) (values na) (values nb))
    ∧ (na = [] → nb ≠ [] → operator_lt lt fuel m a b = Except.ok true)
    ∧ (∀ f, na.length < f → operator_lt lt f m a a = Except.ok false) := by
  have h1 := operator_lt_holds lt ha hb hf
  rw [lexList_eq_lexBySpec lt hirr htot] at h1
  refine ⟨h1, lexBySpec_iff_Lex lt hirr _ _, ?_, ?_⟩
  · intro hna hnb
    rw [h1]
    subst hna
    cases nb with
    | nil => exact absurd rfl hnb
    | cons n r => simp [values, lexBySpec]
  · intro f hlen
    rw [operator_lt_holds lt ha ha (by simpa using hlen)]
    rcases lexList_self lt hirr (values na) with h
    rw [h]

/-- C3, at a concrete input: `{1, 2, 3} < {1, 2, 4}` is `true`. -/
theorem C3_operator_lt_lexicographic_witness :
    operator_lt natLt 4 mem123_124 0 1 = Except.ok true :=
  (C3_operator_lt_lexicographic natLt (by intro x; simp [natLt])
    (by intro x y h; simp only [natLt, decide_eq_true_eq]; omega)
    mem123_124 0 1 _ _ 4 holds_mem123_124_0 holds_mem123_124_1 (by decide)).1

/-- C4: for an element type whose `operator<` is a strict total order, the four
ordering operators on two lists `a` and `b` all return a result, and
`a > b` is `b < a`; `a <= b` holds exactly when `a < b` or the two element
sequences are the same; `a >= b` holds exactly when `a > b` or the two element
sequences are the same; exactly one of `a < b`, `a > b`, "same element
sequence" holds; and `a <= a` is `true`. -/
theorem C4_ordering_operators_consistent (lt : α → α → Bool)
    (hirr : ∀ x, lt x x = false)
    (htrans : ∀ x y z, lt x y = true → lt y z = true → lt x z = true)
    (htot : ∀ x y, x ≠ y → lt x y = true ∨ lt y x = true)
    (m : Mem α) (a b : Nat) (na nb : List (Nat × α)) (fuel : Nat)
    (ha : m.Holds a na) (hb : m.Holds b nb) (hf : max na.length nb.length < fuel) :
    ∃ lt_ab gt_ab le_ab ge_ab : Bool,
      operator_lt lt fuel m a b = Except.ok lt_ab
      ∧ operator_gt lt fuel m a b = Except.ok gt_ab
      ∧ operator_le lt fuel m a b = Except.ok le_ab
      ∧ operator_ge lt fuel m a b = Except.ok ge_ab
      ∧ operator_lt lt fuel m b a = Except.ok gt_ab
      ∧ (le_ab = true ↔ (lt_ab = true ∨ values na = values nb))
      ∧ (ge_ab = true ↔ (gt_ab = true ∨ values na = values nb))
      ∧ ((lt_ab = true ∧ gt_ab = false ∧ values na ≠ values nb)
          ∨ (lt_ab = false ∧ gt_ab = true ∧ values na ≠ values nb)
          ∨ (lt_ab = false ∧ gt_ab = false ∧ values na = values nb))
      ∧ operator_le lt fuel m a a = Except.ok true := by
  have hmin : min na.length nb.length < fuel := by omega
  have hmin2 : min nb.length na.length < fuel := by omega
  have hself : min na.length na.length < fuel := by omega
  refine ⟨lexList lt (values na) (values nb), lexList lt (values nb) (values na),
    !lexList lt (values nb) (values na), !lexList lt (values na) (values nb),
    operator_lt_holds lt ha hb hmin, operator_gt_holds lt ha hb hmin,
    operator_le_holds lt ha hb hmin, operator_ge_holds lt ha hb hmin,
    operator_lt_holds lt hb ha hmin2, ?_, ?_, ?_, ?_⟩
  · rcases lexList_trichotomy lt hirr htrans htot (values na) (values nb) with h | h | h <;>
      simp [h.1, h.2.1, h.2.2, lexList_self lt hirr]
  · rcases lexList_trichotomy lt hirr htrans htot (values na) (values nb) with h | h | h <;>
      simp [h.1, h.2.1, h.2.2, lexList_self lt hirr]
  · exact lexList_trichotomy lt hirr htrans htot (values na) (values nb)
  · rw [operator_le_holds lt ha ha hself, lexList_self lt hirr]
    rfl

/-- C4, at a concrete input: `{1, 2, 3}` and `{1, 2, 4}`. -/
theorem C4_ordering_operators_consistent_witness :
    ∃ lt_ab gt_ab le_ab ge_ab : Bool,
      operator_lt natLt 4 mem123_124 0 1 = Except.ok lt_ab
      ∧ operator_gt natLt 4 mem123_124 0 1 = Except.ok gt_ab
      ∧ operator_le natLt 4 mem123_124 0 1 = Except.ok le_ab
      ∧ operator_ge natLt 4 mem123_124 0 1 = Except.ok ge_ab
      ∧ operator_lt natLt 4 mem123_124 1 0 = Except.ok gt_ab
      ∧ (le_ab = true ↔ (lt_ab = true ∨ values [(2, 1), (1, 2), (0, 3)] = values [(5, 1), (4, 2), (3, 4)]))
      ∧ (ge_ab = true ↔ (gt_ab = true ∨ values [(2, 1), (1, 2), (0, 3)] = values [(5, 1), (4, 2), (3, 4)]))
      ∧ ((lt_ab = true ∧ gt_ab = false ∧ values [(2, 1), (1, 2), (0, 3)] ≠ values [(5, 1), (4, 2), (3, 4)])
          ∨ (lt_ab = false ∧ gt_ab = true ∧ values [(2, 1), (1, 2), (0, 3)] ≠ values [(5, 1), (4, 2), (3, 4)])
          ∨ (lt_ab = false ∧ gt_ab = false ∧ values [(2, 1), (1, 2), (0, 3)] = values [(5, 1), (4, 2), (3, 4)]))
      ∧ operator_le natLt 4 mem123_124 0 0 = Except.ok true :=
  C4_ordering_operators_consistent natLt (by intro x; simp [natLt])
    (by intro x y z h1 h2; simp only [natLt, decide_eq_true_eq] at *; omega)
    (by intro x y h; simp only [natLt, decide_eq_true_eq]; omega)
    mem123_124 0 1 _ _ 4 holds_mem123_124_0 holds_mem123_124_1 (by decide)

theorem Chain_frame {m m2 : Mem α} : ∀ (ns : List (Nat × α)) (p : Ptr),
    m.Chain p ns → (∀ n ∈ ns, m2.cells[n.1]? = m.cells[n.1]?) → m2.Chain p ns
  | [], p, h, _ => h
  | n :: rest, p, h, hf => by
    obtain ⟨hp, q, hc, hr⟩ := h
    refine ⟨hp, q, ?_, Chain_frame rest q hr (fun x hx => hf x (List.mem_cons_of_mem _ hx))⟩
    rw [hf n (List.mem_cons_self _ _)]
    exact hc

theorem Chain_lt {m : Mem α} : ∀ (ns : List (Nat × α)) (p : Ptr),
    m.Chain p ns → ∀ n ∈ ns, n.1 < m.cells.length
  | [], _, _, n, hn => by simp at hn
  | x :: rest, p, h, n, hn => by
    obtain ⟨_, q, hc, hr⟩ := h
    rcases List.mem_cons.1 hn with rfl | hn
    · by_contra hlt
      rw [List.getElem?_eq_none (by omega)] at hc
      simp at hc
    · exact Chain_lt rest q hr n hn

theorem Chain_functional {m : Mem α} : ∀ (ns ns2 : List (Nat × α)) (p : Ptr),
    m.Chain p ns → m.Chain p ns2 → ns = ns2
  | [], [], _, _, _ => rfl
  | [], _ :: _, p, h1, h2 => by
    simp only [Mem.Chain] at h1 h2
    rw [h1] at h2
    simp at h2
  | _ :: _, [], p, h1, h2 => by
    simp only [Mem.Chain] at h1 h2
    rw [h2] at h1
    simp at h1
  | x :: r1, y :: r2, p, h1, h2 => by
    obtain ⟨hp1, q1, hc1, hr1⟩ := h1
    obtain ⟨hp2, q2, hc2, hr2⟩ := h2
    rw [hp1] at hp2
    injection hp2 with hxy
    rw [hxy] at hc1
    rw [hc1] at hc2
    simp only [Option.some.injEq, Node.mk.injEq] at hc2
    obtain ⟨hv, hq⟩ := hc2
    subst hq
    have := Chain_functional r1 r2 q1 hr1 hr2
    subst this
    have : x = y := Prod.ext hxy hv
    rw [this]

theorem PushFront_eq {m : Mem α} {self : Nat} {l : SingleLinkedList α}
    (h : m.objs[self]? = some l) (v : α) :
    PushFront m self v = Except.ok
      ⟨m.cells ++ [some ⟨v, l.head_.next_node⟩],
       m.objs.set self ⟨⟨l.head_.value, Ptr.cell m.cells.length⟩, (l.size_ + 1) % SIZE_MOD⟩⟩ := by
  have hlt : self < m.objs.length := by
    by_contra hlt
    rw [List.getElem?_eq_none (by omega)] at h
    simp at h
  simp [PushFront, load_sentinel h, Mem.new, Mem.storeNext, h, Mem.incSize, Mem.loadSize,
    Mem.storeSize, List.getElem?_set, hlt]

theorem lt_of_getElem?_eq_some {β : Type} {l : List β} {i : Nat} {x : β} (h : l[i]? = some x) :
    i < l.length := by
  by_contra hlt
  rw [List.getElem?_eq_none (by omega)] at h
  simp at h

theorem Chain_append {m : Mem α} {p : Ptr} {ns : List (Nat × α)} (h : m.Chain p ns)
    (ys : List (Option (Node α))) (os : List (SingleLinkedList α)) :
    (Mem.mk (m.cells ++ ys) os).Chain p ns := by
  refine Chain_frame ns p h ?_
  intro n hn
  have := Chain_lt ns p h n hn
  simp [List.getElem?_append_left this]

theorem getSize_of_obj {m : Mem α} {self : Nat} {l : SingleLinkedList α}
    (h : m.objs[self]? = some l) : GetSize m self = Except.ok l.size_ := by
  simp [GetSize, Mem.loadSize, h]

theorem size_of_getSize {m : Mem α} {self k : Nat} {l : SingleLinkedList α}
    (h : m.objs[self]? = some l) (hs : GetSize m self = Except.ok k) : l.size_ = k := by
  simpa [GetSize, Mem.loadSize, h] using hs

theorem PushFront_holds {m : Mem α} {self k : Nat} {ns : List (Nat × α)} (v : α)
    (hh : m.Holds self ns) (hs : GetSize m self = Except.ok k) :
    ∃ m2, PushFront m self v = Except.ok m2
      ∧ m2.Holds self ((m.cells.length, v) :: ns)
      ∧ GetSize m2 self = Except.ok ((k + 1) % SIZE_MOD)
      ∧ m2.cells.length = m.cells.length + 1
      ∧ (∀ a, a < m.cells.length → m2.cells[a]? = m.cells[a]?)
      ∧ m2.objs.length = m.objs.length
      ∧ (∀ j, j ≠ self → m2.objs[j]? = m.objs[j]?) := by
  obtain ⟨l, hl, hc⟩ := hh
  have hk := size_of_getSize hl hs
  have hlt := lt_of_getElem?_eq_some hl
  refine ⟨_, PushFront_eq hl v,
    ⟨⟨⟨l.head_.value, Ptr.cell m.cells.length⟩, (l.size_ + 1) % SIZE_MOD⟩,
      by simp [List.getElem?_set, hlt], ?_⟩, ?_, ?_, ?_, ?_, ?_⟩
  · exact ⟨rfl, l.head_.next_node, by simp, Chain_append hc _ _⟩
  · simp [GetSize, Mem.loadSize, List.getElem?_set, hlt, hk]
  · simp
  · intro a ha
    simp [List.getElem?_append_left ha]
  · simp
  · intro j hj
    simp [List.getElem?_set, Ne.symm hj]

theorem pushAll_holds : ∀ (vs : List α) (m : Mem α) (self k : Nat) (ns : List (Nat × α)),
    m.Holds self ns → GetSize m self = Except.ok k → k + vs.length < SIZE_MOD →
    ∃ m2 ns2, pushAll m self vs = Except.ok m2 ∧ m2.Holds self ns2
      ∧ values ns2 = vs.reverse ++ values ns
      ∧ GetSize m2 self = Except.ok (k + vs.length)
  | [], m, self, k, ns, hh, hs, _ => ⟨m, ns, rfl, hh, by simp, by simpa using hs⟩
  | v :: vs, m, self, k, ns, hh, hs, hk => by
    obtain ⟨m1, h1, hh1, hs1, _⟩ := PushFront_holds v hh hs
    have hk1 : (k + 1) % SIZE_MOD = k + 1 := Nat.mod_eq_of_lt (by simp at hk; omega)
    rw [hk1] at hs1
    obtain ⟨m2, ns2, h2, hh2, hv2, hs2⟩ :=
      pushAll_holds vs m1 self (k + 1) _ hh1 hs1 (by simp at hk; omega)
    refine ⟨m2, ns2, by simp [pushAll, h1, h2], hh2, ?_, ?_⟩
    · rw [hv2]
      simp [values]
    · rw [hs2]
      simp
      omega

theorem ctor_holds [Inhabited α] (m : Mem α) :
    (SingleLinkedList.ctor m).2.Holds (SingleLinkedList.ctor m).1 []
    ∧ GetSize (SingleLinkedList.ctor m).2 (SingleLinkedList.ctor m).1 = Except.ok 0 := by
  constructor
  · exact ⟨⟨⟨default, Ptr.null⟩, 0⟩, by simp [SingleLinkedList.ctor, Mem.newObj], rfl⟩
  · simp [SingleLinkedList.ctor, Mem.newObj, GetSize, Mem.loadSize]

/-! ## PushFront and the constructors -/

/-- C5: `PushFront(v)` on a list with element sequence `s` and size `k` (with
`k + 1` in the range of `size_t`) returns, and afterwards `GetSize()` is
`k + 1` and forward traversal yields `v` followed by `s`.  Pushing the values
`vs` one after the other onto a default-constructed list gives size
`vs.length` and the traversal `vs` reversed. -/
theorem C5_PushFront_prepends [Inhabited α] (m : Mem α) (self k : Nat) (ns : List (Nat × α))
    (v : α) (hh : m.Holds self ns) (hs : GetSize m self = Except.ok k) (hk : k + 1 < SIZE_MOD) :
    (∃ m2, PushFront m self v = Except.ok m2
      ∧ GetSize m2 self = Except.ok (k + 1)
      ∧ (∀ fuel, ns.length + 1 < fuel → traverse fuel m2 self = Except.ok (v :: values ns)))
    ∧ (∀ (m0 : Mem α) (vs : List α), vs.length < SIZE_MOD →
        ∃ m2, pushAll (SingleLinkedList.ctor m0).2 (SingleLinkedList.ctor m0).1 vs = Except.ok m2
          ∧ GetSize m2 (SingleLinkedList.ctor m0).1 = Except.ok vs.length
          ∧ (∀ fuel, vs.length < fuel →
              traverse fuel m2 (SingleLinkedList.ctor m0).1 = Except.ok vs.reverse)) := by
  constructor
  · obtain ⟨m2, h1, hh1, hs1, _⟩ := PushFront_holds v hh hs
    rw [Nat.mod_eq_of_lt hk] at hs1
    refine ⟨m2, h1, hs1, ?_⟩
    intro fuel hf
    rw [traverse_holds hh1 (by simpa using hf)]
    simp [values]
  · intro m0 vs hvs
    obtain ⟨h0, s0⟩ := ctor_holds m0
    obtain ⟨m2, ns2, h2, hh2, hv2, hs2⟩ := pushAll_holds vs _ _ 0 [] h0 s0 (by omega)
    refine ⟨m2, h2, by simpa using hs2, ?_⟩
    intro fuel hf
    have hlen : ns2.length = vs.length := by
      have := congrArg List.length hv2
      simpa [values] using this
    rw [traverse_holds hh2 (by omega), hv2]
    simp [values]

/-- C5, at a concrete input: `PushFront(7)` on `{1, 2, 3}`. -/
theorem C5_PushFront_prepends_witness :
    ∃ m2, PushFront mem123_124 0 7 = Except.ok m2
      ∧ GetSize m2 0 = Except.ok 4
      ∧ (∀ fuel, 3 + 1 < fuel → traverse fuel m2 0 = Except.ok [7, 1, 2, 3]) :=
  (C5_PushFront_prepends mem123_124 0 3 [(2, 1), (1, 2), (0, 3)] 7 holds_mem123_124_0 rfl
    (by simp [SIZE_MOD])).1

theorem initLoop_holds (vs : List α) : ∀ (k : Nat) (m : Mem α) (self s : Nat)
    (ns : List (Nat × α)), k ≤ vs.length → m.Holds self ns → GetSize m self = Except.ok s →
    s + k < SIZE_MOD →
    ∃ m2 ns2, initLoop vs k m self = Except.ok m2 ∧ m2.Holds self ns2
      ∧ values ns2 = vs.take k ++ values ns
      ∧ GetSize m2 self = Except.ok (s + k)
  | 0, m, self, s, ns, _, hh, hs, _ => ⟨m, ns, rfl, hh, by simp, by simpa using hs⟩
  | k + 1, m, self, s, ns, hk, hh, hs, hlt => by
    have hk2 : k < vs.length := by omega
    obtain ⟨m1, h1, hh1, hs1, _⟩ := PushFront_holds vs[k] hh hs
    rw [Nat.mod_eq_of_lt (by omega)] at hs1
    obtain ⟨m2, ns2, h2, hh2, hv2, hs2⟩ :=
      initLoop_holds vs k m1 self (s + 1) _ (by omega) hh1 hs1 (by omega)
    refine ⟨m2, ns2, ?_, hh2, ?_, ?_⟩
    · simp [initLoop, List.getElem?_eq_getElem hk2, h1, h2]
    · rw [hv2]
      simp only [values, List.map_cons]
      rw [List.take_succ, List.getElem?_eq_getElem hk2]
      simp only [Option.toList, List.append_assoc, List.cons_append, List.nil_append]
    · rw [hs2]
      congr 1
      omega

theorem newObj_holds [Inhabited α] (m : Mem α) :
    m.newObj.2.Holds m.newObj.1 [] ∧ GetSize m.newObj.2 m.newObj.1 = Except.ok 0 :=
  ctor_holds m

/-- C6: the constructor from an initializer list `vs` (with `vs.length` in the
range of `size_t`) returns a list whose `GetSize()` is `vs.length` and whose
forward traversal yields `vs` in the same order. -/
theorem C6_initializer_list_keeps_order [Inhabited α] (m : Mem α) (vs : List α)
    (hlen : vs.length < SIZE_MOD) :
    ∃ self m2, SingleLinkedList.ofInitializerList m vs = Except.ok (self, m2)
      ∧ GetSize m2 self = Except.ok vs.length
      ∧ (∀ fuel, vs.length < fuel → traverse fuel m2 self = Except.ok vs) := by
  obtain ⟨h0, s0⟩ := newObj_holds m
  by_cases hv : vs.length = 0
  · have hnil : vs = [] := List.length_eq_zero.1 hv
    subst hnil
    refine ⟨m.newObj.1, m.newObj.2, by simp [SingleLinkedList.ofInitializerList], s0, ?_⟩
    intro fuel hf
    rw [traverse_holds h0 (by simpa using hf)]
    rfl
  · obtain ⟨m2, ns2, h2, hh2, hv2, hs2⟩ :=
      initLoop_holds vs vs.length m.newObj.2 m.newObj.1 0 [] (le_refl _) h0 s0 (by omega)
    refine ⟨m.newObj.1, m2, ?_, by simpa using hs2, ?_⟩
    · simp [SingleLinkedList.ofInitializerList, hv, h2]
    · intro fuel hf
      have hlen2 : ns2.length = vs.length := by
        have := congrArg List.length hv2
        simpa [values] using this
      rw [traverse_holds hh2 (by omega), hv2]
      simp [values]

/-- C6, at a concrete input: the list built from `[1, 2, 3]` in an empty memory. -/
theorem C6_initializer_list_keeps_order_witness :
    ∃ self m2, SingleLinkedList.ofInitializerList (Mem.mk [] []) [1, 2, 3] = Except.ok (self, m2)
      ∧ GetSize m2 self = Except.ok 3
      ∧ (∀ fuel, 3 < fuel → traverse fuel m2 self = Except.ok [1, 2, 3]) :=
  C6_initializer_list_keeps_order (Mem.mk [] []) [1, 2, 3] (by simp [SIZE_MOD])

theorem Chain_suffix {m : Mem α} : ∀ (ns : List (Nat × α)) (p : Ptr) (x : Nat × α),
    m.Chain p ns → x ∈ ns →
    ∃ pre post, ns = pre ++ x :: post ∧ m.Chain (Ptr.cell x.1) (x :: post)
  | [], _, _, _, hx => by simp at hx
  | n :: rest, p, x, h, hx => by
    rcases List.mem_cons.1 hx with rfl | hx
    · exact ⟨[], rest, rfl, ⟨rfl, h.2⟩⟩
    · obtain ⟨_, q, _, hr⟩ := h
      obtain ⟨pre, post, he, hc⟩ := Chain_suffix rest q x hr hx
      exact ⟨n :: pre, post, by simp [he], hc⟩

theorem Chain_head_notin {m : Mem α} {p : Ptr} {n : Nat × α} {rest : List (Nat × α)}
    (h : m.Chain p (n :: rest)) : ∀ x ∈ rest, x.1 ≠ n.1 := by
  intro x hx hxn
  obtain ⟨hp, q, hc, hr⟩ := h
  obtain ⟨pre, post, he, hs⟩ := Chain_suffix rest q x hr hx
  have h1 : m.Chain (Ptr.cell x.1) (n :: rest) := ⟨by rw [hxn], q, hc, hr⟩
  have := Chain_functional _ _ _ h1 hs
  have hlen := congrArg List.length this
  rw [he] at hlen
  simp at hlen
  omega

theorem Chain_nodup {m : Mem α} : ∀ (ns : List (Nat × α)) (p : Ptr),
    m.Chain p ns → (addrs ns).Nodup
  | [], _, _ => by simp [addrs]
  | n :: rest, p, h => by
    have hn := Chain_head_notin h
    obtain ⟨_, q, _, hr⟩ := h
    have ih := Chain_nodup rest q hr
    simp only [addrs, List.map_cons, List.nodup_cons]
    refine ⟨?_, ih⟩
    intro hmem
    obtain ⟨x, hx, hx1⟩ := List.mem_map.1 hmem
    exact hn x hx hx1

theorem Chain_drop {m : Mem α} : ∀ (ns : List (Nat × α)) (p : Ptr) (i : Nat) (n : Nat × α),
    m.Chain p ns → ns[i]? = some n → m.Chain (Ptr.cell n.1) (ns.drop i)
  | [], _, i, n, _, hi => by simp at hi
  | x :: rest, p, 0, n, h, hi => by
    simp at hi
    subst hi
    exact ⟨rfl, h.2⟩
  | x :: rest, p, i + 1, n, h, hi => by
    obtain ⟨_, q, _, hr⟩ := h
    simp at hi
    simpa using Chain_drop rest q i n hr hi

theorem advance_chain {m : Mem α} : ∀ (ns : List (Nat × α)) (p : Ptr) (i : Nat),
    m.Chain p ns → i ≤ ns.length →
    advance m i ⟨p⟩ = Except.ok ⟨match ns[i]? with | some n => Ptr.cell n.1 | none => Ptr.null⟩
  | [], p, 0, h, _ => by
    simp only [Mem.Chain] at h
    simp [advance, h]
  | [], p, i + 1, _, hi => by simp at hi
  | n :: rest, p, 0, h, _ => by
    simp [advance, h.1]
  | n :: rest, p, i + 1, h, hi => by
    obtain ⟨hp, q, hc, hr⟩ := h
    subst hp
    simp only [advance, inc_cell hc, ok_bind]
    rw [advance_chain rest q i hr (by simpa using hi)]
    simp

theorem nth_iterator_holds {m : Mem α} {self i : Nat} {ns : List (Nat × α)} {n : Nat × α}
    (hh : m.Holds self ns) (hi : ns[i]? = some n) :
    nth_iterator m self i = Except.ok ⟨Ptr.cell n.1⟩ := by
  obtain ⟨l, hl, hc⟩ := hh
  have hlt := lt_of_getElem?_eq_some hi
  simp [nth_iterator, begin_holds hl, advance_chain ns _ i hc (by omega), hi]

theorem nth_iterator_end {m : Mem α} {self : Nat} {ns : List (Nat × α)}
    (hh : m.Holds self ns) : nth_iterator m self ns.length = Except.ok end_ := by
  obtain ⟨l, hl, hc⟩ := hh
  simp [nth_iterator, begin_holds hl, advance_chain ns _ ns.length hc (le_refl _), end_]

theorem InsertAfter_cell_eq {m : Mem α} {self a : Nat} {l : SingleLinkedList α} {c : Node α}
    (hl : m.objs[self]? = some l) (hc : m.cells[a]? = some (some c)) (v : α) :
    InsertAfter m self ⟨Ptr.cell a⟩ v = Except.ok (BasicIterator.mk (Ptr.cell m.cells.length),
      Mem.mk (m.cells.set a (some (Node.mk c.value (Ptr.cell m.cells.length)))
          ++ [some (Node.mk v c.next_node)])
        (m.objs.set self (SingleLinkedList.mk l.head_ ((l.size_ + 1) % SIZE_MOD)))) := by
  have hlt := lt_of_getElem?_eq_some hl
  have hlt2 := lt_of_getElem?_eq_some hc
  simp [InsertAfter, load_cell hc, Mem.new, Mem.storeNext, hl, Mem.incSize, Mem.loadSize,
    Mem.storeSize, List.getElem?_set, hlt, hlt2, List.getElem?_append_left hlt2, hc, Mem.load]
  simp [List.getElem?_append_left, List.getElem?_set, hlt2]

theorem Chain_insert {m : Mem α} (v : α) (os : List (SingleLinkedList α)) :
    ∀ (ns : List (Nat × α)) (p : Ptr) (i : Nat) (n : Nat × α) (c : Node α),
    m.Chain p ns → ns[i]? = some n → m.cells[n.1]? = some (some c) →
    (Mem.mk (m.cells.set n.1 (some (Node.mk c.value (Ptr.cell m.cells.length)))
        ++ [some (Node.mk v c.next_node)]) os).Chain p
      (ns.take (i + 1) ++ (m.cells.length, v) :: ns.drop (i + 1))
  | [], _, i, n, c, _, hi, _ => by simp at hi
  | x :: rest, p, 0, n, c, h, hi, hc => by
    simp at hi
    subst hi
    have hnot := Chain_head_notin h
    have hlen := Chain_lt _ _ h
    obtain ⟨hp, q, hx, hr⟩ := h
    have hxlt := lt_of_getElem?_eq_some hx
    rw [hx] at hc
    simp only [Option.some.injEq] at hc
    subst hc
    simp only [List.take_succ_cons, List.take_zero, List.drop_succ_cons, List.drop_zero,
      List.cons_append, List.nil_append]
    refine ⟨hp, Ptr.cell m.cells.length, ?_, rfl, q, ?_, ?_⟩
    · simp [List.getElem?_append_left, List.getElem?_set, hxlt]
    · have h1 : (m.cells.set x.1 (some (Node.mk x.2 (Ptr.cell m.cells.length)))).length
          = m.cells.length := by simp
      rw [List.getElem?_append_right (by omega), h1]
      simp
    · refine Chain_frame rest q hr ?_
      intro y hy
      have h1 := hnot y hy
      have h2 := hlen y (List.mem_cons_of_mem _ hy)
      simp [List.getElem?_append_left, List.getElem?_set, Ne.symm h1, h2]
  | x :: rest, p, i + 1, n, c, h, hi, hc => by
    have hnot := Chain_head_notin h
    obtain ⟨hp, q, hx, hr⟩ := h
    have hxlt := lt_of_getElem?_eq_some hx
    simp at hi
    have hmem : n ∈ rest := List.getElem?_mem hi
    have hne := hnot n hmem
    have ih := Chain_insert v os rest q i n c hr hi hc
    simp only [List.take_succ_cons, List.drop_succ_cons, List.cons_append]
    refine ⟨hp, q, ?_, ih⟩
    show (m.cells.set n.1 _ ++ _)[x.1]? = _
    rw [List.getElem?_append_left (by simpa using hxlt), List.getElem?_set_ne hne]
    exact hx

theorem InsertAfter_sentinel_eq {m : Mem α} {self : Nat} {l : SingleLinkedList α}
    (hl : m.objs[self]? = some l) (v : α) :
    InsertAfter m self (before_begin self) v = Except.ok (BasicIterator.mk (Ptr.cell m.cells.length),
      Mem.mk (m.cells ++ [some (Node.mk v l.head_.next_node)])
        (m.objs.set self (SingleLinkedList.mk (Node.mk l.head_.value (Ptr.cell m.cells.length))
          ((l.size_ + 1) % SIZE_MOD)))) := by
  have hlt := lt_of_getElem?_eq_some hl
  simp [InsertAfter, before_begin, load_sentinel hl, Mem.new, Mem.storeNext, hl, Mem.incSize,
    Mem.loadSize, Mem.storeSize, List.getElem?_set, hlt, Mem.load]

theorem values_insert (ns : List (Nat × α)) (i : Nat) (x : Nat × α) :
    values (ns.take i ++ x :: ns.drop i) = (values ns).take i ++ x.2 :: (values ns).drop i := by
  simp [values, List.map_take, List.map_drop]

theorem InsertAfter_at {m : Mem α} {self k i : Nat} {ns : List (Nat × α)} {n : Nat × α} (v : α)
    (hh : m.Holds self ns) (hs : GetSize m self = Except.ok k) (hi : ns[i]? = some n) :
    ∃ m2, InsertAfter m self ⟨Ptr.cell n.1⟩ v = Except.ok (⟨Ptr.cell m.cells.length⟩, m2)
      ∧ m2.Holds self (ns.take (i + 1) ++ (m.cells.length, v) :: ns.drop (i + 1))
      ∧ GetSize m2 self = Except.ok ((k + 1) % SIZE_MOD)
      ∧ m.FrameOf m2 self ns
      ∧ BasicIterator.deref m2 ⟨Ptr.cell m.cells.length⟩ = Except.ok v
      ∧ BasicIterator.inc m2 ⟨Ptr.cell n.1⟩ = Except.ok ⟨Ptr.cell m.cells.length⟩ := by
  obtain ⟨l, hl, hc⟩ := hh
  have hk := size_of_getSize hl hs
  have hlt := lt_of_getElem?_eq_some hl
  have hmem : n ∈ ns := List.getElem?_mem hi
  have hnlt := Chain_lt ns _ hc n hmem
  obtain ⟨c, hcell⟩ : ∃ c, m.cells[n.1]? = some (some c) := by
    obtain ⟨pre, post, _, hsuf⟩ := Chain_suffix ns _ n hc hmem
    obtain ⟨_, q, hq, _⟩ := hsuf
    exact ⟨_, hq⟩
  have hlen : (m.cells.set n.1 (some (Node.mk c.value (Ptr.cell m.cells.length)))).length
      = m.cells.length := by simp
  refine ⟨_, InsertAfter_cell_eq hl hcell v,
    ⟨SingleLinkedList.mk l.head_ ((l.size_ + 1) % SIZE_MOD), ?_, ?_⟩, ?_, ⟨?_, ?_, ?_, ?_⟩, ?_, ?_⟩
  · show (m.objs.set self _)[self]? = some _
    simp [List.getElem?_set, hlt]
  · exact Chain_insert v _ ns _ i n c hc hi hcell
  · simp [GetSize, Mem.loadSize, List.getElem?_set, hlt, hk]
  · simp
  · simp
  · intro a ha hnot
    have hne : n.1 ≠ a := by
      intro h
      apply hnot
      rw [← h]
      exact List.mem_map_of_mem Prod.fst hmem
    show (m.cells.set n.1 _ ++ _)[a]? = _
    rw [List.getElem?_append_left (by simpa using ha), List.getElem?_set_ne hne]
  · intro j _ hj
    show (m.objs.set self _)[j]? = _
    rw [List.getElem?_set_ne (Ne.symm hj)]
  · have h1 : (m.cells.set n.1 (some (Node.mk c.value (Ptr.cell m.cells.length)))
        ++ [some (Node.mk v c.next_node)])[m.cells.length]? = some (some (Node.mk v c.next_node)) := by
      rw [List.getElem?_append_right (by omega), hlen]
      simp
    exact @deref_cell α (Mem.mk _ _) _ _ h1
  · have h1 : (m.cells.set n.1 (some (Node.mk c.value (Ptr.cell m.cells.length)))
        ++ [some (Node.mk v c.next_node)])[n.1]?
        = some (some (Node.mk c.value (Ptr.cell m.cells.length))) := by
      rw [List.getElem?_append_left (by omega)]
      simp [List.getElem?_set, hnlt]
    exact @inc_cell α (Mem.mk _ _) _ _ h1

theorem InsertAfter_front {m : Mem α} {self k : Nat} {ns : List (Nat × α)} (v : α)
    (hh : m.Holds self ns) (hs : GetSize m self = Except.ok k) :
    ∃ m2, InsertAfter m self (before_begin self) v = Except.ok (⟨Ptr.cell m.cells.length⟩, m2)
      ∧ PushFront m self v = Except.ok m2
      ∧ begin m2 self = Except.ok ⟨Ptr.cell m.cells.length⟩
      ∧ m2.Holds self ((m.cells.length, v) :: ns)
      ∧ GetSize m2 self = Except.ok ((k + 1) % SIZE_MOD)
      ∧ m.FrameOf m2 self ns
      ∧ BasicIterator.deref m2 ⟨Ptr.cell m.cells.length⟩ = Except.ok v
      ∧ BasicIterator.inc m2 (before_begin self) = Except.ok ⟨Ptr.cell m.cells.length⟩ := by
  obtain ⟨m2, h1, hh1, hs1, hlen, hcells, hol, hobjs⟩ := PushFront_holds v hh hs
  obtain ⟨l, hl, hc⟩ := hh
  have hlt := lt_of_getElem?_eq_some hl
  have he := PushFront_eq hl v
  rw [h1] at he
  injection he with he
  have hb : m2.objs[self]? = some (SingleLinkedList.mk
      (Node.mk l.head_.value (Ptr.cell m.cells.length)) ((l.size_ + 1) % SIZE_MOD)) := by
    rw [he]
    simp [List.getElem?_set, hlt]
  have hcl : m2.cells[m.cells.length]? = some (some (Node.mk v l.head_.next_node)) := by
    rw [he]
    simp
  refine ⟨m2, ?_, h1, ?_, hh1, hs1, ⟨by omega, by omega, ?_, ?_⟩, deref_cell hcl, ?_⟩
  · rw [InsertAfter_sentinel_eq hl v, he]
  · rw [begin_holds hb]
  · intro a ha _
    exact hcells a ha
  · intro j _ hj
    exact hobjs j hj
  · simp [BasicIterator.inc, before_begin, load_sentinel hb]

/-! ## InsertAfter -/

/-- C9: on a list with element sequence `s` and size `k` (with `k + 1` in the
range of `size_t`), `InsertAfter(pos, v)` returns.  For `pos = before_begin()`
the new sequence is `v` followed by `s`; for `pos` the iterator to the element
at index `i` it is `s` with `v` inserted at index `i + 1`, all other elements
in their old order.  `GetSize()` becomes `k + 1`, and the returned iterator
refers to the new element: dereferencing it gives `v`, and it is the
successor of `pos`. -/
theorem C9_InsertAfter_inserts_after_pos (m : Mem α) (self k : Nat) (ns : List (Nat × α))
    (v : α) (hh : m.Holds self ns) (hs : GetSize m self = Except.ok k) (hk : k + 1 < SIZE_MOD) :
    (∃ it m2, InsertAfter m self (before_begin self) v = Except.ok (it, m2)
      ∧ GetSize m2 self = Except.ok (k + 1)
      ∧ (∀ fuel, ns.length + 1 < fuel → traverse fuel m2 self = Except.ok (v :: values ns))
      ∧ BasicIterator.deref m2 it = Except.ok v
      ∧ BasicIterator.inc m2 (before_begin self) = Except.ok it)
    ∧ (∀ (i : Nat) (pos : BasicIterator), i < ns.length → nth_iterator m self i = Except.ok pos →
        ∃ it m2, InsertAfter m self pos v = Except.ok (it, m2)
          ∧ GetSize m2 self = Except.ok (k + 1)
          ∧ (∀ fuel, ns.length + 1 < fuel → traverse fuel m2 self
              = Except.ok ((values ns).take (i + 1) ++ v :: (values ns).drop (i + 1)))
          ∧ BasicIterator.deref m2 it = Except.ok v
          ∧ BasicIterator.inc m2 pos = Except.ok it) := by
  constructor
  · obtain ⟨m2, h1, _, _, hh2, hs2, _, hd, hi⟩ := InsertAfter_front v hh hs
    rw [Nat.mod_eq_of_lt hk] at hs2
    refine ⟨_, m2, h1, hs2, ?_, hd, hi⟩
    intro fuel hf
    rw [traverse_holds hh2 (by simpa using hf)]
    simp [values]
  · intro i pos hi hpos
    have hget : ns[i]? = some ns[i] := List.getElem?_eq_getElem hi
    rw [nth_iterator_holds hh hget] at hpos
    injection hpos with hpos
    subst hpos
    obtain ⟨m2, h1, hh2, hs2, _, hd, hinc⟩ := InsertAfter_at v hh hs hget
    rw [Nat.mod_eq_of_lt hk] at hs2
    refine ⟨_, m2, h1, hs2, ?_, hd, hinc⟩
    intro fuel hf
    rw [traverse_holds hh2 (by simp; omega), values_insert]

/-- C9, at a concrete input: `InsertAfter(begin(), 9)` on `{1, 2, 3}` gives `{1, 9, 2, 3}`. -/
theorem C9_InsertAfter_inserts_after_pos_witness :
    ∃ it m2, InsertAfter mem123_124 0 ⟨Ptr.cell 2⟩ 9 = Except.ok (it, m2)
      ∧ GetSize m2 0 = Except.ok 4
      ∧ (∀ fuel, 3 + 1 < fuel → traverse fuel m2 0 = Except.ok [1, 9, 2, 3])
      ∧ BasicIterator.deref m2 it = Except.ok 9
      ∧ BasicIterator.inc m2 ⟨Ptr.cell 2⟩ = Except.ok it :=
  (C9_InsertAfter_inserts_after_pos mem123_124 0 3 [(2, 1), (1, 2), (0, 3)] 9
    holds_mem123_124_0 rfl (by simp [SIZE_MOD])).2 0 ⟨Ptr.cell 2⟩ (by decide) rfl

/-- C10: on the same starting list, `InsertAfter(before_begin(), v)` and
`PushFront(v)` both return, the two resulting lists have the same element
sequence (`v` followed by the old one) and the same `GetSize()`, and the
iterator returned by `InsertAfter` is `begin()` of the resulting list. -/
theorem C10_InsertAfter_before_begin_eq_PushFront (m : Mem α) (self k : Nat)
    (ns : List (Nat × α)) (v : α) (hh : m.Holds self ns) (hs : GetSize m self = Except.ok k) :
    ∃ it m_ins m_push, InsertAfter m self (before_begin self) v = Except.ok (it, m_ins)
      ∧ PushFront m self v = Except.ok m_push
      ∧ (∀ fuel, ns.length + 1 < fuel →
          traverse fuel m_ins self = Except.ok (v :: values ns)
          ∧ traverse fuel m_push self = Except.ok (v :: values ns))
      ∧ GetSize m_ins self = Except.ok ((k + 1) % SIZE_MOD)
      ∧ GetSize m_push self = Except.ok ((k + 1) % SIZE_MOD)
      ∧ begin m_ins self = Except.ok it := by
  obtain ⟨m2, h1, h2, hb, hh2, hs2, _, _, _⟩ := InsertAfter_front v hh hs
  refine ⟨_, m2, m2, h1, h2, ?_, hs2, hs2, hb⟩
  intro fuel hf
  rw [traverse_holds hh2 (by simpa using hf)]
  simp [values]

/-- C10, at a concrete input: the list `{1, 2, 3}` and the value `9`. -/
theorem C10_InsertAfter_before_begin_eq_PushFront_witness :
    ∃ it m_ins m_push, InsertAfter mem123_124 0 (before_begin 0) 9 = Except.ok (it, m_ins)
      ∧ PushFront mem123_124 0 9 = Except.ok m_push
      ∧ (∀ fuel, 3 + 1 < fuel →
          traverse fuel m_ins 0 = Except.ok [9, 1, 2, 3]
          ∧ traverse fuel m_push 0 = Except.ok [9, 1, 2, 3])
      ∧ GetSize m_ins 0 = Except.ok ((3 + 1) % SIZE_MOD)
      ∧ GetSize m_push 0 = Except.ok ((3 + 1) % SIZE_MOD)
      ∧ begin m_ins 0 = Except.ok it :=
  C10_InsertAfter_before_begin_eq_PushFront mem123_124 0 3 [(2, 1), (1, 2), (0, 3)] 9
    holds_mem123_124_0 rfl

theorem Chain_cell {m : Mem α} {p : Ptr} {n : Nat × α} {rest : List (Nat × α)}
    (h : m.Chain p (n :: rest)) :
    p = Ptr.cell n.1 ∧ ∃ c, m.cells[n.1]? = some (some c) ∧ c.value = n.2
      ∧ m.Chain c.next_node rest := by
  obtain ⟨hp, q, hc, hr⟩ := h
  exact ⟨hp, _, hc, rfl, hr⟩

theorem FrameOf_trans {m m1 m2 : Mem α} {self : Nat} {ns ns1 : List (Nat × α)}
    (h1 : m.FrameOf m1 self ns) (h2 : m1.FrameOf m2 self ns1)
    (hsub : ∀ x ∈ addrs ns1, x ∈ addrs ns ∨ m.cells.length ≤ x) : m.FrameOf m2 self ns := by
  obtain ⟨a1, b1, c1, d1⟩ := h1
  obtain ⟨a2, b2, c2, d2⟩ := h2
  refine ⟨by omega, by omega, ?_, ?_⟩
  · intro a ha hnot
    rw [c2 a (by omega) ?_, c1 a ha hnot]
    intro hmem
    rcases hsub a hmem with h | h
    · exact hnot h
    · omega
  · intro j hj hne
    rw [d2 j (by omega) hne, d1 j hj hne]

theorem FrameOf_refl (m : Mem α) (self : Nat) (ns : List (Nat × α)) : m.FrameOf m self ns :=
  ⟨le_refl _, le_refl _, fun _ _ _ => rfl, fun _ _ _ => rfl⟩

theorem PopFront_eq {m : Mem α} {self a : Nat} {l : SingleLinkedList α} {c : Node α}
    (hl : m.objs[self]? = some l) (hp : l.head_.next_node = Ptr.cell a)
    (hc : m.cells[a]? = some (some c)) :
    PopFront m self = Except.ok (Mem.mk (m.cells.set a none)
      (m.objs.set self (SingleLinkedList.mk (Node.mk l.head_.value c.next_node)
        ((l.size_ + SIZE_MOD - 1) % SIZE_MOD)))) := by
  have hlt := lt_of_getElem?_eq_some hl
  simp [PopFront, load_sentinel hl, hp, load_cell hc, Mem.storeNext, hl, Mem.delete, hc,
    Mem.decSize, Mem.loadSize, Mem.storeSize, List.getElem?_set, hlt]

theorem PopFront_holds {m : Mem α} {self k : Nat} {n : Nat × α} {rest : List (Nat × α)}
    (hh : m.Holds self (n :: rest)) (hs : GetSize m self = Except.ok k) :
    ∃ m2, PopFront m self = Except.ok m2
      ∧ m2.Holds self rest
      ∧ GetSize m2 self = Except.ok ((k + SIZE_MOD - 1) % SIZE_MOD)
      ∧ m.FrameOf m2 self (n :: rest)
      ∧ m2.cells[n.1]? = some none := by
  obtain ⟨l, hl, hc⟩ := hh
  have hk := size_of_getSize hl hs
  have hlt := lt_of_getElem?_eq_some hl
  have hnot := Chain_head_notin hc
  have hlen := Chain_lt _ _ hc
  obtain ⟨hp, c, hcell, hv, hr⟩ := Chain_cell hc
  have hnlt := lt_of_getElem?_eq_some hcell
  refine ⟨_, PopFront_eq hl hp hcell,
    ⟨SingleLinkedList.mk (Node.mk l.head_.value c.next_node)
      ((l.size_ + SIZE_MOD - 1) % SIZE_MOD), ?_, ?_⟩, ?_, ⟨?_, ?_, ?_, ?_⟩, ?_⟩
  · show (m.objs.set self _)[self]? = some _
    simp [List.getElem?_set, hlt]
  · refine Chain_frame rest _ hr ?_
    intro y hy
    show (m.cells.set n.1 none)[y.1]? = _
    rw [List.getElem?_set_ne (Ne.symm (hnot y hy))]
  · simp [GetSize, Mem.loadSize, List.getElem?_set, hlt, hk]
  · simp
  · simp
  · intro a _ hnotin
    have hne : n.1 ≠ a := by
      intro h
      apply hnotin
      simp [addrs, h]
    show (m.cells.set n.1 none)[a]? = _
    rw [List.getElem?_set_ne hne]
  · intro j _ hj
    show (m.objs.set self _)[j]? = _
    rw [List.getElem?_set_ne (Ne.symm hj)]
  · show (m.cells.set n.1 none)[n.1]? = _
    simp [List.getElem?_set, hnlt]

theorem Clear_succ (fuel : Nat) (m : Mem α) (self : Nat) :
    Clear (fuel + 1) m self = (do
      let h ← m.load (Ptr.sentinel self)
      if h.next_node = Ptr.null then pure m
      else
        let m3 ← PopFront m self
        Clear fuel m3 self) := by
  simp only [Clear, PopFront]
  cases m.load (Ptr.sentinel self) with
  | error e => rfl
  | ok h =>
    simp only [ok_bind]
    split
    · rfl
    · simp only [bind_assoc]

theorem decs_mod (k n : Nat) :
    ((k + SIZE_MOD - 1) % SIZE_MOD + n * (SIZE_MOD - 1)) % SIZE_MOD
      = (k + (n + 1) * (SIZE_MOD - 1)) % SIZE_MOD := by
  have h : 0 < SIZE_MOD := by simp [SIZE_MOD]
  rw [Nat.add_mod, Nat.mod_mod, ← Nat.add_mod]
  congr 1
  rw [Nat.add_mul]
  omega

theorem decs_all (n : Nat) : (n + n * (SIZE_MOD - 1)) % SIZE_MOD = 0 := by
  have h : 0 < SIZE_MOD := by simp [SIZE_MOD]
  have : n + n * (SIZE_MOD - 1) = n * SIZE_MOD := by
    have h2 : SIZE_MOD = (SIZE_MOD - 1) + 1 := by omega
    nth_rewrite 2 [h2]
    rw [Nat.mul_add]
    omega
  rw [this]
  exact Nat.mul_mod_left _ _

theorem Clear_holds : ∀ (ns : List (Nat × α)) (m : Mem α) (self k fuel : Nat),
    m.Holds self ns → GetSize m self = Except.ok k → ns.length < fuel →
    ∃ m2, Clear fuel m self = Except.ok m2
      ∧ m2.Holds self []
      ∧ (k < SIZE_MOD →
          GetSize m2 self = Except.ok ((k + ns.length * (SIZE_MOD - 1)) % SIZE_MOD))
      ∧ m.FrameOf m2 self ns
      ∧ (∀ x ∈ addrs ns, m2.cells[x]? = some none)
  | [], m, self, k, fuel, hh, hs, hf => by
    obtain ⟨f, rfl⟩ : ∃ f, fuel = f + 1 := ⟨fuel - 1, by simp at hf; omega⟩
    obtain ⟨l, hl, hc⟩ := hh
    simp only [Mem.Chain] at hc
    refine ⟨m, ?_, ⟨l, hl, hc⟩, ?_, FrameOf_refl _ _ _, by simp [addrs]⟩
    · simp [Clear_succ, load_sentinel hl, hc]
    · intro hk
      rw [hs]
      simp [Nat.mod_eq_of_lt hk]
  | n :: rest, m, self, k, fuel, hh, hs, hf => by
    obtain ⟨f, rfl⟩ : ∃ f, fuel = f + 1 := ⟨fuel - 1, by simp at hf; omega⟩
    obtain ⟨m1, h1, hh1, hs1, hfr1, hfreed⟩ := PopFront_holds hh hs
    obtain ⟨m2, h2, hh2, hs2, hfr2, hall⟩ :=
      Clear_holds rest m1 self _ f hh1 hs1 (by simp at hf; omega)
    have hlen := (show ∀ x ∈ n :: rest, x.1 < m.cells.length from
      let ⟨_, _, hc⟩ := hh
      Chain_lt _ _ hc)
    obtain ⟨l, hl, hc⟩ := hh
    obtain ⟨hp, c, hcell, _, _⟩ := Chain_cell hc
    have hnot := Chain_head_notin hc
    have hpos : 0 < SIZE_MOD := by simp [SIZE_MOD]
    refine ⟨m2, ?_, hh2, ?_, ?_, ?_⟩
    · simp [Clear_succ, load_sentinel hl, hp, h1, h2]
    · intro _
      rw [hs2 (Nat.mod_lt _ hpos), decs_mod]
      simp
    · refine FrameOf_trans hfr1 hfr2 ?_
      intro x hx
      left
      simp only [addrs, List.map_cons, List.mem_cons]
      right
      exact hx
    · intro x hx
      simp only [addrs, List.map_cons, List.mem_cons] at hx
      rcases hx with rfl | hx
      · have hn1 : n.1 ∉ addrs rest := by
          intro hmem
          obtain ⟨y, hy, hy1⟩ := List.mem_map.1 hmem
          exact hnot y hy hy1
        rw [hfr2.2.2.1 n.1 (by have := hfr1.1; have := hlen n (List.mem_cons_self _ _); omega) hn1]
        exact hfreed
      · exact hall x hx

theorem EraseAfter_sentinel_eq {m : Mem α} {self a : Nat} {l : SingleLinkedList α} {c : Node α}
    (hl : m.objs[self]? = some l) (hp : l.head_.next_node = Ptr.cell a)
    (hc : m.cells[a]? = some (some c)) :
    EraseAfter m self (before_begin self) = Except.ok (BasicIterator.mk c.next_node,
      Mem.mk (m.cells.set a none)
      (m.objs.set self (SingleLinkedList.mk (Node.mk l.head_.value c.next_node)
        ((l.size_ + SIZE_MOD - 1) % SIZE_MOD)))) := by
  have hlt := lt_of_getElem?_eq_some hl
  simp [EraseAfter, before_begin, load_sentinel hl, hp, load_cell hc, Mem.storeNext, hl,
    Mem.delete, hc, Mem.decSize, Mem.loadSize, Mem.storeSize, List.getElem?_set, hlt, Mem.load]

theorem EraseAfter_cell_eq {m : Mem α} {self a b : Nat} {l : SingleLinkedList α} {c cb : Node α}
    (hl : m.objs[self]? = some l) (hc : m.cells[a]? = some (some c))
    (hn : c.next_node = Ptr.cell b) (hb : m.cells[b]? = some (some cb)) (hab : a ≠ b) :
    EraseAfter m self ⟨Ptr.cell a⟩ = Except.ok (BasicIterator.mk cb.next_node,
      Mem.mk ((m.cells.set a (some (Node.mk c.value cb.next_node))).set b none)
      (m.objs.set self (SingleLinkedList.mk l.head_ ((l.size_ + SIZE_MOD - 1) % SIZE_MOD)))) := by
  have hlt := lt_of_getElem?_eq_some hl
  have hlta := lt_of_getElem?_eq_some hc
  have hltb := lt_of_getElem?_eq_some hb
  simp [EraseAfter, Mem.load, hc, hn, hb, Mem.storeNext, Mem.delete, List.getElem?_set, hab,
    Ne.symm hab, hlta, hltb, hlt, Mem.decSize, Mem.loadSize, Mem.storeSize, hl]

theorem Chain_ptr {m : Mem α} {p : Ptr} : ∀ {ns : List (Nat × α)}, m.Chain p ns →
    p = (match ns[0]? with | some n => Ptr.cell n.1 | none => Ptr.null)
  | [], h => by simpa [Mem.Chain] using h
  | n :: rest, h => by simpa using h.1

theorem Chain_erase {m : Mem α} (os : List (SingleLinkedList α)) :
    ∀ (ns : List (Nat × α)) (p : Ptr) (i : Nat) (n n2 : Nat × α) (c cb : Node α),
    m.Chain p ns → ns[i]? = some n → ns[i + 1]? = some n2 →
    m.cells[n.1]? = some (some c) → m.cells[n2.1]? = some (some cb) →
    (Mem.mk ((m.cells.set n.1 (some (Node.mk c.value cb.next_node))).set n2.1 none) os).Chain p
      (ns.take (i + 1) ++ ns.drop (i + 2))
  | [], _, i, n, n2, c, cb, _, hi, _, _, _ => by simp at hi
  | [x], _, 0, n, n2, c, cb, _, _, hi2, _, _ => by simp at hi2
  | x :: y :: r, p, 0, n, n2, c, cb, h, hi, hi2, hc, hcb => by
    simp at hi hi2
    subst hi
    subst hi2
    have hnotx := Chain_head_notin h
    obtain ⟨hp, q, hx, hr⟩ := h
    have hnoty := Chain_head_notin hr
    obtain ⟨hq, q2, hy, hr2⟩ := hr
    have hxy : x.1 ≠ y.1 := Ne.symm (hnotx y (List.mem_cons_self _ _))
    have hxlt := lt_of_getElem?_eq_some hx
    rw [hx] at hc
    rw [hy] at hcb
    simp only [Option.some.injEq] at hc hcb
    subst hc
    subst hcb
    simp only [List.take_succ_cons, List.take_zero, List.drop_succ_cons, List.drop_zero,
      List.cons_append, List.nil_append]
    refine ⟨hp, q2, ?_, ?_⟩
    · show ((m.cells.set x.1 _).set y.1 none)[x.1]? = _
      rw [List.getElem?_set_ne (Ne.symm hxy)]
      simp [List.getElem?_set, hxlt]
    · refine Chain_frame r q2 hr2 ?_
      intro z hz
      show ((m.cells.set x.1 _).set y.1 none)[z.1]? = _
      rw [List.getElem?_set_ne (Ne.symm (hnoty z hz)),
        List.getElem?_set_ne (Ne.symm (hnotx z (List.mem_cons_of_mem _ hz)))]
  | x :: rest, p, i + 1, n, n2, c, cb, h, hi, hi2, hc, hcb => by
    have hnot := Chain_head_notin h
    obtain ⟨hp, q, hx, hr⟩ := h
    simp at hi hi2
    have hne := hnot n (List.getElem?_mem hi)
    have hne2 := hnot n2 (List.getElem?_mem hi2)
    have ih := Chain_erase os rest q i n n2 c cb hr hi hi2 hc hcb
    simp only [List.take_succ_cons, List.drop_succ_cons, List.cons_append]
    refine ⟨hp, q, ?_, ih⟩
    show ((m.cells.set n.1 _).set n2.1 none)[x.1]? = _
    rw [List.getElem?_set_ne hne2, List.getElem?_set_ne hne]
    exact hx

theorem EraseAfter_front {m : Mem α} {self k : Nat} {n : Nat × α} {rest : List (Nat × α)}
    (hh : m.Holds self (n :: rest)) (hs : GetSize m self = Except.ok k) :
    ∃ m2, EraseAfter m self (before_begin self)
        = Except.ok (⟨match rest[0]? with | some n => Ptr.cell n.1 | none => Ptr.null⟩, m2)
      ∧ PopFront m self = Except.ok m2
      ∧ m2.Holds self rest
      ∧ GetSize m2 self = Except.ok ((k + SIZE_MOD - 1) % SIZE_MOD)
      ∧ m.FrameOf m2 self (n :: rest)
      ∧ m2.cells[n.1]? = some none := by
  obtain ⟨m2, h1, hh2, hs2, hfr, hfreed⟩ := PopFront_holds hh hs
  obtain ⟨l, hl, hc⟩ := hh
  obtain ⟨hp, c, hcell, _, hr⟩ := Chain_cell hc
  refine ⟨m2, ?_, h1, hh2, hs2, hfr, hfreed⟩
  rw [EraseAfter_sentinel_eq hl hp hcell, ← Chain_ptr hr]
  rw [PopFront_eq hl hp hcell] at h1
  injection h1 with h1
  rw [h1]

theorem EraseAfter_at {m : Mem α} {self k i : Nat} {ns : List (Nat × α)} {n n2 : Nat × α}
    (hh : m.Holds self ns) (hs : GetSize m self = Except.ok k)
    (hi : ns[i]? = some n) (hi2 : ns[i + 1]? = some n2) :
    ∃ m2, EraseAfter m self ⟨Ptr.cell n.1⟩
        = Except.ok (⟨match ns[i + 2]? with | some n => Ptr.cell n.1 | none => Ptr.null⟩, m2)
      ∧ m2.Holds self (ns.take (i + 1) ++ ns.drop (i + 2))
      ∧ GetSize m2 self = Except.ok ((k + SIZE_MOD - 1) % SIZE_MOD)
      ∧ m.FrameOf m2 self ns
      ∧ m2.cells[n2.1]? = some none := by
  obtain ⟨l, hl, hc⟩ := hh
  have hk := size_of_getSize hl hs
  have hlt := lt_of_getElem?_eq_some hl
  have hd1 := Chain_drop ns _ i n hc hi
  have hd2 := Chain_drop ns _ (i + 1) n2 hc hi2
  have hdrop1 : ns.drop i = n :: ns.drop (i + 1) := by
    rw [List.drop_eq_getElem_cons (lt_of_getElem?_eq_some hi)]
    congr 1
    have := List.getElem?_eq_getElem (lt_of_getElem?_eq_some hi)
    rw [hi] at this
    exact (Option.some.inj this).symm
  have hdrop2 : ns.drop (i + 1) = n2 :: ns.drop (i + 2) := by
    rw [List.drop_eq_getElem_cons (lt_of_getElem?_eq_some hi2)]
    congr 1
    have := List.getElem?_eq_getElem (lt_of_getElem?_eq_some hi2)
    rw [hi2] at this
    exact (Option.some.inj this).symm
  rw [hdrop1] at hd1
  rw [hdrop2] at hd2 hd1
  have hnot := Chain_head_notin hd1
  obtain ⟨_, c, hcell, _, hr⟩ := Chain_cell hd1
  obtain ⟨hcn, cb, hcb, _, hr2⟩ := Chain_cell hd2
  have hab : n.1 ≠ n2.1 := Ne.symm (hnot n2 (List.mem_cons_self _ _))
  have hn2lt := lt_of_getElem?_eq_some hcb
  have hret : cb.next_node = (match ns[i + 2]? with | some n => Ptr.cell n.1 | none => Ptr.null) := by
    rw [Chain_ptr hr2]
    simp
  refine ⟨Mem.mk ((m.cells.set n.1 (some (Node.mk c.value cb.next_node))).set n2.1 none)
      (m.objs.set self (SingleLinkedList.mk l.head_ ((l.size_ + SIZE_MOD - 1) % SIZE_MOD))),
    ?_, ⟨SingleLinkedList.mk l.head_ ((l.size_ + SIZE_MOD - 1) % SIZE_MOD), ?_, ?_⟩, ?_,
    ⟨?_, ?_, ?_, ?_⟩, ?_⟩
  · rw [EraseAfter_cell_eq hl hcell (Chain_cell hr).1 hcb hab, hret]
  · show (m.objs.set self _)[self]? = some _
    simp [List.getElem?_set, hlt]
  · exact Chain_erase _ ns _ i n n2 c cb hc hi hi2 hcell hcb
  · simp [GetSize, Mem.loadSize, List.getElem?_set, hlt, hk]
  · simp
  · simp
  · intro a _ hnotin
    have h1 : n.1 ≠ a := by
      intro h
      apply hnotin
      rw [← h]
      exact List.mem_map_of_mem Prod.fst (List.getElem?_mem hi)
    have h2 : n2.1 ≠ a := by
      intro h
      apply hnotin
      rw [← h]
      exact List.mem_map_of_mem Prod.fst (List.getElem?_mem hi2)
    show ((m.cells.set n.1 _).set n2.1 none)[a]? = _
    rw [List.getElem?_set_ne h2, List.getElem?_set_ne h1]
  · intro j _ hj
    show (m.objs.set self _)[j]? = _
    rw [List.getElem?_set_ne (Ne.symm hj)]
  · show ((m.cells.set n.1 _).set n2.1 none)[n2.1]? = _
    simp [List.getElem?_set, hn2lt]

theorem Chain_snoc {m : Mem α} (x : α) (os : List (SingleLinkedList α)) (b : Nat) (y : α) :
    ∀ (dn : List (Nat × α)) (p : Ptr), m.Chain p dn → dn.getLast? = some (b, y) →
    (Mem.mk (m.cells.set b (some (Node.mk y (Ptr.cell m.cells.length)))
        ++ [some (Node.mk x Ptr.null)]) os).Chain p (dn ++ [(m.cells.length, x)])
  | [], _, _, hl => by simp at hl
  | [n], p, h, hl => by
    simp at hl
    subst hl
    obtain ⟨hp, q, hc, hr⟩ := h
    have hlt := lt_of_getElem?_eq_some hc
    refine ⟨hp, Ptr.cell m.cells.length, ?_, rfl, Ptr.null, ?_, rfl⟩
    · show (m.cells.set b _ ++ _)[b]? = _
      rw [List.getElem?_append_left (by simpa using hlt)]
      simp [List.getElem?_set, hlt]
    · show (m.cells.set b _ ++ _)[m.cells.length]? = _
      rw [List.getElem?_append_right (by simp)]
      simp
  | n :: n2 :: r, p, h, hl => by
    have hnot := Chain_head_notin h
    obtain ⟨hp, q, hc, hr⟩ := h
    have hlt := lt_of_getElem?_eq_some hc
    have hl2 : (n2 :: r).getLast? = some (b, y) := by
      rw [← hl]
      simp [List.getLast?_cons_cons]
    have hmem : (b, y) ∈ n2 :: r := List.mem_of_getLast?_eq_some hl2
    have hne : b ≠ n.1 := hnot (b, y) hmem
    have ih := Chain_snoc x os b y (n2 :: r) q hr hl2
    refine ⟨hp, q, ?_, ih⟩
    show (m.cells.set b _ ++ _)[n.1]? = _
    rw [List.getElem?_append_left (by simpa using hlt), List.getElem?_set_ne hne]
    exact hc

theorem lastPtr_snoc (dn : List (Nat × α)) (n : Nat × α) : lastPtr (dn ++ [n]) = Ptr.cell n.1 := by
  simp [lastPtr]

theorem copyStep_holds {m : Mem α} {tmp s : Nat} {dn : List (Nat × α)} (a : α)
    (hh : m.Holds tmp dn) (hs : GetSize m tmp = Except.ok s) :
    ∃ m3, ((if lastPtr dn ≠ Ptr.null
            then (m.new a Ptr.null).2.storeNext (lastPtr dn) (m.new a Ptr.null).1
            else (m.new a Ptr.null).2.storeNext (Ptr.sentinel tmp) (m.new a Ptr.null).1)
          >>= fun m2 => m2.incSize tmp) = Except.ok m3
      ∧ m3.Holds tmp (dn ++ [(m.cells.length, a)])
      ∧ GetSize m3 tmp = Except.ok ((s + 1) % SIZE_MOD)
      ∧ m.FrameOf m3 tmp dn
      ∧ m3.cells.length = m.cells.length + 1
      ∧ m3.objs.length = m.objs.length := by
  obtain ⟨l, hl, hc⟩ := hh
  have hk := size_of_getSize hl hs
  have hlt := lt_of_getElem?_eq_some hl
  cases hlast : dn.getLast? with
  | none =>
    have hnil : dn = [] := List.getLast?_eq_none_iff.1 hlast
    subst hnil
    simp only [Mem.Chain] at hc
    refine ⟨Mem.mk (m.cells ++ [some (Node.mk a Ptr.null)])
      (m.objs.set tmp (SingleLinkedList.mk (Node.mk l.head_.value (Ptr.cell m.cells.length))
        ((l.size_ + 1) % SIZE_MOD))), ?_,
      ⟨SingleLinkedList.mk (Node.mk l.head_.value (Ptr.cell m.cells.length))
        ((l.size_ + 1) % SIZE_MOD), ?_, ?_⟩, ?_, ⟨?_, ?_, ?_, ?_⟩, ?_, ?_⟩
    · simp [lastPtr, Mem.new, Mem.storeNext, hl, Mem.incSize, Mem.loadSize, Mem.storeSize,
        List.getElem?_set, hlt]
    · show (m.objs.set tmp _)[tmp]? = some _
      simp [List.getElem?_set, hlt]
    · exact ⟨rfl, Ptr.null, by simp, rfl⟩
    · simp [GetSize, Mem.loadSize, List.getElem?_set, hlt, hk]
    · simp
    · simp
    · intro x hx _
      show (m.cells ++ _)[x]? = _
      rw [List.getElem?_append_left hx]
    · intro j _ hj
      show (m.objs.set tmp _)[j]? = _
      rw [List.getElem?_set_ne (Ne.symm hj)]
    · simp
    · simp
  | some n =>
    have hmem : n ∈ dn := List.mem_of_getLast?_eq_some hlast
    obtain ⟨pre, post, hsplit, hsuf⟩ := Chain_suffix dn _ n hc hmem
    obtain ⟨_, q, hcell, _⟩ := hsuf
    have hblt := lt_of_getElem?_eq_some hcell
    have hlast2 : dn.getLast? = some (n.1, n.2) := hlast
    refine ⟨Mem.mk (m.cells.set n.1 (some (Node.mk n.2 (Ptr.cell m.cells.length)))
        ++ [some (Node.mk a Ptr.null)])
      (m.objs.set tmp (SingleLinkedList.mk l.head_ ((l.size_ + 1) % SIZE_MOD))), ?_,
      ⟨SingleLinkedList.mk l.head_ ((l.size_ + 1) % SIZE_MOD), ?_, ?_⟩, ?_, ⟨?_, ?_, ?_, ?_⟩, ?_, ?_⟩
    · simp [lastPtr, hlast, Mem.new, Mem.storeNext, hl, Mem.incSize, Mem.loadSize, Mem.storeSize,
        List.getElem?_set, hlt, List.getElem?_append_left hblt, hcell, hblt]
    · show (m.objs.set tmp _)[tmp]? = some _
      simp [List.getElem?_set, hlt]
    · exact Chain_snoc a _ n.1 n.2 dn _ hc hlast2
    · simp [GetSize, Mem.loadSize, List.getElem?_set, hlt, hk]
    · simp
    · simp
    · intro x hx hnot
      have hne : n.1 ≠ x := by
        intro h
        apply hnot
        rw [← h]
        exact List.mem_map_of_mem Prod.fst hmem
      show (m.cells.set n.1 _ ++ _)[x]? = _
      rw [List.getElem?_append_left (by simpa using hx), List.getElem?_set_ne hne]
    · intro j _ hj
      show (m.objs.set tmp _)[j]? = _
      rw [List.getElem?_set_ne (Ne.symm hj)]
    · simp
    · simp

theorem addrs_mem {ns : List (Nat × α)} {y : Nat × α} (h : y ∈ ns) : y.1 ∈ addrs ns :=
  List.mem_map_of_mem Prod.fst h

theorem addrs_mem_cons {ns : List (Nat × α)} {t y : Nat × α} (h : y ∈ ns) :
    y.1 ∈ addrs (t :: ns) :=
  addrs_mem (List.mem_cons_of_mem t h)

theorem copyLoop_succ_cell (fuel : Nat) (m : Mem α) (tmp t : Nat) (tp : Ptr) (c : Node α)
    (hc : m.cells[t]? = some (some c)) :
    copyLoop (fuel + 1) m tmp ⟨Ptr.cell t⟩ tp =
      (((if tp ≠ Ptr.null
            then (m.new c.value Ptr.null).2.storeNext tp (m.new c.value Ptr.null).1
            else (m.new c.value Ptr.null).2.storeNext (Ptr.sentinel tmp) (m.new c.value Ptr.null).1)
          >>= fun m2 => m2.incSize tmp)
        >>= fun m3 => BasicIterator.inc m3 ⟨Ptr.cell t⟩
        >>= fun it1 => copyLoop fuel m3 tmp it1 (Ptr.cell m.cells.length)) := by
  simp only [copyLoop, BasicIterator.ne, end_, deref_cell hc, ok_bind, Mem.new, bind_assoc]
  simp

theorem copyLoop_holds : ∀ (todo : List (Nat × α)) (m : Mem α) (tmp s fuel : Nat) (p : Ptr)
    (dn : List (Nat × α)),
    m.Chain p todo → m.Holds tmp dn → GetSize m tmp = Except.ok s → s < SIZE_MOD →
    todo.length < fuel → (∀ x ∈ addrs todo, x ∉ addrs dn) →
    ∃ m2 nw, copyLoop fuel m tmp ⟨p⟩ (lastPtr dn) = Except.ok m2
      ∧ m2.Holds tmp (dn ++ nw)
      ∧ values nw = values todo
      ∧ (∀ x ∈ addrs nw, m.cells.length ≤ x)
      ∧ GetSize m2 tmp = Except.ok ((s + todo.length) % SIZE_MOD)
      ∧ m.FrameOf m2 tmp dn
      ∧ m2.objs.length = m.objs.length
  | [], m, tmp, s, fuel, p, dn, hc, hh, hs, hsl, hf, _ => by
    obtain ⟨f, rfl⟩ : ∃ f, fuel = f + 1 := ⟨fuel - 1, by simp at hf; omega⟩
    simp only [Mem.Chain] at hc
    subst hc
    refine ⟨m, [], ?_, by simpa using hh, rfl, by simp [addrs], ?_, FrameOf_refl _ _ _, rfl⟩
    · simp [copyLoop, BasicIterator.ne, end_]
    · simpa [Nat.mod_eq_of_lt hsl] using hs
  | t :: rest, m, tmp, s, fuel, p, dn, hc, hh, hs, hsl, hf, hdis => by
    obtain ⟨f, rfl⟩ : ∃ f, fuel = f + 1 := ⟨fuel - 1, by simp at hf; omega⟩
    have hlen := Chain_lt _ _ hc
    obtain ⟨hp, q, hcell, hr⟩ := hc
    subst hp
    have hpos : 0 < SIZE_MOD := by simp [SIZE_MOD]
    obtain ⟨m3, hstep, hh3, hs3, hfr3, hcl3, hol3⟩ := copyStep_holds t.2 hh hs
    have hkeep : ∀ x ∈ addrs (t :: rest), m3.cells[x]? = m.cells[x]? := by
      intro x hx
      obtain ⟨y, hy, rfl⟩ := List.mem_map.1 hx
      exact hfr3.2.2.1 y.1 (hlen y hy) (hdis y.1 hx)
    have hcell3 : m3.cells[t.1]? = some (some (Node.mk t.2 q)) := by
      rw [hkeep t.1 (by simp [addrs])]
      exact hcell
    have hr3 : m3.Chain q rest := by
      refine Chain_frame rest q hr ?_
      intro y hy
      exact hkeep y.1 (addrs_mem_cons hy)
    have hdis3 : ∀ x ∈ addrs rest, x ∉ addrs (dn ++ [(m.cells.length, t.2)]) := by
      intro x hx hmem
      obtain ⟨y, hy, rfl⟩ := List.mem_map.1 hx
      simp only [addrs, List.map_append, List.map_cons, List.map_nil, List.mem_append,
        List.mem_singleton] at hmem
      rcases hmem with h | h
      · exact hdis y.1 (addrs_mem_cons hy) h
      · have := hlen y (List.mem_cons_of_mem _ hy)
        omega
    obtain ⟨m2, nw, hrun, hh2, hv2, hnew2, hs2, hfr2, hol2⟩ :=
      copyLoop_holds rest m3 tmp ((s + 1) % SIZE_MOD) f q (dn ++ [(m.cells.length, t.2)])
        hr3 hh3 hs3 (Nat.mod_lt _ hpos) (by simp at hf; omega) hdis3
    refine ⟨m2, (m.cells.length, t.2) :: nw, ?_, by simpa using hh2, ?_, ?_, ?_, ?_, by omega⟩
    · rw [copyLoop_succ_cell f m tmp t.1 _ (Node.mk t.2 q) hcell]
      rw [hstep]
      simp only [ok_bind, inc_cell hcell3]
      rw [← lastPtr_snoc dn (m.cells.length, t.2)]
      exact hrun
    · simp [values] at hv2 ⊢
      exact hv2
    · intro x hx
      simp only [addrs, List.map_cons, List.mem_cons] at hx
      rcases hx with rfl | hx
      · exact le_refl _
      · have := hnew2 x hx
        omega
    · rw [hs2]
      congr 1
      simp only [List.length_cons]
      rw [Nat.mod_add_mod]
      congr 1
      omega
    · refine FrameOf_trans hfr3 hfr2 ?_
      intro x hx
      simp only [addrs, List.map_append, List.map_cons, List.map_nil, List.mem_append,
        List.mem_singleton] at hx
      rcases hx with h | h
      · left
        exact h
      · right
        omega

theorem swap_objs {m : Mem α} {a b : Nat} {la lb : SingleLinkedList α}
    (hla : m.objs[a]? = some la) (hlb : m.objs[b]? = some lb) (hab : a ≠ b) :
    ∃ m2, swap m a b = Except.ok m2
      ∧ m2.cells = m.cells
      ∧ m2.objs[a]? = some (SingleLinkedList.mk (Node.mk la.head_.value lb.head_.next_node) lb.size_)
      ∧ m2.objs[b]? = some (SingleLinkedList.mk (Node.mk lb.head_.value la.head_.next_node) la.size_)
      ∧ m2.objs.length = m.objs.length
      ∧ (∀ j, j ≠ a → j ≠ b → m2.objs[j]? = m.objs[j]?) := by
  have hlta := lt_of_getElem?_eq_some hla
  have hltb := lt_of_getElem?_eq_some hlb
  have hla2 : m.objs[a] = la := by
    have := List.getElem?_eq_getElem hlta
    rw [hla] at this
    exact (Option.some.inj this).symm
  have hlb2 : m.objs[b] = lb := by
    have := List.getElem?_eq_getElem hltb
    rw [hlb] at this
    exact (Option.some.inj this).symm
  refine ⟨Mem.mk m.cells ((((m.objs.set a (SingleLinkedList.mk
        (Node.mk la.head_.value lb.head_.next_node) la.size_)).set b (SingleLinkedList.mk
        (Node.mk lb.head_.value la.head_.next_node) lb.size_)).set a (SingleLinkedList.mk
        (Node.mk la.head_.value lb.head_.next_node) lb.size_)).set b (SingleLinkedList.mk
        (Node.mk lb.head_.value la.head_.next_node) la.size_)), ?_, rfl, ?_, ?_, ?_, ?_⟩
  · simp [swap, swapNext, swapSize, Mem.load, Mem.storeNext, Mem.loadSize, Mem.storeSize, hla, hlb,
      List.getElem?_set, hab, Ne.symm hab, hlta, hltb, hla2, hlb2]
  · simp [List.getElem?_set, hab, Ne.symm hab, hlta, hltb]
  · simp [List.getElem?_set, hab, Ne.symm hab, hlta, hltb]
  · simp
  · intro j ha hb
    simp [List.getElem?_set, Ne.symm ha, Ne.symm hb]

theorem Clear_nil {m : Mem α} {self : Nat} (hh : m.Holds self []) (fuel : Nat) :
    Clear (fuel + 1) m self = Except.ok m := by
  obtain ⟨l, hl, hc⟩ := hh
  simp only [Mem.Chain] at hc
  simp [Clear_succ, load_sentinel hl, hc]

theorem ofCopy_holds [Inhabited α] {m : Mem α} {other fuel : Nat} {ns : List (Nat × α)}
    (hh : m.Holds other ns) (hf : ns.length < fuel) :
    ∃ m2 nw, SingleLinkedList.ofCopy fuel m other = Except.ok (m.objs.length, m2)
      ∧ m2.Holds m.objs.length nw ∧ values nw = values ns
      ∧ (∀ x ∈ addrs nw, m.cells.length ≤ x)
      ∧ GetSize m2 m.objs.length = Except.ok (ns.length % SIZE_MOD)
      ∧ m.cells.length ≤ m2.cells.length
      ∧ (∀ a, a < m.cells.length → m2.cells[a]? = m.cells[a]?)
      ∧ m2.objs.length = m.objs.length + 2
      ∧ (∀ j, j < m.objs.length → m2.objs[j]? = m.objs[j]?)
      ∧ m2.Holds (m.objs.length + 1) [] := by
  obtain ⟨f, rfl⟩ : ∃ f, fuel = f + 1 := ⟨fuel - 1, by omega⟩
  obtain ⟨l, hl, hc⟩ := hh
  have hlt := lt_of_getElem?_eq_some hl
  have hm0 : (Mem.mk m.cells (m.objs ++ [(SingleLinkedList.mk (Node.mk (default : α) Ptr.null) 0)])).load (Ptr.sentinel m.objs.length)
      = Except.ok (Node.mk (default : α) Ptr.null) :=
    @load_sentinel α (Mem.mk m.cells (m.objs ++ [(SingleLinkedList.mk (Node.mk (default : α) Ptr.null) 0)])) _ (SingleLinkedList.mk (Node.mk (default : α) Ptr.null) 0) (by simp)
  have hb : begin (Mem.mk m.cells (m.objs ++ [(SingleLinkedList.mk (Node.mk (default : α) Ptr.null) 0), (SingleLinkedList.mk (Node.mk (default : α) Ptr.null) 0)])) other = Except.ok ⟨l.head_.next_node⟩ := by
    refine @begin_holds α (Mem.mk m.cells (m.objs ++ [(SingleLinkedList.mk (Node.mk (default : α) Ptr.null) 0), (SingleLinkedList.mk (Node.mk (default : α) Ptr.null) 0)])) _ l ?_
    show (m.objs ++ _)[other]? = some l
    rw [List.getElem?_append_left hlt]
    exact hl
  have hc1 : (Mem.mk m.cells (m.objs ++ [(SingleLinkedList.mk (Node.mk (default : α) Ptr.null) 0), (SingleLinkedList.mk (Node.mk (default : α) Ptr.null) 0)])).Chain l.head_.next_node ns := Chain_frame ns _ hc (fun _ _ => rfl)
  have hobj1 : (Mem.mk m.cells (m.objs ++ [(SingleLinkedList.mk (Node.mk (default : α) Ptr.null) 0), (SingleLinkedList.mk (Node.mk (default : α) Ptr.null) 0)])).objs[m.objs.length + 1]? = some (SingleLinkedList.mk (Node.mk (default : α) Ptr.null) 0) := by
    show (m.objs ++ _)[m.objs.length + 1]? = _
    rw [List.getElem?_append_right (by omega)]
    simp
  have htmp : (Mem.mk m.cells (m.objs ++ [(SingleLinkedList.mk (Node.mk (default : α) Ptr.null) 0), (SingleLinkedList.mk (Node.mk (default : α) Ptr.null) 0)])).Holds (m.objs.length + 1) [] := ⟨_, hobj1, rfl⟩
  have hs1 : GetSize (Mem.mk m.cells (m.objs ++ [(SingleLinkedList.mk (Node.mk (default : α) Ptr.null) 0), (SingleLinkedList.mk (Node.mk (default : α) Ptr.null) 0)])) (m.objs.length + 1) = Except.ok 0 := getSize_of_obj hobj1
  obtain ⟨m2, nw, hrun, hh2, hv2, hnew2, hs2, hfr2, hol2⟩ :=
    copyLoop_holds ns (Mem.mk m.cells (m.objs ++ [(SingleLinkedList.mk (Node.mk (default : α) Ptr.null) 0), (SingleLinkedList.mk (Node.mk (default : α) Ptr.null) 0)])) (m.objs.length + 1) 0 (f + 1) _ [] hc1 htmp hs1
      (by simp [SIZE_MOD]) hf (by simp [addrs])
  have hrun2 : copyLoop (f + 1) (Mem.mk m.cells (m.objs ++ [(SingleLinkedList.mk (Node.mk (default : α) Ptr.null) 0), (SingleLinkedList.mk (Node.mk (default : α) Ptr.null) 0)])) (m.objs.length + 1) ⟨l.head_.next_node⟩ Ptr.null
      = Except.ok m2 := hrun
  have hself2 : m2.objs[m.objs.length]? = some (SingleLinkedList.mk (Node.mk (default : α) Ptr.null) 0) := by
    rw [hfr2.2.2.2 m.objs.length (by simp) (by omega)]
    show (m.objs ++ _)[m.objs.length]? = _
    rw [List.getElem?_append_right (by omega)]
    simp
  obtain ⟨lt, hlt2, hct⟩ := hh2
  have hst := size_of_getSize hlt2 hs2
  obtain ⟨m3, hswap, hcells3, ha3, hb3, hol3, hoth3⟩ :=
    swap_objs hself2 hlt2 (show m.objs.length ≠ m.objs.length + 1 by omega)
  have htmp3 : m3.Holds (m.objs.length + 1) [] := ⟨_, hb3, rfl⟩
  have hclear := Clear_nil htmp3 f
  refine ⟨m3, nw, ?_, ⟨_, ha3, ?_⟩, hv2, hnew2, ?_, ?_, ?_, ?_, ?_, htmp3⟩
  · simp only [SingleLinkedList.ofCopy, Mem.newObj, SingleLinkedList.ctor, Mem.loadSize]
    simp
    rw [hm0]
    simp only [ok_bind, if_true, hb, hrun2, hswap, destroy, hclear]
  · refine Chain_frame nw _ hct ?_
    intro n _
    rw [hcells3]
  · rw [getSize_of_obj ha3, hst]
    simp
  · rw [hcells3]
    exact hfr2.1
  · intro a ha
    rw [hcells3]
    exact hfr2.2.2.1 a ha (by simp [addrs])
  · rw [hol3, hol2]
    simp
  · intro j hj
    rw [hoth3 j (by omega) (by omega), hfr2.2.2.2 j (by simp; omega) (by omega)]
    show (m.objs ++ _)[j]? = _
    rw [List.getElem?_append_left hj]

theorem Holds_getSize {m : Mem α} {self : Nat} {ns : List (Nat × α)} (hh : m.Holds self ns) :
    ∃ k, GetSize m self = Except.ok k := by
  obtain ⟨l, hl, _⟩ := hh
  exact ⟨_, getSize_of_obj hl⟩

theorem Holds_lt {m : Mem α} {self : Nat} {ns : List (Nat × α)} (hh : m.Holds self ns) :
    self < m.objs.length ∧ ∀ x ∈ addrs ns, x < m.cells.length := by
  obtain ⟨l, hl, hc⟩ := hh
  refine ⟨lt_of_getElem?_eq_some hl, ?_⟩
  intro x hx
  obtain ⟨y, hy, rfl⟩ := List.mem_map.1 hx
  exact Chain_lt _ _ hc y hy

theorem Holds_frame {m m2 : Mem α} {c l : Nat} {nsC nsL : List (Nat × α)}
    (hfr : m.FrameOf m2 c nsC) (hh : m.Holds l nsL) (hne : l ≠ c)
    (hdis : ∀ x ∈ addrs nsL, x ∉ addrs nsC) :
    m2.Holds l nsL ∧ GetSize m2 l = GetSize m l := by
  obtain ⟨hl1, hl2⟩ := Holds_lt hh
  obtain ⟨o, ho, hc⟩ := hh
  have ho2 : m2.objs[l]? = some o := by
    rw [hfr.2.2.2 l hl1 hne]
    exact ho
  refine ⟨⟨o, ho2, Chain_frame nsL _ hc ?_⟩, ?_⟩
  · intro n hn
    exact hfr.2.2.1 n.1 (hl2 _ (addrs_mem hn)) (hdis _ (addrs_mem hn))
  · rw [getSize_of_obj ho2, getSize_of_obj ho]

theorem Op_step {m : Mem α} {self fuel : Nat} {ns : List (Nat × α)} (op : Op α)
    (hh : m.Holds self ns) (hpre : op.pre ns.length = true) (hf : ns.length < fuel) :
    ∃ m2 ns2, op.run fuel m self = Except.ok m2 ∧ m2.Holds self ns2
      ∧ ns2.length = op.lenAfter ns.length
      ∧ m.FrameOf m2 self ns
      ∧ (∀ x ∈ addrs ns2, x ∈ addrs ns ∨ m.cells.length ≤ x) := by
  obtain ⟨k, hs⟩ := Holds_getSize hh
  cases op with
  | pushFront v =>
    obtain ⟨m2, _, h1, _, hh2, _, hfr, _, _⟩ := InsertAfter_front v hh hs
    refine ⟨m2, _, h1, hh2, by simp [Op.lenAfter], hfr, ?_⟩
    intro x hx
    simp only [addrs, List.map_cons, List.mem_cons] at hx
    rcases hx with rfl | hx
    · right
      exact le_refl _
    · left
      exact hx
  | popFront =>
    cases ns with
    | nil => simp [Op.pre] at hpre
    | cons n rest =>
      obtain ⟨m2, h1, hh2, _, hfr, _⟩ := PopFront_holds hh hs
      refine ⟨m2, rest, h1, hh2, by simp [Op.lenAfter], hfr, ?_⟩
      intro x hx
      left
      simp only [addrs, List.map_cons, List.mem_cons]
      right
      exact hx
  | insertAfter pos v =>
    cases pos with
    | none =>
      obtain ⟨m2, h1, _, _, hh2, _, hfr, _, _⟩ := InsertAfter_front v hh hs
      refine ⟨m2, _, by simp [Op.run, position, h1], hh2, by simp [Op.lenAfter], hfr, ?_⟩
      intro x hx
      simp only [addrs, List.map_cons, List.mem_cons] at hx
      rcases hx with rfl | hx
      · right
        exact le_refl _
      · left
        exact hx
    | some i =>
      have hi : i < ns.length := by simpa [Op.pre] using hpre
      have hget : ns[i]? = some ns[i] := List.getElem?_eq_getElem hi
      obtain ⟨m2, h1, hh2, _, hfr, _, _⟩ := InsertAfter_at v hh hs hget
      refine ⟨m2, _, by simp [Op.run, position, nth_iterator_holds hh hget, h1], hh2, ?_, hfr, ?_⟩
      · simp [Op.lenAfter]
        omega
      · intro x hx
        simp only [addrs, List.map_append, List.map_cons, List.mem_append, List.mem_cons,
          List.map_take, List.map_drop] at hx
        rcases hx with h | rfl | h
        · left
          exact List.mem_of_mem_take h
        · right
          exact le_refl _
        · left
          exact List.mem_of_mem_drop h
  | eraseAfter pos =>
    cases pos with
    | none =>
      cases ns with
      | nil => simp [Op.pre] at hpre
      | cons n rest =>
        obtain ⟨m2, h1, _, hh2, _, hfr, _⟩ := EraseAfter_front hh hs
        refine ⟨m2, rest, by simp [Op.run, position, h1], hh2, by simp [Op.lenAfter], hfr, ?_⟩
        intro x hx
        left
        simp only [addrs, List.map_cons, List.mem_cons]
        right
        exact hx
    | some i =>
      have hi : i + 1 < ns.length := by simpa [Op.pre] using hpre
      have hget : ns[i]? = some ns[i] := List.getElem?_eq_getElem (by omega)
      have hget2 : ns[i + 1]? = some ns[i + 1] := List.getElem?_eq_getElem hi
      obtain ⟨m2, h1, hh2, _, hfr, _⟩ := EraseAfter_at hh hs hget hget2
      refine ⟨m2, _, by simp [Op.run, position, nth_iterator_holds hh hget, h1], hh2, ?_, hfr, ?_⟩
      · simp [Op.lenAfter]
        omega
      · intro x hx
        simp only [addrs, List.map_append, List.mem_append, List.map_take, List.map_drop] at hx
        rcases hx with h | h
        · left
          exact List.mem_of_mem_take h
        · left
          exact List.mem_of_mem_drop h
  | clear =>
    obtain ⟨m2, h1, hh2, _, hfr, _⟩ := Clear_holds ns m self k fuel hh hs hf
    exact ⟨m2, [], h1, hh2, by simp [Op.lenAfter], hfr, by simp [addrs]⟩

theorem runOps_frame : ∀ (ops : List (Op α)) (m : Mem α) (c l fuel : Nat)
    (nsC nsL : List (Nat × α)),
    m.Holds c nsC → m.Holds l nsL → l ≠ c → (∀ x ∈ addrs nsL, x ∉ addrs nsC) →
    opsPre nsC.length ops = true → nsC.length + ops.length < fuel →
    ∃ m2, runOps fuel m c ops = Except.ok m2 ∧ m2.Holds l nsL ∧ GetSize m2 l = GetSize m l
  | [], m, c, l, fuel, nsC, nsL, _, hl, _, _, _, _ => ⟨m, rfl, hl, rfl⟩
  | op :: rest, m, c, l, fuel, nsC, nsL, hc, hl, hne, hdis, hpre, hf => by
    simp only [opsPre, Bool.and_eq_true] at hpre
    obtain ⟨m1, ns1, h1, hc1, hlen1, hfr1, hnew1⟩ :=
      @Op_step α m c fuel nsC op hc hpre.1 (by simp at hf; omega)
    obtain ⟨hl1, hs1⟩ := Holds_frame hfr1 hl hne hdis
    have hdis1 : ∀ x ∈ addrs nsL, x ∉ addrs ns1 := by
      intro x hx hx1
      rcases hnew1 x hx1 with h | h
      · exact hdis x hx h
      · have := (Holds_lt hl).2 x hx
        omega
    have hle : ns1.length ≤ nsC.length + 1 := by
      rw [hlen1]
      cases op <;> simp [Op.lenAfter] <;> omega
    obtain ⟨m2, h2, hl2, hs2⟩ := runOps_frame rest m1 c l fuel ns1 nsL hc1 hl1 hne hdis1
      (by rw [hlen1]; exact hpre.2) (by simp at hf; omega)
    exact ⟨m2, by simp [runOps, h1, h2], hl2, by rw [hs2, hs1]⟩

theorem values_length {ns ns2 : List (Nat × α)} (h : values ns = values ns2) :
    ns.length = ns2.length := by
  have := congrArg List.length h
  simpa [values] using this

theorem Holds_of_same {m m2 : Mem α} {l : Nat} {ns : List (Nat × α)} (hh : m.Holds l ns)
    (hobj : m2.objs[l]? = m.objs[l]?) (hcells : ∀ a, a < m.cells.length → m2.cells[a]? = m.cells[a]?) :
    m2.Holds l ns ∧ GetSize m2 l = GetSize m l := by
  obtain ⟨_, hl2⟩ := Holds_lt hh
  obtain ⟨o, ho, hc⟩ := hh
  have ho2 : m2.objs[l]? = some o := by rw [hobj]; exact ho
  refine ⟨⟨o, ho2, Chain_frame ns _ hc ?_⟩, ?_⟩
  · intro n hn
    exact hcells n.1 (hl2 _ (addrs_mem hn))
  · rw [getSize_of_obj ho2, getSize_of_obj ho]

/-! ## Copy construction and copy assignment -/

/-- C7: copy-constructing `C` from a list `L` (whose size is the number of its
elements) returns; `C` has the size and the element sequence of `L`; every node
of `C` is a node created by the copy (its address was not in use before) and
none is a node of `L`; `L` still has its nodes, element sequence and size.
After any sequence of `PushFront`, `PopFront`, `InsertAfter`, `EraseAfter` and
`Clear` calls on `C`, each within its precondition and at positions of `C`, the
calls return and `L` still has its nodes, element sequence and size. -/
theorem C7_copy_is_deep_and_independent [Inhabited α] (m : Mem α) (l fuel : Nat)
    (nsL : List (Nat × α)) (hh : m.Holds l nsL) (hs : GetSize m l = Except.ok nsL.length)
    (hlen : nsL.length < SIZE_MOD) (hf : nsL.length < fuel) :
    ∃ c m1 nsC, SingleLinkedList.ofCopy fuel m l = Except.ok (c, m1)
      ∧ m1.Holds c nsC
      ∧ GetSize m1 c = Except.ok nsL.length
      ∧ traverse fuel m1 c = Except.ok (values nsL)
      ∧ (∀ x ∈ addrs nsC, m.cells.length ≤ x ∧ x ∉ addrs nsL)
      ∧ m1.Holds l nsL
      ∧ GetSize m1 l = Except.ok nsL.length
      ∧ traverse fuel m1 l = Except.ok (values nsL)
      ∧ (∀ (ops : List (Op α)) (fuel2 : Nat), opsPre nsL.length ops = true →
          nsL.length + ops.length < fuel2 →
          ∃ m2, runOps fuel2 m1 c ops = Except.ok m2
            ∧ m2.Holds l nsL
            ∧ GetSize m2 l = Except.ok nsL.length
            ∧ traverse fuel2 m2 l = Except.ok (values nsL)) := by
  obtain ⟨m1, nsC, h1, hc, hv, hnew, hsc, _, hcells, _, hobjs, _⟩ := ofCopy_holds hh hf
  obtain ⟨hl1, hl2⟩ := Holds_lt hh
  obtain ⟨hL1, hsL1⟩ := Holds_of_same hh (hobjs l hl1) hcells
  have hlenC := values_length hv
  have hdis : ∀ x ∈ addrs nsL, x ∉ addrs nsC := by
    intro x hx hxc
    have := hnew x hxc
    have := hl2 x hx
    omega
  refine ⟨m.objs.length, m1, nsC, h1, hc, ?_, ?_, ?_, hL1, by rw [hsL1, hs], ?_, ?_⟩
  · rw [hsc, Nat.mod_eq_of_lt hlen]
  · rw [traverse_holds hc (by omega), hv]
  · intro x hx
    refine ⟨hnew x hx, ?_⟩
    intro hxl
    exact hdis x hxl hx
  · rw [traverse_holds hL1 hf]
  · intro ops fuel2 hpre hf2
    obtain ⟨m2, h2, hl2, hs2⟩ := runOps_frame ops m1 m.objs.length l fuel2 nsC nsL hc hL1
      (by omega) hdis (by rw [hlenC]; exact hpre) (by omega)
    refine ⟨m2, h2, hl2, by rw [hs2, hsL1, hs], ?_⟩
    rw [traverse_holds hl2 (by omega)]

/-- C7, at a concrete input: a copy of `{1, 2, 3}`, and any calls on the copy. -/
theorem C7_copy_is_deep_and_independent_witness :
    ∃ c m1, SingleLinkedList.ofCopy 4 mem123_124 0 = Except.ok (c, m1)
      ∧ GetSize m1 c = Except.ok 3
      ∧ traverse 4 m1 c = Except.ok [1, 2, 3]
      ∧ (∀ (ops : List (Op Nat)) (fuel2 : Nat), opsPre 3 ops = true → 3 + ops.length < fuel2 →
          ∃ m2, runOps fuel2 m1 c ops = Except.ok m2
            ∧ GetSize m2 0 = Except.ok 3
            ∧ traverse fuel2 m2 0 = Except.ok [1, 2, 3]) :=
  match C7_copy_is_deep_and_independent mem123_124 0 4 [(2, 1), (1, 2), (0, 3)]
      holds_mem123_124_0 rfl (by simp [SIZE_MOD]) (by decide) with
  | ⟨c, m1, _, h1, _, h3, h4, _, _, _, _, h9⟩ =>
    ⟨c, m1, h1, h3, h4, fun ops fuel2 hp hf2 =>
      match h9 ops fuel2 hp hf2 with
      | ⟨m2, a, _, c2, d⟩ => ⟨m2, a, c2, d⟩⟩

/-- C8: the copy assignment `a = b` (with the size of `b` equal to the number
of its elements, and the nodes of `a` and `b` distinct when `a` and `b` are
different lists) returns; afterwards `a` has the size and the element sequence
`b` had before, and `b` still has its size and element sequence.  The two lists
may be the same list. -/
theorem C8_copy_assignment [Inhabited α] (m : Mem α) (a b fuel : Nat)
    (na nb : List (Nat × α)) (ha : m.Holds a na) (hb : m.Holds b nb)
    (hs : GetSize m b = Except.ok nb.length) (hlen : nb.length < SIZE_MOD)
    (hdis : a ≠ b → ∀ x ∈ addrs nb, x ∉ addrs na)
    (hfa : na.length < fuel) (hfb : nb.length < fuel) :
    ∃ m2, operator_assign fuel m a b = Except.ok m2
      ∧ GetSize m2 a = Except.ok nb.length
      ∧ traverse fuel m2 a = Except.ok (values nb)
      ∧ GetSize m2 b = Except.ok nb.length
      ∧ traverse fuel m2 b = Except.ok (values nb) := by
  obtain ⟨m1, nw, h1, hc, hv, hnew, hsc, hcl, hcells, hol, hobjs, _⟩ := ofCopy_holds hb hfb
  obtain ⟨ha1, ha2⟩ := Holds_lt ha
  obtain ⟨hb1, hb2⟩ := Holds_lt hb
  obtain ⟨hA1, _⟩ := Holds_of_same ha (hobjs a ha1) hcells
  obtain ⟨hB1, hsB1⟩ := Holds_of_same hb (hobjs b hb1) hcells
  obtain ⟨la, hla, hca⟩ := hA1
  obtain ⟨lc, hlc, hcc⟩ := hc
  have hsz := size_of_getSize hlc hsc
  have hac : a ≠ m.objs.length := by omega
  obtain ⟨m2, hswap, hcells2, ha2o, hc2o, hol2, hoth2⟩ := swap_objs hla hlc hac
  have hA2 : m2.Holds a nw := ⟨_, ha2o, Chain_frame nw _ hcc (fun _ _ => by rw [hcells2])⟩
  have hC2 : m2.Holds m.objs.length na :=
    ⟨_, hc2o, Chain_frame na _ hca (fun _ _ => by rw [hcells2])⟩
  obtain ⟨k, hk⟩ := Holds_getSize hC2
  obtain ⟨m3, h3, _, _, hfr3, _⟩ := Clear_holds na m2 m.objs.length k fuel hC2 hk hfa
  have hdisA : ∀ x ∈ addrs nw, x ∉ addrs na := by
    intro x hx hxa
    have := hnew x hx
    have := ha2 x hxa
    omega
  obtain ⟨hA3, hsA3⟩ := Holds_frame hfr3 hA2 hac hdisA
  have hlenw := values_length hv
  have hsizeA : GetSize m3 a = Except.ok nb.length := by
    rw [hsA3, getSize_of_obj ha2o, hsz, Nat.mod_eq_of_lt hlen]
  have htravA : traverse fuel m3 a = Except.ok (values nb) := by
    rw [traverse_holds hA3 (by omega), hv]
  refine ⟨m3, ?_, hsizeA, htravA, ?_⟩
  · simp [operator_assign, h1, hswap, destroy, h3]
  · by_cases hab : a = b
    · subst hab
      exact ⟨hsizeA, htravA⟩
    · have hbc : b ≠ m.objs.length := by omega
      obtain ⟨hB2, hsB2⟩ := Holds_of_same hB1 (hoth2 b (Ne.symm hab) hbc)
        (fun x _ => by rw [hcells2])
      obtain ⟨hB3, hsB3⟩ := Holds_frame hfr3 hB2 hbc (hdis hab)
      refine ⟨by rw [hsB3, hsB2, hsB1, hs], ?_⟩
      rw [traverse_holds hB3 hfb]

/-- C8, at a concrete input: `a = b` with `a = {1, 2, 3}` and `b = {1, 2, 4}`. -/
theorem C8_copy_assignment_witness :
    ∃ m2, operator_assign 4 mem123_124 0 1 = Except.ok m2
      ∧ GetSize m2 0 = Except.ok 3
      ∧ traverse 4 m2 0 = Except.ok [1, 2, 4]
      ∧ GetSize m2 1 = Except.ok 3
      ∧ traverse 4 m2 1 = Except.ok [1, 2, 4] :=
  C8_copy_assignment mem123_124 0 1 4 [(2, 1), (1, 2), (0, 3)] [(5, 1), (4, 2), (3, 4)]
    holds_mem123_124_0 holds_mem123_124_1 rfl (by simp [SIZE_MOD])
    (by intro _ x hx; simp [addrs] at hx ⊢; omega) (by decide) (by decide)

theorem nth_iterator_le {m : Mem α} {self i : Nat} {ns : List (Nat × α)}
    (hh : m.Holds self ns) (hi : i ≤ ns.length) :
    nth_iterator m self i
      = Except.ok ⟨match ns[i]? with | some n => Ptr.cell n.1 | none => Ptr.null⟩ := by
  obtain ⟨l, hl, hc⟩ := hh
  simp [nth_iterator, begin_holds hl, advance_chain ns _ i hc hi]

theorem dec_size {k : Nat} (h0 : 0 < k) (hk : k < SIZE_MOD) :
    (k + SIZE_MOD - 1) % SIZE_MOD = k - 1 := by
  have h : k + SIZE_MOD - 1 = (k - 1) + SIZE_MOD := by omega
  rw [h, Nat.add_mod_right, Nat.mod_eq_of_lt (by omega)]

theorem values_erase (ns : List (Nat × α)) (i j : Nat) :
    values (ns.take i ++ ns.drop j) = (values ns).take i ++ (values ns).drop j := by
  simp [values, List.map_take, List.map_drop]

/-! ## EraseAfter and PopFront -/

/-- C11: on a list with element sequence `s` and size `k` (`0 < k`, in the
range of `size_t`), `EraseAfter(pos)` at a position that has a successor
returns.  For `pos = before_begin()` the first element is removed; for `pos`
the iterator to the element at index `i` the element at index `i + 1` is
removed; all other elements keep their order.  `GetSize()` becomes `k - 1`.
The returned iterator is the iterator that referred to the element after the
removed one, it is the successor of `pos` afterwards, and it is `end()` when
the removed element was the last one. -/
theorem C11_EraseAfter_removes_successor (m : Mem α) (self k : Nat) (ns : List (Nat × α))
    (hh : m.Holds self ns) (hs : GetSize m self = Except.ok k) (h0 : 0 < k)
    (hk : k < SIZE_MOD) :
    (0 < ns.length →
      ∃ it m2, EraseAfter m self (before_begin self) = Except.ok (it, m2)
        ∧ GetSize m2 self = Except.ok (k - 1)
        ∧ (∀ fuel, ns.length < fuel → traverse fuel m2 self = Except.ok ((values ns).drop 1))
        ∧ nth_iterator m self 1 = Except.ok it
        ∧ BasicIterator.inc m2 (before_begin self) = Except.ok it
        ∧ (ns.length = 1 → it = end_))
    ∧ (∀ (i : Nat) (pos : BasicIterator), i + 1 < ns.length →
        nth_iterator m self i = Except.ok pos →
        ∃ it m2, EraseAfter m self pos = Except.ok (it, m2)
          ∧ GetSize m2 self = Except.ok (k - 1)
          ∧ (∀ fuel, ns.length < fuel → traverse fuel m2 self
              = Except.ok ((values ns).take (i + 1) ++ (values ns).drop (i + 2)))
          ∧ nth_iterator m self (i + 2) = Except.ok it
          ∧ BasicIterator.inc m2 pos = Except.ok it
          ∧ (i + 2 = ns.length → it = end_)) := by
  constructor
  · intro hpos
    cases ns with
    | nil => simp at hpos
    | cons n rest =>
      obtain ⟨m2, h1, _, hh2, hs2, _, _⟩ := EraseAfter_front hh hs
      rw [dec_size h0 hk] at hs2
      refine ⟨_, m2, h1, hs2, ?_, ?_, ?_, ?_⟩
      · intro fuel hf
        rw [traverse_holds hh2 (by simp at hf; omega)]
        simp [values]
      · rw [nth_iterator_le hh (by simp)]
        simp
      · obtain ⟨l2, hl2, hc2⟩ := hh2
        simp [BasicIterator.inc, before_begin, load_sentinel hl2, Chain_ptr hc2]
      · intro hlen
        have : rest = [] := by
          cases rest with
          | nil => rfl
          | cons _ _ => simp at hlen
        subst this
        rfl
  · intro i pos hi hpos
    have hget : ns[i]? = some ns[i] := List.getElem?_eq_getElem (by omega)
    have hget2 : ns[i + 1]? = some ns[i + 1] := List.getElem?_eq_getElem hi
    rw [nth_iterator_holds hh hget] at hpos
    injection hpos with hpos
    subst hpos
    obtain ⟨m2, h1, hh2, hs2, _, _⟩ := EraseAfter_at hh hs hget hget2
    rw [dec_size h0 hk] at hs2
    have hlen2 : (ns.take (i + 1) ++ ns.drop (i + 2)).length < ns.length := by
      simp
      omega
    refine ⟨_, m2, h1, hs2, ?_, ?_, ?_, ?_⟩
    · intro fuel hf
      rw [traverse_holds hh2 (by omega), values_erase]
    · rw [nth_iterator_le hh (by omega)]
    · have hget3 : (ns.take (i + 1) ++ ns.drop (i + 2))[i]? = some ns[i] := by
        rw [List.getElem?_append_left (by simp; omega), List.getElem?_take_of_lt (by omega)]
        exact hget
      obtain ⟨l2, hl2, hc2⟩ := hh2
      have hd := Chain_drop _ _ i ns[i] hc2 hget3
      have hdrop : (ns.take (i + 1) ++ ns.drop (i + 2)).drop i = ns[i] :: ns.drop (i + 2) := by
        rw [List.drop_append_of_le_length (by simp; omega)]
        have : (ns.take (i + 1)).drop i = [ns[i]] := by
          rw [List.drop_take]
          simp only [Nat.add_sub_cancel_left]
          rw [List.drop_eq_getElem_cons (by omega)]
          rfl
        rw [this]
        rfl
      rw [hdrop] at hd
      obtain ⟨_, c, hcell, _, hr⟩ := Chain_cell hd
      rw [inc_cell hcell, Chain_ptr hr]
      simp
    · intro hlast
      have : ns[i + 2]? = none := List.getElem?_eq_none (by omega)
      simp [this, end_]

/-- C11, at a concrete input: `EraseAfter` at the element before the last one of
`{1, 2, 3}` removes `3` and returns `end()`. -/
theorem C11_EraseAfter_removes_successor_witness :
    ∃ it m2, EraseAfter mem123_124 0 ⟨Ptr.cell 1⟩ = Except.ok (it, m2)
      ∧ GetSize m2 0 = Except.ok 2
      ∧ (∀ fuel, 3 < fuel → traverse fuel m2 0 = Except.ok [1, 2])
      ∧ nth_iterator mem123_124 0 3 = Except.ok it
      ∧ BasicIterator.inc m2 ⟨Ptr.cell 1⟩ = Except.ok it
      ∧ (1 + 2 = 3 → it = end_) :=
  (C11_EraseAfter_removes_successor mem123_124 0 3 [(2, 1), (1, 2), (0, 3)]
    holds_mem123_124_0 rfl (by decide) (by simp [SIZE_MOD])).2 1 ⟨Ptr.cell 1⟩ (by decide) rfl

/-- C12: on a non-empty list with element sequence `x` followed by `rest` and
size `k` (`0 < k`, in the range of `size_t`), `PopFront()` returns and leaves
the element sequence `rest` and the size `k - 1`.  `PushFront(v)` followed by
`PopFront()` gives back the element sequence, the nodes and the size of the
list.  The scenario of the specification evaluates to the stated traversals
and sizes. -/
theorem C12_PopFront_removes_first (m : Mem α) (self k : Nat) (n : Nat × α)
    (rest : List (Nat × α)) (hh : m.Holds self (n :: rest))
    (hs : GetSize m self = Except.ok k) (h0 : 0 < k) (hk : k < SIZE_MOD) :
    (∃ m2, PopFront m self = Except.ok m2
      ∧ GetSize m2 self = Except.ok (k - 1)
      ∧ (∀ fuel, rest.length < fuel → traverse fuel m2 self = Except.ok (values rest)))
    ∧ (∀ (m0 : Mem α) (s k0 : Nat) (ns0 : List (Nat × α)) (v : α), m0.Holds s ns0 →
        GetSize m0 s = Except.ok k0 → k0 + 1 < SIZE_MOD →
        ∃ m1 m2, PushFront m0 s v = Except.ok m1 ∧ PopFront m1 s = Except.ok m2
          ∧ m2.Holds s ns0
          ∧ GetSize m2 s = Except.ok k0
          ∧ (∀ fuel, ns0.length < fuel → traverse fuel m2 s = Except.ok (values ns0)))
    ∧ scenario = Except.ok [([1, 2, 3], 3), ([2, 3], 2), ([2, 9, 3], 3), ([2, 3], 2)] := by
  refine ⟨?_, ?_, rfl⟩
  · obtain ⟨m2, h1, hh2, hs2, _, _⟩ := PopFront_holds hh hs
    rw [dec_size h0 hk] at hs2
    exact ⟨m2, h1, hs2, fun fuel hf => traverse_holds hh2 hf⟩
  · intro m0 s k0 ns0 v hh0 hs0 hk0
    obtain ⟨m1, h1, hh1, hs1, _⟩ := PushFront_holds v hh0 hs0
    rw [Nat.mod_eq_of_lt hk0] at hs1
    obtain ⟨m2, h2, hh2, hs2, _, _⟩ := PopFront_holds hh1 hs1
    rw [dec_size (by omega) hk0] at hs2
    exact ⟨m1, m2, h1, h2, hh2, by simpa using hs2, fun fuel hf => traverse_holds hh2 hf⟩

/-- C12, at a concrete input: `PopFront()` on `{1, 2, 3}`. -/
theorem C12_PopFront_removes_first_witness :
    ∃ m2, PopFront mem123_124 0 = Except.ok m2
      ∧ GetSize m2 0 = Except.ok 2
      ∧ (∀ fuel, 2 < fuel → traverse fuel m2 0 = Except.ok [2, 3]) :=
  (C12_PopFront_removes_first mem123_124 0 3 (2, 1) [(1, 2), (0, 3)]
    holds_mem123_124_0 rfl (by decide) (by simp [SIZE_MOD])).1

theorem Clear_outOfFuel : ∀ (ns : List (Nat × α)) (m : Mem α) (self fuel : Nat),
    m.Holds self ns → fuel ≤ ns.length → Clear fuel m self = Except.error Fault.outOfFuel
  | _, _, _, 0, _, _ => rfl
  | [], _, _, fuel + 1, _, hf => by simp at hf
  | n :: rest, m, self, fuel + 1, hh, hf => by
    obtain ⟨k, hs⟩ := Holds_getSize hh
    obtain ⟨m1, h1, hh1, _, _, _⟩ := PopFront_holds hh hs
    obtain ⟨l, hl, hc⟩ := hh
    have hp := hc.1
    rw [Clear_succ, load_sentinel hl]
    simp only [ok_bind, hp, h1]
    simp only [reduceCtorEq, if_false]
    exact Clear_outOfFuel rest m1 self fuel hh1 (by simpa using hf)

theorem isEmpty_of_getSize {m : Mem α} {self k : Nat} (hs : GetSize m self = Except.ok k) :
    IsEmpty m self = Except.ok (decide (k = 0)) := by
  simp only [GetSize] at hs
  simp [IsEmpty, hs]

/-! ## Clear, emptiness and traversal -/

/-- C13: on a list whose size is the number of its elements, `Clear()` returns
once the loop condition has been tested one more time than the list has
elements, and not with fewer tests.  Afterwards the link of the sentinel is
`nullptr`, `IsEmpty()` is `true`, `GetSize()` is `0`, `begin()` equals `end()`
and traversal yields nothing.  Every node of the list has been released, the
nodes are pairwise distinct, and no other node has been touched. -/
theorem C13_Clear_empties_the_list (m : Mem α) (self : Nat) (ns : List (Nat × α))
    (hh : m.Holds self ns) (hs : GetSize m self = Except.ok ns.length)
    (hlen : ns.length < SIZE_MOD) :
    (∀ fuel, ns.length < fuel →
      ∃ m2, Clear fuel m self = Except.ok m2
        ∧ (∃ h, m2.load (Ptr.sentinel self) = Except.ok h ∧ h.next_node = Ptr.null)
        ∧ IsEmpty m2 self = Except.ok true
        ∧ GetSize m2 self = Except.ok 0
        ∧ begin m2 self = Except.ok end_
        ∧ traverse fuel m2 self = Except.ok []
        ∧ (∀ x ∈ addrs ns, m2.cells[x]? = some none)
        ∧ (∀ a, a < m.cells.length → a ∉ addrs ns → m2.cells[a]? = m.cells[a]?))
    ∧ Clear ns.length m self = Except.error Fault.outOfFuel
    ∧ (addrs ns).Nodup ∧ (addrs ns).length = ns.length := by
  refine ⟨?_, Clear_outOfFuel ns m self ns.length hh (le_refl _), ?_, by simp [addrs]⟩
  · intro fuel hf
    obtain ⟨m2, h1, hh2, hs2, hfr, hfreed⟩ := Clear_holds ns m self ns.length fuel hh hs hf
    have hs3 := hs2 hlen
    rw [decs_all] at hs3
    have htr := traverse_holds hh2 (show ([] : List (Nat × α)).length < fuel by simp; omega)
    obtain ⟨l2, hl2, hc2⟩ := hh2
    simp only [Mem.Chain] at hc2
    refine ⟨m2, h1, ⟨_, load_sentinel hl2, hc2⟩, ?_, hs3, ?_, htr, hfreed, hfr.2.2.1⟩
    · rw [isEmpty_of_getSize hs3]
      rfl
    · rw [begin_holds hl2, hc2]
      rfl
  · obtain ⟨l, _, hc⟩ := hh
    exact Chain_nodup ns _ hc

/-- C13, at a concrete input: `Clear()` on `{1, 2, 3}`. -/
theorem C13_Clear_empties_the_list_witness :
    ∃ m2, Clear 4 mem123_124 0 = Except.ok m2
      ∧ (∃ h, m2.load (Ptr.sentinel 0) = Except.ok h ∧ h.next_node = Ptr.null)
      ∧ IsEmpty m2 0 = Except.ok true
      ∧ GetSize m2 0 = Except.ok 0
      ∧ begin m2 0 = Except.ok end_
      ∧ traverse 4 m2 0 = Except.ok []
      ∧ (∀ x ∈ addrs [(2, 1), (1, 2), (0, 3)], m2.cells[x]? = some none)
      ∧ (∀ a, a < mem123_124.cells.length → a ∉ addrs [(2, 1), (1, 2), (0, 3)] →
          m2.cells[a]? = mem123_124.cells[a]?) :=
  (C13_Clear_empties_the_list mem123_124 0 [(2, 1), (1, 2), (0, 3)] holds_mem123_124_0 rfl
    (by simp [SIZE_MOD])).1 4 (by decide)

/-- C16: on a list whose size is the number of its elements, `IsEmpty()`
returns `true` exactly when the link of the sentinel is `nullptr`, and exactly
when `begin()` equals `end()`. -/
theorem C16_IsEmpty_iff_head_link_absent (m : Mem α) (self : Nat) (ns : List (Nat × α))
    (hh : m.Holds self ns) (hs : GetSize m self = Except.ok ns.length) :
    ∃ (e : Bool) (h : Node α) (b : BasicIterator),
      IsEmpty m self = Except.ok e
      ∧ m.load (Ptr.sentinel self) = Except.ok h
      ∧ begin m self = Except.ok b
      ∧ (e = true ↔ h.next_node = Ptr.null)
      ∧ (e = true ↔ BasicIterator.eq b end_ = true)
      ∧ (e = true ↔ ns = []) := by
  obtain ⟨l, hl, hc⟩ := hh
  have hnull : l.head_.next_node = Ptr.null ↔ ns = [] := by
    cases ns with
    | nil => simpa [Mem.Chain] using hc
    | cons n rest => simp [hc.1]
  have he : decide (ns.length = 0) = true ↔ ns = [] := by simp
  refine ⟨_, l.head_, ⟨l.head_.next_node⟩, isEmpty_of_getSize hs, load_sentinel hl,
    begin_holds hl, ?_, ?_, he⟩
  · rw [he, hnull]
  · rw [he, ← hnull]
    simp [BasicIterator.eq, end_]

/-- C16, at a concrete input: the list `{1, 2, 3}` is not empty. -/
theorem C16_IsEmpty_iff_head_link_absent_witness :
    ∃ (e : Bool) (h : Node Nat) (b : BasicIterator),
      IsEmpty mem123_124 0 = Except.ok e
      ∧ mem123_124.load (Ptr.sentinel 0) = Except.ok h
      ∧ begin mem123_124 0 = Except.ok b
      ∧ (e = true ↔ h.next_node = Ptr.null)
      ∧ (e = true ↔ BasicIterator.eq b end_ = true)
      ∧ (e = true ↔ [((2 : Nat), (1 : Nat)), (1, 2), (0, 3)] = []) :=
  C16_IsEmpty_iff_head_link_absent mem123_124 0 [(2, 1), (1, 2), (0, 3)] holds_mem123_124_0 rfl

theorem Chain_getElem_ne {m : Mem α} {p : Ptr} {ns : List (Nat × α)} (hc : m.Chain p ns)
    {i j : Nat} (hi : i < ns.length) (hj : j < ns.length) (hij : i < j) :
    ns[i].1 ≠ ns[j].1 := by
  have hnd := Chain_nodup ns p hc
  have hia : i < (addrs ns).length := by simpa [addrs] using hi
  have hja : j < (addrs ns).length := by simpa [addrs] using hj
  intro h
  have h2 : (addrs ns)[i] = (addrs ns)[j] := by simpa [addrs] using h
  have := (List.Nodup.getElem_inj_iff hnd).1 h2
  omega

theorem postInc_eq_inc (m : Mem α) (it : BasicIterator) :
    BasicIterator.postInc m it
      = (fun nx => (it, nx)) <$> BasicIterator.inc m it := by
  unfold BasicIterator.postInc BasicIterator.inc
  by_cases h : it.node_ = Ptr.null
  · simp [h]
  · cases hl : m.load it.node_ <;> simp [h]

theorem postInc_cell {m : Mem α} {a : Nat} {c : Node α} (h : m.cells[a]? = some (some c)) :
    BasicIterator.postInc m ⟨Ptr.cell a⟩
      = Except.ok (BasicIterator.mk (Ptr.cell a), BasicIterator.mk c.next_node) := by
  simp [BasicIterator.postInc, load_cell h]

theorem advance_post_eq (m : Mem α) : ∀ (i : Nat) (it : BasicIterator),
    advance_post m i it = advance m i it
  | 0, _ => rfl
  | i + 1, it => by
    simp only [advance_post, advance, postInc_eq_inc]
    cases h : BasicIterator.inc m it with
    | error e => simp
    | ok nx => simp [advance_post_eq m i nx]

theorem nth_iterator_post_eq (m : Mem α) (self i : Nat) :
    nth_iterator_post m self i = nth_iterator m self i := by
  simp only [nth_iterator_post, nth_iterator]
  cases begin m self with
  | error e => rfl
  | ok b => simp [advance_post_eq]

/-- C19: on a list whose size is the number of its elements, incrementing
`before_begin()` gives `begin()`, with the pre-increment `++it` and with the
post-increment `it++` alike; the iterator obtained from `begin()` by `k`
increments, with `k` the value of `GetSize()`, is `end()`; after fewer
increments it exists (no increment fails the assertion), differs from `end()`
and refers to the element at that index; the iterators met on the way are
pairwise different, so no node is visited twice. At every index below `k` both
overloads of `operator++` succeed and move to the iterator of the next index,
which differs from the current one, and the post-increment returns the
iterator it was called on; the traversal by post-increments therefore reaches
`end()` after `k` steps, not earlier, and visits the same elements. For every
iterator the post-increment is the pre-increment paired with the old value. -/
theorem C19_traversal_reaches_end_after_size_steps (m : Mem α) (self : Nat)
    (ns : List (Nat × α)) (hh : m.Holds self ns)
    (hs : GetSize m self = Except.ok ns.length) :
    (∃ b, BasicIterator.inc m (before_begin self) = Except.ok b ∧ begin m self = Except.ok b
        ∧ BasicIterator.postInc m (before_begin self) = Except.ok (before_begin self, b))
    ∧ (∃ k, GetSize m self = Except.ok k
        ∧ nth_iterator m self k = Except.ok end_
        ∧ (∀ i, i < k → ∃ it v, nth_iterator m self i = Except.ok it
            ∧ BasicIterator.ne it end_ = true
            ∧ BasicIterator.deref m it = Except.ok v
            ∧ (values ns)[i]? = some v)
        ∧ (∀ i j it, i < j → j ≤ k → nth_iterator m self i = Except.ok it →
            nth_iterator m self j ≠ Except.ok it)
        ∧ (∀ fuel, k < fuel → ∃ vs, traverse fuel m self = Except.ok vs ∧ vs.length = k)
        ∧ (∀ i, i < k → ∃ it nx, nth_iterator m self i = Except.ok it
            ∧ nth_iterator m self (i + 1) = Except.ok nx
            ∧ BasicIterator.ne nx it = true
            ∧ BasicIterator.inc m it = Except.ok nx
            ∧ BasicIterator.postInc m it = Except.ok (it, nx))
        ∧ nth_iterator_post m self k = Except.ok end_
        ∧ (∀ i, i < k → ∃ it v, nth_iterator_post m self i = Except.ok it
            ∧ BasicIterator.ne it end_ = true
            ∧ BasicIterator.deref m it = Except.ok v
            ∧ (values ns)[i]? = some v)
        ∧ (∀ i j it, i < j → j ≤ k → nth_iterator_post m self i = Except.ok it →
            nth_iterator_post m self j ≠ Except.ok it))
    ∧ (∀ it : BasicIterator, BasicIterator.postInc m it
        = (fun nx => (it, nx)) <$> BasicIterator.inc m it) := by
  have hval : ∀ i, i < ns.length → ∃ it v, nth_iterator m self i = Except.ok it
      ∧ BasicIterator.ne it end_ = true
      ∧ BasicIterator.deref m it = Except.ok v
      ∧ (values ns)[i]? = some v := by
    intro i hi
    have hget : ns[i]? = some ns[i] := List.getElem?_eq_getElem hi
    obtain ⟨l, hl, hc⟩ := hh
    have hd := Chain_drop ns _ i ns[i] hc hget
    rw [List.drop_eq_getElem_cons hi] at hd
    obtain ⟨_, c, hcell, hv, _⟩ := Chain_cell hd
    refine ⟨⟨Ptr.cell ns[i].1⟩, ns[i].2, nth_iterator_holds ⟨l, hl, hc⟩ hget, ?_, ?_, ?_⟩
    · simp [BasicIterator.ne, end_]
    · rw [deref_cell hcell, hv]
    · simp [values, hget]
  have hdist : ∀ i j it, i < j → j ≤ ns.length → nth_iterator m self i = Except.ok it →
      nth_iterator m self j ≠ Except.ok it := by
    intro i j it hij hj hi
    have hgi : ns[i]? = some ns[i] := List.getElem?_eq_getElem (by omega)
    rw [nth_iterator_holds hh hgi] at hi
    injection hi with hi
    subst hi
    rw [nth_iterator_le hh hj]
    intro h
    injection h with h
    injection h with h
    by_cases hjl : j < ns.length
    · rw [List.getElem?_eq_getElem hjl] at h
      simp only [Ptr.cell.injEq] at h
      obtain ⟨l, hl, hc⟩ := hh
      exact Chain_getElem_ne hc (by omega) hjl hij h.symm
    · rw [List.getElem?_eq_none (by omega)] at h
      simp at h
  refine ⟨?_, ?_, postInc_eq_inc m⟩
  · obtain ⟨l, hl, _⟩ := hh
    have hinc : BasicIterator.inc m (before_begin self) = Except.ok ⟨l.head_.next_node⟩ := by
      simp [BasicIterator.inc, before_begin, load_sentinel hl]
    refine ⟨⟨l.head_.next_node⟩, hinc, begin_holds hl, ?_⟩
    rw [postInc_eq_inc, hinc]
    rfl
  · refine ⟨ns.length, hs, nth_iterator_end hh, hval, hdist, ?_, ?_, ?_, ?_, ?_⟩
    · intro fuel hf
      exact ⟨_, traverse_holds hh hf, by simp [values]⟩
    · intro i hi
      have hget : ns[i]? = some ns[i] := List.getElem?_eq_getElem hi
      have hnx := nth_iterator_le hh (Nat.succ_le_of_lt hi)
      have hne := hdist i (i + 1) _ (Nat.lt_succ_self i) (Nat.succ_le_of_lt hi)
        (nth_iterator_holds hh hget)
      obtain ⟨l, hl, hc⟩ := hh
      have hd := Chain_drop ns _ i ns[i] hc hget
      rw [List.drop_eq_getElem_cons hi] at hd
      obtain ⟨_, c, hcell, hv, hrest⟩ := Chain_cell hd
      have hadv := advance_chain (ns.drop (i + 1)) c.next_node 0 hrest (Nat.zero_le _)
      simp only [advance] at hadv
      injection hadv with hadv
      have hnx2 : nth_iterator m self (i + 1) = Except.ok (BasicIterator.mk c.next_node) := by
        rw [hnx, hadv]
        simp
      refine ⟨⟨Ptr.cell ns[i].1⟩, ⟨c.next_node⟩, nth_iterator_holds ⟨l, hl, hc⟩ hget, hnx2,
        ?_, inc_cell hcell, postInc_cell hcell⟩
      rw [hnx2] at hne
      simp only [BasicIterator.ne]
      by_cases hq : c.next_node = Ptr.cell ns[i].1
      · exact absurd (by rw [hq]) hne
      · simp [hq]
    · rw [nth_iterator_post_eq]
      exact nth_iterator_end hh
    · intro i hi
      rw [nth_iterator_post_eq]
      exact hval i hi
    · intro i j it hij hj
      rw [nth_iterator_post_eq, nth_iterator_post_eq]
      exact hdist i j it hij hj

/-- C19, at a concrete input: the list `{1, 2, 3}`. -/
theorem C19_traversal_reaches_end_after_size_steps_witness :
    ∃ k, GetSize mem123_124 0 = Except.ok k
      ∧ nth_iterator mem123_124 0 k = Except.ok end_
      ∧ (∀ i, i < k → ∃ it v, nth_iterator mem123_124 0 i = Except.ok it
          ∧ BasicIterator.ne it end_ = true
          ∧ BasicIterator.deref mem123_124 it = Except.ok v
          ∧ (values [((2 : Nat), (1 : Nat)), (1, 2), (0, 3)])[i]? = some v)
      ∧ (∀ i j it, i < j → j ≤ k → nth_iterator mem123_124 0 i = Except.ok it →
          nth_iterator mem123_124 0 j ≠ Except.ok it)
      ∧ (∀ fuel, k < fuel → ∃ vs, traverse fuel mem123_124 0 = Except.ok vs ∧ vs.length = k)
      ∧ (∀ i, i < k → ∃ it nx, nth_iterator mem123_124 0 i = Except.ok it
          ∧ nth_iterator mem123_124 0 (i + 1) = Except.ok nx
          ∧ BasicIterator.ne nx it = true
          ∧ BasicIterator.inc mem123_124 it = Except.ok nx
          ∧ BasicIterator.postInc mem123_124 it = Except.ok (it, nx))
      ∧ nth_iterator_post mem123_124 0 k = Except.ok end_
      ∧ (∀ i, i < k → ∃ it v, nth_iterator_post mem123_124 0 i = Except.ok it
          ∧ BasicIterator.ne it end_ = true
          ∧ BasicIterator.deref mem123_124 it = Except.ok v
          ∧ (values [((2 : Nat), (1 : Nat)), (1, 2), (0, 3)])[i]? = some v)
      ∧ (∀ i j it, i < j → j ≤ k → nth_iterator_post mem123_124 0 i = Except.ok it →
          nth_iterator_post mem123_124 0 j ≠ Except.ok it) :=
  (C19_traversal_reaches_end_after_size_steps mem123_124 0 [(2, 1), (1, 2), (0, 3)] holds_mem123_124_0 rfl).2.1

theorem swap_self_objs {m : Mem α} {a : Nat} {l : SingleLinkedList α}
    (hl : m.objs[a]? = some l) :
    ∃ m2, swap m a a = Except.ok m2
      ∧ m2.cells = m.cells
      ∧ m2.objs[a]? = some l
      ∧ m2.objs.length = m.objs.length
      ∧ (∀ j, j ≠ a → m2.objs[j]? = m.objs[j]?) := by
  have hlt := lt_of_getElem?_eq_some hl
  have hl2 : m.objs[a] = l := by
    have := List.getElem?_eq_getElem hlt
    rw [hl] at this
    exact (Option.some.inj this).symm
  refine ⟨Mem.mk m.cells ((((m.objs.set a l).set a l).set a l).set a l), ?_, rfl, ?_, ?_, ?_⟩
  · simp [swap, swapNext, swapSize, Mem.load, Mem.storeNext, Mem.loadSize, Mem.storeSize, hl,
      List.getElem?_set, hlt, hl2]
  · simp [List.getElem?_set, hlt]
  · simp
  · intro j hj
    simp [List.getElem?_set, Ne.symm hj]

theorem Holds_functional {m : Mem α} {a : Nat} {na nb : List (Nat × α)}
    (ha : m.Holds a na) (hb : m.Holds a nb) : na = nb := by
  obtain ⟨l, hl, hc⟩ := ha
  obtain ⟨l2, hl2, hc2⟩ := hb
  rw [hl] at hl2
  injection hl2 with hl2
  subst hl2
  exact Chain_functional _ _ _ hc hc2

theorem swap_holds {m : Mem α} {a b ka kb : Nat} {na nb : List (Nat × α)}
    (ha : m.Holds a na) (hb : m.Holds b nb)
    (hsa : GetSize m a = Except.ok ka) (hsb : GetSize m b = Except.ok kb) :
    ∃ m2, swap m a b = Except.ok m2
      ∧ m2.Holds a nb ∧ m2.Holds b na
      ∧ GetSize m2 a = Except.ok kb ∧ GetSize m2 b = Except.ok ka
      ∧ m2.cells = m.cells
      ∧ m2.objs.length = m.objs.length
      ∧ (∀ j, j ≠ a → j ≠ b → m2.objs[j]? = m.objs[j]?) := by
  by_cases hab : a = b
  · subst hab
    have hn := Holds_functional ha hb
    subst hn
    have hk : ka = kb := by
      rw [hsa] at hsb
      injection hsb
    subst hk
    obtain ⟨l, hl, hc⟩ := ha
    obtain ⟨m2, h1, hcells, ho, hlen, hoth⟩ := swap_self_objs hl
    have hh2 : m2.Holds a na := ⟨l, ho, Chain_frame na _ hc (fun _ _ => by rw [hcells])⟩
    have hs2 : GetSize m2 a = Except.ok ka := by
      rw [getSize_of_obj ho, ← getSize_of_obj hl, hsa]
    exact ⟨m2, h1, hh2, hh2, hs2, hs2, hcells, hlen, fun j h _ => hoth j h⟩
  · obtain ⟨la, hla, hca⟩ := ha
    obtain ⟨lb, hlb, hcb⟩ := hb
    have hka := size_of_getSize hla hsa
    have hkb := size_of_getSize hlb hsb
    obtain ⟨m2, h1, hcells, hoa, hob, hlen, hoth⟩ := swap_objs hla hlb hab
    refine ⟨m2, h1, ⟨_, hoa, Chain_frame nb _ hcb (fun _ _ => by rw [hcells])⟩,
      ⟨_, hob, Chain_frame na _ hca (fun _ _ => by rw [hcells])⟩, ?_, ?_, hcells, hlen, hoth⟩
    · rw [getSize_of_obj hoa, ← hkb]
    · rw [getSize_of_obj hob, ← hka]

theorem holds_mem12_34_0 : mem12_34.Holds 0 [(1, 1), (0, 2)] :=
  ⟨_, rfl, by simp [Mem.Chain, mem12_34]⟩

theorem holds_mem12_34_1 : mem12_34.Holds 1 [(3, 3), (2, 4)] :=
  ⟨_, rfl, by simp [Mem.Chain, mem12_34]⟩

/-! ## swap -/

/-- C14: for two lists `a` and `b` (possibly the same list), `a.swap(b)` and
the free function `swap(a, b)` return and give the same memory; afterwards `a`
has the nodes, the element sequence and the size `b` had, and `b` has those `a`
had; the free store is untouched, so no element is changed, created or
removed.  When `a` and `b` are the same list it keeps its element sequence and
size. -/
theorem C14_swap_exchanges_contents (m : Mem α) (a b ka kb : Nat) (na nb : List (Nat × α))
    (ha : m.Holds a na) (hb : m.Holds b nb)
    (hsa : GetSize m a = Except.ok ka) (hsb : GetSize m b = Except.ok kb) :
    ∃ m2, swap m a b = Except.ok m2 ∧ free_swap m a b = Except.ok m2
      ∧ m2.Holds a nb ∧ m2.Holds b na
      ∧ GetSize m2 a = Except.ok kb ∧ GetSize m2 b = Except.ok ka
      ∧ (∀ fuel, nb.length < fuel → traverse fuel m2 a = Except.ok (values nb))
      ∧ (∀ fuel, na.length < fuel → traverse fuel m2 b = Except.ok (values na))
      ∧ m2.cells = m.cells
      ∧ (a = b → m2.Holds a na ∧ GetSize m2 a = Except.ok ka) := by
  obtain ⟨m2, h1, hh2a, hh2b, hs2a, hs2b, hcells, _, _⟩ := swap_holds ha hb hsa hsb
  refine ⟨m2, h1, h1, hh2a, hh2b, hs2a, hs2b, fun fuel hf => traverse_holds hh2a hf,
    fun fuel hf => traverse_holds hh2b hf, hcells, ?_⟩
  intro hab
  subst hab
  exact ⟨hh2b, hs2b⟩

/-- C14, at a concrete input: swapping `{1, 2, 3}` and `{1, 2, 4}`. -/
theorem C14_swap_exchanges_contents_witness :
    ∃ m2, swap mem123_124 0 1 = Except.ok m2 ∧ free_swap mem123_124 0 1 = Except.ok m2
      ∧ m2.Holds 0 [(5, 1), (4, 2), (3, 4)] ∧ m2.Holds 1 [(2, 1), (1, 2), (0, 3)]
      ∧ GetSize m2 0 = Except.ok 3 ∧ GetSize m2 1 = Except.ok 3
      ∧ (∀ fuel, 3 < fuel → traverse fuel m2 0 = Except.ok [1, 2, 4])
      ∧ (∀ fuel, 3 < fuel → traverse fuel m2 1 = Except.ok [1, 2, 3])
      ∧ m2.cells = mem123_124.cells
      ∧ (0 = 1 → m2.Holds 0 [(2, 1), (1, 2), (0, 3)] ∧ GetSize m2 0 = Except.ok 3) :=
  C14_swap_exchanges_contents mem123_124 0 1 3 3 [(2, 1), (1, 2), (0, 3)]
    [(5, 1), (4, 2), (3, 4)] holds_mem123_124_0 holds_mem123_124_1 rfl rfl

/-- C15: for two lists `a` and `b` (possibly the same list), two calls of
`swap(a, b)` in a row return and give both lists back their nodes, element
sequences and sizes; the free store is untouched. -/
theorem C15_swap_twice_restores (m : Mem α) (a b ka kb : Nat) (na nb : List (Nat × α))
    (ha : m.Holds a na) (hb : m.Holds b nb)
    (hsa : GetSize m a = Except.ok ka) (hsb : GetSize m b = Except.ok kb) :
    ∃ m1 m2, free_swap m a b = Except.ok m1 ∧ free_swap m1 a b = Except.ok m2
      ∧ m2.Holds a na ∧ m2.Holds b nb
      ∧ GetSize m2 a = Except.ok ka ∧ GetSize m2 b = Except.ok kb
      ∧ (∀ fuel, na.length < fuel → traverse fuel m2 a = Except.ok (values na))
      ∧ (∀ fuel, nb.length < fuel → traverse fuel m2 b = Except.ok (values nb))
      ∧ m2.cells = m.cells := by
  obtain ⟨m1, h1, hh1a, hh1b, hs1a, hs1b, hcells1, _, _⟩ := swap_holds ha hb hsa hsb
  obtain ⟨m2, h2, hh2a, hh2b, hs2a, hs2b, hcells2, _, _⟩ := swap_holds hh1a hh1b hs1a hs1b
  exact ⟨m1, m2, h1, h2, hh2a, hh2b, hs2a, hs2b, fun fuel hf => traverse_holds hh2a hf,
    fun fuel hf => traverse_holds hh2b hf, by rw [hcells2, hcells1]⟩

/-- C15, at a concrete input: swapping `{1, 2, 3}` and `{1, 2, 4}` twice. -/
theorem C15_swap_twice_restores_witness :
    ∃ m1 m2, free_swap mem123_124 0 1 = Except.ok m1 ∧ free_swap m1 0 1 = Except.ok m2
      ∧ m2.Holds 0 [(2, 1), (1, 2), (0, 3)] ∧ m2.Holds 1 [(5, 1), (4, 2), (3, 4)]
      ∧ GetSize m2 0 = Except.ok 3 ∧ GetSize m2 1 = Except.ok 3
      ∧ (∀ fuel, 3 < fuel → traverse fuel m2 0 = Except.ok [1, 2, 3])
      ∧ (∀ fuel, 3 < fuel → traverse fuel m2 1 = Except.ok [1, 2, 4])
      ∧ m2.cells = mem123_124.cells :=
  C15_swap_twice_restores mem123_124 0 1 3 3 [(2, 1), (1, 2), (0, 3)]
    [(5, 1), (4, 2), (3, 4)] holds_mem123_124_0 holds_mem123_124_1 rfl rfl

theorem operator_eq_holds [DecidableEq α] {m : Mem α} {a b fuel : Nat}
    {na nb : List (Nat × α)} (ha : m.Holds a na) (hb : m.Holds b nb) (hf : na.length < fuel) :
    operator_eq fuel m a b = equalList (values na) (values nb) := by
  obtain ⟨la, hla, hca⟩ := ha
  obtain ⟨lb, hlb, hcb⟩ := hb
  simp [operator_eq, begin_holds hla, begin_holds hlb, equal_chain na nb _ _ fuel hca hcb hf]

theorem equalList_of_le [DecidableEq α] : ∀ (xs ys : List α), xs.length ≤ ys.length →
    equalList xs ys = Except.ok (decide (ys.take xs.length = xs))
  | [], ys, _ => by simp [equalList]
  | x :: xs, [], h => by simp at h
  | x :: xs, y :: ys, h => by
    have ih := equalList_of_le xs ys (by simpa using h)
    by_cases hxy : x = y
    · subst hxy
      simp [equalList, ih]
    · have hyx : ¬ y = x := fun h => hxy h.symm
      simp [equalList, hxy, hyx]

theorem equalList_of_gt [DecidableEq α] : ∀ (xs ys : List α), ys.length < xs.length →
    xs.take ys.length = ys → equalList xs ys = Except.error Fault.assertFailed
  | [], ys, h, _ => by simp at h
  | x :: xs, [], _, _ => by simp [equalList]
  | x :: xs, y :: ys, h, ht => by
    simp only [List.length_cons, List.take_succ_cons, List.cons.injEq] at ht
    obtain ⟨hxy, ht⟩ := ht
    simp [equalList, hxy, equalList_of_gt xs ys (by simpa using h) ht]

/-! ## What `operator==` computes -/

/-- C20: for two lists `a` and `b` whose sizes are the numbers of their
elements, with `GetSize(a) <= GetSize(b)` the call `operator==(a, b)` returns
`true` exactly when the element sequence of `a` is a prefix of that of `b`; in
particular it returns `true` for an empty `a`.  When `a` is longer than `b` and
the elements of `b` match the first `GetSize(b)` elements of `a`, the
comparison goes on to `b.end()` and the assertion of `operator*` fails. -/
theorem C20_operator_eq_is_a_prefix_test [DecidableEq α] (m : Mem α) (a b fuel : Nat)
    (na nb : List (Nat × α)) (ha : m.Holds a na) (hb : m.Holds b nb)
    (hsa : GetSize m a = Except.ok na.length) (hsb : GetSize m b = Except.ok nb.length)
    (hf : na.length < fuel) :
    ∃ ka kb, GetSize m a = Except.ok ka ∧ GetSize m b = Except.ok kb
      ∧ (ka ≤ kb → ∃ r, operator_eq fuel m a b = Except.ok r
          ∧ (r = true ↔ values na <+: values nb)
          ∧ (r = true ↔ (values nb).take ka = values na))
      ∧ (ka = 0 → operator_eq fuel m a b = Except.ok true)
      ∧ (kb < ka → (values na).take kb = values nb →
          operator_eq fuel m a b = Except.error Fault.assertFailed
          ∧ BasicIterator.deref m end_ = (Except.error Fault.assertFailed : Except Fault α)) := by
  have hla : (values na).length = na.length := by simp [values]
  have hlb : (values nb).length = nb.length := by simp [values]
  refine ⟨na.length, nb.length, hsa, hsb, ?_, ?_, ?_⟩
  · intro hle
    refine ⟨decide ((values nb).take (values na).length = values na), ?_, ?_, ?_⟩
    · rw [operator_eq_holds ha hb hf, equalList_of_le _ _ (by omega)]
    · rw [List.prefix_iff_eq_take, hla]
      simp only [decide_eq_true_eq]
      exact eq_comm
    · simp [hla]
  · intro h0
    have : na = [] := List.length_eq_zero.1 h0
    subst this
    rw [operator_eq_holds ha hb hf]
    simp [values, equalList]
  · intro hgt ht
    refine ⟨?_, rfl⟩
    rw [operator_eq_holds ha hb hf]
    exact equalList_of_gt _ _ (by omega) (by rw [hlb]; exact ht)

/-- C20, at a concrete input: `{1} == {1, 2}` is `true`. -/
theorem C20_operator_eq_is_a_prefix_test_witness :
    ∃ ka kb, GetSize mem1_12 0 = Except.ok ka ∧ GetSize mem1_12 1 = Except.ok kb
      ∧ (ka ≤ kb → ∃ r, operator_eq 2 mem1_12 0 1 = Except.ok r
          ∧ (r = true ↔ values [((0 : Nat), (1 : Nat))] <+: values [((2 : Nat), (1 : Nat)), (1, 2)])
          ∧ (r = true ↔ (values [((2 : Nat), (1 : Nat)), (1, 2)]).take ka = values [((0 : Nat), (1 : Nat))]))
      ∧ (ka = 0 → operator_eq 2 mem1_12 0 1 = Except.ok true)
      ∧ (kb < ka → (values [((0 : Nat), (1 : Nat))]).take kb = values [((2 : Nat), (1 : Nat)), (1, 2)] →
          operator_eq 2 mem1_12 0 1 = Except.error Fault.assertFailed
          ∧ BasicIterator.deref mem1_12 end_ = (Except.error Fault.assertFailed : Except Fault Nat)) :=
  C20_operator_eq_is_a_prefix_test mem1_12 0 1 2 [(0, 1)] [(2, 1), (1, 2)]
    ⟨_, rfl, by simp [Mem.Chain, mem1_12]⟩ ⟨_, rfl, by simp [Mem.Chain, mem1_12]⟩ rfl rfl
    (by decide)

theorem operator_assign_holds [Inhabited α] {m : Mem α} {a b fuel : Nat}
    {na nb : List (Nat × α)} (ha : m.Holds a na) (hb : m.Holds b nb)
    (hs : GetSize m b = Except.ok nb.length) (hlen : nb.length < SIZE_MOD)
    (hdis : a ≠ b → ∀ x ∈ addrs nb, x ∉ addrs na)
    (hfa : na.length < fuel) (hfb : nb.length < fuel) :
    ∃ m2 nw, operator_assign fuel m a b = Except.ok m2
      ∧ m2.Holds a nw ∧ nw.length = nb.length
      ∧ GetSize m2 a = Except.ok nb.length
      ∧ (a ≠ b → m2.Holds b nb ∧ GetSize m2 b = Except.ok nb.length) := by
  obtain ⟨m1, nw, h1, hc, hv, hnew, hsc, hcl, hcells, hol, hobjs, _⟩ := ofCopy_holds hb hfb
  obtain ⟨ha1, ha2⟩ := Holds_lt ha
  obtain ⟨hb1, hb2⟩ := Holds_lt hb
  obtain ⟨hA1, _⟩ := Holds_of_same ha (hobjs a ha1) hcells
  obtain ⟨hB1, hsB1⟩ := Holds_of_same hb (hobjs b hb1) hcells
  obtain ⟨la, hla, hca⟩ := hA1
  obtain ⟨lc, hlc, hcc⟩ := hc
  have hsz := size_of_getSize hlc hsc
  have hac : a ≠ m.objs.length := by omega
  obtain ⟨m2, hswap, hcells2, ha2o, hc2o, hol2, hoth2⟩ := swap_objs hla hlc hac
  have hA2 : m2.Holds a nw := ⟨_, ha2o, Chain_frame nw _ hcc (fun _ _ => by rw [hcells2])⟩
  have hC2 : m2.Holds m.objs.length na :=
    ⟨_, hc2o, Chain_frame na _ hca (fun _ _ => by rw [hcells2])⟩
  obtain ⟨k, hk⟩ := Holds_getSize hC2
  obtain ⟨m3, h3, _, _, hfr3, _⟩ := Clear_holds na m2 m.objs.length k fuel hC2 hk hfa
  have hdisA : ∀ x ∈ addrs nw, x ∉ addrs na := by
    intro x hx hxa
    have := hnew x hx
    have := ha2 x hxa
    omega
  obtain ⟨hA3, hsA3⟩ := Holds_frame hfr3 hA2 hac hdisA
  have hsizeA : GetSize m3 a = Except.ok nb.length := by
    rw [hsA3, getSize_of_obj ha2o, hsz, Nat.mod_eq_of_lt hlen]
  refine ⟨m3, nw, ?_, hA3, values_length hv, hsizeA, ?_⟩
  · simp [operator_assign, h1, hswap, destroy, h3]
  · intro hab
    have hbc : b ≠ m.objs.length := by omega
    obtain ⟨hB2, hsB2⟩ := Holds_of_same hB1 (hoth2 b (Ne.symm hab) hbc)
      (fun x _ => by rw [hcells2])
    obtain ⟨hB3, hsB3⟩ := Holds_frame hfr3 hB2 hbc (hdis hab)
    exact ⟨hB3, by rw [hsB3, hsB2, hsB1, hs]⟩

theorem Op_step_count {m : Mem α} {self : Nat} (fuel : Nat) {ns : List (Nat × α)} (op : Op α)
    (hh : m.Holds self ns) (hs : GetSize m self = Except.ok ns.length)
    (hlen : ns.length < SIZE_MOD) (hpre : op.pre ns.length = true)
    (hafter : op.lenAfter ns.length < SIZE_MOD) (hf : ns.length < fuel) :
    ∃ m2, op.run fuel m self = Except.ok m2 ∧ m2.CountInv self := by
  cases op with
  | pushFront v =>
    simp only [Op.lenAfter] at hafter
    obtain ⟨m2, _, h1, _, hh2, hs2, _⟩ := InsertAfter_front v hh hs
    rw [Nat.mod_eq_of_lt hafter] at hs2
    exact ⟨m2, h1, _, hh2, by simpa using hs2, by simpa using hafter⟩
  | popFront =>
    cases ns with
    | nil => simp [Op.pre] at hpre
    | cons n rest =>
      obtain ⟨m2, h1, hh2, hs2, _⟩ := PopFront_holds hh hs
      rw [dec_size (by simp) hlen] at hs2
      exact ⟨m2, h1, rest, hh2, by simpa using hs2, by simp at hlen; omega⟩
  | insertAfter pos v =>
    simp only [Op.lenAfter] at hafter
    cases pos with
    | none =>
      obtain ⟨m2, h1, _, _, hh2, hs2, _⟩ := InsertAfter_front v hh hs
      rw [Nat.mod_eq_of_lt hafter] at hs2
      exact ⟨m2, by simp [Op.run, position, h1], _, hh2, by simpa using hs2,
        by simpa using hafter⟩
    | some i =>
      have hi : i < ns.length := by simpa [Op.pre] using hpre
      have hget : ns[i]? = some ns[i] := List.getElem?_eq_getElem hi
      obtain ⟨m2, h1, hh2, hs2, _⟩ := InsertAfter_at v hh hs hget
      rw [Nat.mod_eq_of_lt hafter] at hs2
      have hl2 : (ns.take (i + 1) ++ (m.cells.length, v) :: ns.drop (i + 1)).length
          = ns.length + 1 := by
        simp
        omega
      exact ⟨m2, by simp [Op.run, position, nth_iterator_holds hh hget, h1], _, hh2,
        by rw [hs2, hl2], by rw [hl2]; exact hafter⟩
  | eraseAfter pos =>
    cases pos with
    | none =>
      cases ns with
      | nil => simp [Op.pre] at hpre
      | cons n rest =>
        obtain ⟨m2, h1, _, hh2, hs2, _⟩ := EraseAfter_front hh hs
        rw [dec_size (by simp) hlen] at hs2
        exact ⟨m2, by simp [Op.run, position, h1], rest, hh2, by simpa using hs2,
          by simp at hlen; omega⟩
    | some i =>
      have hi : i + 1 < ns.length := by simpa [Op.pre] using hpre
      have hget : ns[i]? = some ns[i] := List.getElem?_eq_getElem (by omega)
      have hget2 : ns[i + 1]? = some ns[i + 1] := List.getElem?_eq_getElem hi
      obtain ⟨m2, h1, hh2, hs2, _⟩ := EraseAfter_at hh hs hget hget2
      rw [dec_size (by omega) hlen] at hs2
      have hl2 : (ns.take (i + 1) ++ ns.drop (i + 2)).length = ns.length - 1 := by
        simp
        omega
      exact ⟨m2, by simp [Op.run, position, nth_iterator_holds hh hget, h1], _, hh2,
        by rw [hs2, hl2], by rw [hl2]; omega⟩
  | clear =>
    obtain ⟨m2, h1, hh2, hs2, _⟩ := Clear_holds ns m self ns.length fuel hh hs hf
    have hs3 := hs2 hlen
    rw [decs_all] at hs3
    exact ⟨m2, h1, [], hh2, hs3, by simp [SIZE_MOD]⟩

/-- What happens outside the precondition: `EraseAfter` called on the list
`{1, 2}` with the `begin()` of the other list `{3, 4}` returns, removes the `4`
of the other list and decrements the size of the first one, so neither size is
the number of elements any more. -/
theorem EraseAfter_foreign_position :
    ∃ it m2, EraseAfter mem12_34 0 ⟨Ptr.cell 3⟩ = Except.ok (it, m2)
      ∧ GetSize m2 0 = Except.ok 1 ∧ traverse 4 m2 0 = Except.ok [1, 2]
      ∧ GetSize m2 1 = Except.ok 2 ∧ traverse 4 m2 1 = Except.ok [3] :=
  ⟨_, _, rfl, rfl, rfl, rfl, rfl⟩

/-! ## The count invariant -/

/-- C18: the count invariant (the cached size is the number of nodes reachable
from the link of the sentinel) holds for a default-constructed list, for a list
built from an initializer list and for a copy-constructed list (whose source
keeps it).  On a list that has it, every call of `PushFront`, `PopFront`,
`InsertAfter`, `EraseAfter` and `Clear` made within its precondition (a
non-empty list for `PopFront`, a position of this list for `InsertAfter`, a
position of this list with a successor for `EraseAfter`), with the new number
of elements in the range of `size_t`, returns and keeps it; `swap` keeps it for
both lists; copy assignment keeps it for both lists. -/
theorem C18_count_invariant [Inhabited α] (m : Mem α) (self : Nat) (ns : List (Nat × α))
    (hh : m.Holds self ns) (hs : GetSize m self = Except.ok ns.length)
    (hlen : ns.length < SIZE_MOD) :
    (∀ m0 : Mem α, (SingleLinkedList.ctor m0).2.CountInv (SingleLinkedList.ctor m0).1)
    ∧ (∀ (m0 : Mem α) (vs : List α), vs.length < SIZE_MOD →
        ∃ s m2, SingleLinkedList.ofInitializerList m0 vs = Except.ok (s, m2) ∧ m2.CountInv s)
    ∧ (∀ fuel, ns.length < fuel →
        ∃ c m2, SingleLinkedList.ofCopy fuel m self = Except.ok (c, m2)
          ∧ m2.CountInv c ∧ m2.CountInv self)
    ∧ (∀ (op : Op α) (fuel : Nat), op.pre ns.length = true →
        op.lenAfter ns.length < SIZE_MOD → ns.length < fuel →
        ∃ m2, op.run fuel m self = Except.ok m2 ∧ m2.CountInv self)
    ∧ (∀ (b : Nat) (nb : List (Nat × α)), m.Holds b nb →
        GetSize m b = Except.ok nb.length → nb.length < SIZE_MOD →
        ∃ m2, swap m self b = Except.ok m2 ∧ m2.CountInv self ∧ m2.CountInv b)
    ∧ (∀ (b fuel : Nat) (nb : List (Nat × α)), m.Holds b nb →
        GetSize m b = Except.ok nb.length → nb.length < SIZE_MOD →
        (self ≠ b → (∀ x ∈ addrs nb, x ∉ addrs ns)) → ns.length < fuel → nb.length < fuel →
        ∃ m2, operator_assign fuel m self b = Except.ok m2
          ∧ m2.CountInv self ∧ m2.CountInv b) := by
  refine ⟨?_, ?_, ?_, ?_, ?_, ?_⟩
  · intro m0
    obtain ⟨h0, s0⟩ := ctor_holds m0
    exact ⟨[], h0, s0, by simp [SIZE_MOD]⟩
  · intro m0 vs hvs
    obtain ⟨h0, s0⟩ := newObj_holds m0
    by_cases hv : vs.length = 0
    · exact ⟨m0.newObj.1, m0.newObj.2, by simp [SingleLinkedList.ofInitializerList, hv],
        [], h0, s0, by simp [SIZE_MOD]⟩
    · obtain ⟨m2, ns2, h2, hh2, hv2, hs2⟩ :=
        initLoop_holds vs vs.length m0.newObj.2 m0.newObj.1 0 [] (le_refl _) h0 s0 (by omega)
      have hlen2 : ns2.length = vs.length := by
        have := congrArg List.length hv2
        simpa [values] using this
      exact ⟨m0.newObj.1, m2, by simp [SingleLinkedList.ofInitializerList, hv, h2],
        ns2, hh2, by rw [hs2, hlen2]; simp, by omega⟩
  · intro fuel hf
    obtain ⟨m2, nw, h1, hc, hv, _, hsc, _, hcells, _, hobjs, _⟩ := ofCopy_holds hh hf
    obtain ⟨hl1, _⟩ := Holds_lt hh
    obtain ⟨hL, hsL⟩ := Holds_of_same hh (hobjs self hl1) hcells
    have hlw := values_length hv
    exact ⟨m.objs.length, m2, h1,
      ⟨nw, hc, by rw [hsc, Nat.mod_eq_of_lt hlen, hlw], by omega⟩,
      ⟨ns, hL, by rw [hsL, hs], hlen⟩⟩
  · intro op fuel hpre hafter hf
    exact Op_step_count fuel op hh hs hlen hpre hafter hf
  · intro b nb hb hsb hlb
    obtain ⟨m2, h1, hh2a, hh2b, hs2a, hs2b, _⟩ := swap_holds hh hb hs hsb
    exact ⟨m2, h1, ⟨nb, hh2a, hs2a, hlb⟩, ⟨ns, hh2b, hs2b, hlen⟩⟩
  · intro b fuel nb hb hsb hlb hdis hfa hfb
    obtain ⟨m2, nw, h1, hA, hlw, hsA, hB⟩ := operator_assign_holds hh hb hsb hlb hdis hfa hfb
    have hinvA : m2.CountInv self := ⟨nw, hA, by rw [hsA, hlw], by omega⟩
    refine ⟨m2, h1, hinvA, ?_⟩
    by_cases hab : self = b
    · subst hab
      exact hinvA
    · obtain ⟨hB1, hB2⟩ := hB hab
      exact ⟨nb, hB1, hB2, hlb⟩

/-- C18, at a concrete input: `EraseAfter(begin())` on `{1, 2, 3}` keeps the
count invariant. -/
theorem C18_count_invariant_witness :
    ∃ m2, Op.run 4 mem123_124 0 (Op.eraseAfter (some 0)) = Except.ok m2 ∧ m2.CountInv 0 :=
  (C18_count_invariant mem123_124 0 [(2, 1), (1, 2), (0, 3)] holds_mem123_124_0 rfl
    (by simp [SIZE_MOD])).2.2.2.1 (Op.eraseAfter (some 0)) 4 rfl (by simp [Op.lenAfter, SIZE_MOD])
    (by decide)

theorem PopFront_on_empty {m : Mem α} {self : Nat} (hh : m.Holds self []) :
    PopFront m self = Except.error Fault.nullDeref := by
  obtain ⟨l, hl, hc⟩ := hh
  simp only [Mem.Chain] at hc
  simp [PopFront, Mem.load, hl, hc]

theorem EraseAfter_before_begin_on_empty {m : Mem α} {self : Nat} (hh : m.Holds self []) :
    EraseAfter m self (before_begin self) = Except.error Fault.nullDeref := by
  obtain ⟨l, hl, hc⟩ := hh
  simp only [Mem.Chain] at hc
  simp [EraseAfter, before_begin, Mem.load, hl, hc]

theorem EraseAfter_at_last {m : Mem α} {self i : Nat} {ns : List (Nat × α)} {n : Nat × α}
    (hh : m.Holds self ns) (hi : ns[i]? = some n) (hlast : i + 1 = ns.length) :
    EraseAfter m self ⟨Ptr.cell n.1⟩ = Except.error Fault.nullDeref := by
  obtain ⟨l, hl, hc⟩ := hh
  have hd := Chain_drop ns _ i n hc hi
  have hdrop : ns.drop i = [n] := by
    rw [List.drop_eq_getElem_cons (lt_of_getElem?_eq_some hi)]
    have h1 := List.getElem?_eq_getElem (lt_of_getElem?_eq_some hi)
    rw [hi] at h1
    rw [← Option.some.inj h1, List.drop_eq_nil_of_le (by omega)]
  rw [hdrop] at hd
  obtain ⟨_, c, hcell, _, hr⟩ := Chain_cell hd
  simp only [Mem.Chain] at hr
  simp [EraseAfter, Mem.load, hcell, hr]

/-! ## Contract violations -/

/-- C17: two of the contract violations are not caught by an assertion.
`PopFront()` on the empty list `{}` and `EraseAfter(pos)` at a position without
a successor (`before_begin()` of `{}`, `begin()` of `{1}`) contain no `assert`
for it and follow a null link.  `InsertAfter` and `EraseAfter` at `end()`, and
`*`, `++` on `end()` (a default-constructed iterator holds the same `nullptr`)
do fail their assertion. -/
theorem C17_PopFront_and_EraseAfter_follow_null_link :
    twoLists ([] : List Nat) [1] = Except.ok (0, 1, mem_empty_1)
    ∧ PopFront mem_empty_1 0 = Except.error Fault.nullDeref
    ∧ EraseAfter mem_empty_1 0 (before_begin 0) = Except.error Fault.nullDeref
    ∧ begin mem_empty_1 1 = Except.ok ⟨Ptr.cell 0⟩
    ∧ EraseAfter mem_empty_1 1 ⟨Ptr.cell 0⟩ = Except.error Fault.nullDeref
    ∧ (∀ (m : Mem Nat) (self v : Nat),
        InsertAfter m self end_ v = Except.error Fault.assertFailed)
    ∧ (∀ (m : Mem Nat) (self : Nat), EraseAfter m self end_ = Except.error Fault.assertFailed)
    ∧ (∀ m : Mem Nat, BasicIterator.deref m end_ = Except.error Fault.assertFailed)
    ∧ (∀ m : Mem Nat, BasicIterator.inc m end_ = Except.error Fault.assertFailed)
    ∧ (∀ m : Mem Nat, BasicIterator.postInc m end_ = Except.error Fault.assertFailed) :=
  ⟨rfl, rfl, rfl, rfl, rfl, fun _ _ _ => rfl, fun _ _ => rfl, fun _ => rfl, fun _ => rfl,
    fun _ => rfl⟩

end SLL
